import Mathlib

/-!
# Verification of the procedural maze generator core

A shallow embedding of the repository's core (`maze.py`, `algorithms/generators.py`,
`algorithms/solvers.py`) together with proofs of the spec's testable properties.

Modelling conventions:
* A `Cell` of the Python code is identified by its coordinates (equality and hashing
  are coordinate-based in the source); the mutable per-cell state (walls, visited,
  distance, parent) is stored in the `Maze` structure as total functions from
  coordinates, mirroring the in-place mutation of the grid cells.  Positions outside
  the grid never correspond to Python `Cell` objects; all observable statements
  restrict to in-bounds positions.
* The Python `random` module (a single process-global PRNG) is modelled by an oracle
  stream `sigma : Nat -> Nat` together with a cursor `k` that each primitive draw
  advances.  `random.seed(s)` corresponds to restarting the cursor at `0` on the
  stream determined by the seed.  Every concrete behaviour of the real PRNG is one
  such stream, so universally quantified theorems over `sigma` cover the program.
* Python loops are embedded as fuel-indexed structural recursions returning `Option`;
  a `some` result means the loop finished.  Termination claims become fuel-sufficiency
  theorems, and all definitions stay kernel-executable for concrete witnesses.
-/

set_option maxHeartbeats 1000000

namespace MazeGen

/-- The four cardinal directions (`Direction` in `maze.py`). -/
inductive Dir : Type where
  | north : Dir
  | south : Dir
  | east : Dir
  | west : Dir
deriving DecidableEq, Repr

/-- Iteration order of the Python `Direction` enum: NORTH, SOUTH, EAST, WEST. -/
def dirList : List Dir := [Dir.north, Dir.south, Dir.east, Dir.west]

/-- `Direction.delta`: the (dx, dy) offset of each direction. -/
def Dir.delta : Dir → Int × Int
  | Dir.north => (0, -1)
  | Dir.south => (0, 1)
  | Dir.east => (1, 0)
  | Dir.west => (-1, 0)

/-- `Direction.opposite`. -/
def Dir.opposite : Dir → Dir
  | Dir.north => Dir.south
  | Dir.south => Dir.north
  | Dir.east => Dir.west
  | Dir.west => Dir.east

/-- A cell position: the (x, y) coordinates identifying a `Cell`. -/
abbrev Pos : Type := Int × Int

/-- Move one step in a direction (`cell.x + dx, cell.y + dy`). -/
def posAdd (p : Pos) (d : Dir) : Pos := (p.1 + d.delta.1, p.2 + d.delta.2)

/-- The maze state (`Maze` in `maze.py`).  Per-cell mutable state is stored as
functions from positions; only in-bounds positions correspond to real cells. -/
@[ext]
structure Maze : Type where
  width : Nat
  height : Nat
  walls : Pos → Dir → Bool
  visited : Pos → Bool
  startPos : Option Pos
  endPos : Option Pos
  distance : Pos → Option Nat
  parent : Pos → Option Pos
  solutionPath : List Pos

/-- `Maze.__init__`: all cells fully walled, nothing visited, no endpoints. -/
def mkMaze (w h : Nat) : Maze where
  width := w
  height := h
  walls := fun _ _ => true
  visited := fun _ => false
  startPos := none
  endPos := none
  distance := fun _ => none
  parent := fun _ => none
  solutionPath := []

/-- `Maze.get_cell`: bounds-checked lookup, `none` outside the grid. -/
def Maze.getCell (m : Maze) (p : Pos) : Option Pos :=
  if 0 ≤ p.1 ∧ p.1 < (m.width : Int) ∧ 0 ≤ p.2 ∧ p.2 < (m.height : Int) then some p else none

/-- A position is inside the grid. -/
def Maze.inB (m : Maze) (p : Pos) : Prop :=
  0 ≤ p.1 ∧ p.1 < (m.width : Int) ∧ 0 ≤ p.2 ∧ p.2 < (m.height : Int)

instance (m : Maze) (p : Pos) : Decidable (m.inB p) := by
  unfold Maze.inB; infer_instance

theorem getCell_eq_some_iff {m : Maze} {p q : Pos} :
    m.getCell p = some q ↔ m.inB p ∧ q = p := by
  unfold Maze.getCell Maze.inB
  split <;> simp_all <;> tauto

theorem getCell_isSome_iff {m : Maze} {p : Pos} :
    (m.getCell p).isSome = true ↔ m.inB p := by
  unfold Maze.getCell Maze.inB
  split <;> simp_all

theorem getCell_eq_none_iff {m : Maze} {p : Pos} :
    m.getCell p = none ↔ ¬ m.inB p := by
  unfold Maze.getCell Maze.inB
  split <;> simp_all

/-- `Maze.get_neighbors`: the in-bounds neighbours, in NSEW order. -/
def Maze.neighbors (m : Maze) (p : Pos) : List Pos :=
  dirList.filterMap (fun d => m.getCell (posAdd p d))

/-- `Maze.get_unvisited_neighbors`. -/
def Maze.unvisitedNeighbors (m : Maze) (p : Pos) : List Pos :=
  (m.neighbors p).filter (fun q => ! m.visited q)

/-- `Maze._are_adjacent`: Manhattan distance exactly 1. -/
def areAdjacent (p q : Pos) : Bool :=
  ((p.1 - q.1).natAbs = 1 ∧ (p.2 - q.2).natAbs = 0) ∨
    ((p.1 - q.1).natAbs = 0 ∧ (p.2 - q.2).natAbs = 1)

/-- Clear one wall of one cell (`Cell.remove_wall`). -/
def Maze.removeWallAt (m : Maze) (p : Pos) (d : Dir) : Maze :=
  { m with walls := fun q e => if q = p ∧ e = d then false else m.walls q e }

/-- Mark one cell visited (`cell.visited = True`). -/
def Maze.setVisited (m : Maze) (p : Pos) : Maze :=
  { m with visited := fun q => if q = p then true else m.visited q }

/-- Set one cell's tentative distance (`cell.distance = n`). -/
def Maze.setDistance (m : Maze) (p : Pos) (n : Nat) : Maze :=
  { m with distance := fun q => if q = p then some n else m.distance q }

/-- Set one cell's parent pointer (`cell.parent = u`). -/
def Maze.setParent (m : Maze) (p : Pos) (u : Pos) : Maze :=
  { m with parent := fun q => if q = p then some u else m.parent q }

/-- `Maze.remove_wall_between`: returns `false` and changes nothing unless the two
cells are adjacent; otherwise clears the matching wall on both cells. -/
def Maze.removeWallBetween (m : Maze) (c1 c2 : Pos) : Maze × Bool :=
  if ¬ areAdjacent c1 c2 then (m, false)
  else if c2.1 - c1.1 = 1 then ((m.removeWallAt c1 Dir.east).removeWallAt c2 Dir.west, true)
  else if c2.1 - c1.1 = -1 then ((m.removeWallAt c1 Dir.west).removeWallAt c2 Dir.east, true)
  else if c2.2 - c1.2 = 1 then ((m.removeWallAt c1 Dir.south).removeWallAt c2 Dir.north, true)
  else if c2.2 - c1.2 = -1 then ((m.removeWallAt c1 Dir.north).removeWallAt c2 Dir.south, true)
  else (m, true)

/-- `Maze.set_start`. -/
def Maze.setStart (m : Maze) (x y : Int) : Maze × Bool :=
  match m.getCell (x, y) with
  | some p => ({ m with startPos := some p }, true)
  | none => (m, false)

/-- `Maze.set_end`. -/
def Maze.setEnd (m : Maze) (x y : Int) : Maze × Bool :=
  match m.getCell (x, y) with
  | some p => ({ m with endPos := some p }, true)
  | none => (m, false)

/-- `Maze.reset_solution`: clear the solution path and all distance/parent fields. -/
def Maze.resetSolution (m : Maze) : Maze :=
  { m with solutionPath := [], distance := fun _ => none, parent := fun _ => none }

/-- `Maze.reset_visited`. -/
def Maze.resetVisited (m : Maze) : Maze :=
  { m with visited := fun _ => false }

/-- All cell positions in row-major order (the grid iteration order). -/
def allCells (w h : Nat) : List Pos :=
  (List.range h).flatMap (fun y => (List.range w).map (fun x => (Int.ofNat x, Int.ofNat y)))

/-- One random draw: the oracle value at the cursor, reduced modulo `n`
(`random.randint(0, n-1)` and the index used by `random.choice` on a list of
length `n`). -/
def randBelow (σ : Nat → Nat) (k n : Nat) : Nat := σ k % n

/-- `Maze.get_random_cell`: two `randint` draws, x first then y. -/
def Maze.randomCell (m : Maze) (σ : Nat → Nat) (k : Nat) : Pos × Nat :=
  let x := randBelow σ k m.width
  let y := randBelow σ (k + 1) m.height
  (((x : Int), (y : Int)), k + 2)

/-! ## Generators (`algorithms/generators.py`) -/

/-- `MazeGenerator._reset_maze`: clear visited flags and restore all four walls of
every cell. -/
def resetMazeGen (m : Maze) : Maze :=
  { m.resetVisited with walls := fun _ _ => true }

/-- One default position used for the (never-taken) out-of-range list accesses. -/
def posDflt : Pos := (0, 0)

/-- The body of `DepthFirstSearchGenerator.generate`'s while-loop.  The Python
stack grows at the tail of a list; we keep the stack top at the head, which is the
same stack. -/
def dfsLoop (σ : Nat → Nat) : Nat → Maze → List Pos → Nat → Option (Maze × Nat)
  | 0, _, _, _ => none
  | _ + 1, m, [], k => some (m, k)
  | fuel + 1, m, current :: rest, k =>
    let uns := m.unvisitedNeighbors current
    if uns.isEmpty then
      dfsLoop σ fuel m rest k
    else
      let next := uns.getD (randBelow σ k uns.length) posDflt
      let m1 := m.setVisited next
      let m2 := (m1.removeWallBetween current next).1
      dfsLoop σ fuel m2 (next :: current :: rest) (k + 1)

/-- Fuel that always suffices for the DFS generator's loop. -/
def dfsFuel (m : Maze) : Nat := 2 * m.width * m.height + 1

/-- `DepthFirstSearchGenerator.generate`. -/
def dfsGenerate (σ : Nat → Nat) (k : Nat) (m0 : Maze) : Option (Maze × Nat) :=
  let m := resetMazeGen m0
  let sk := m.randomCell σ k
  let m1 := m.setVisited sk.1
  dfsLoop σ (dfsFuel m1) m1 [sk.1] sk.2

/-- The initial frontier of `PrimGenerator.generate`: all walls of the start cell
with an in-bounds neighbour, in NSEW order. -/
def primStartEdges (m : Maze) (p : Pos) : List (Pos × Pos × Dir) :=
  dirList.filterMap (fun d => (m.getCell (posAdd p d)).map (fun nb => (p, nb, d)))

/-- The walls appended after a cell joins the tree: its in-bounds unvisited
neighbours, in NSEW order. -/
def primNewEdges (m : Maze) (p : Pos) : List (Pos × Pos × Dir) :=
  dirList.filterMap (fun d =>
    match m.getCell (posAdd p d) with
    | some nb => if m.visited nb then none else some (p, nb, d)
    | none => none)

/-- The body of `PrimGenerator.generate`'s while-loop: pop a uniformly random
wall from the list; carve it if exactly one side is in the tree. -/
def primLoop (σ : Nat → Nat) : Nat → Maze → List (Pos × Pos × Dir) → Nat → Option (Maze × Nat)
  | 0, _, _, _ => none
  | _ + 1, m, [], k => some (m, k)
  | fuel + 1, m, walls@(_ :: _), k =>
    let i := randBelow σ k walls.length
    let w := walls.getD i (posDflt, posDflt, Dir.north)
    let walls1 := walls.eraseIdx i
    let k1 := k + 1
    if m.visited w.1 != m.visited w.2.1 then
      if ! m.visited w.2.1 then
        let m1 := m.setVisited w.2.1
        let m2 := (m1.removeWallBetween w.1 w.2.1).1
        primLoop σ fuel m2 (walls1 ++ primNewEdges m2 w.2.1) k1
      else
        primLoop σ fuel m walls1 k1
    else
      primLoop σ fuel m walls1 k1

/-- Fuel that always suffices for Prim's loop. -/
def primFuel (m : Maze) : Nat := 5 * m.width * m.height + 5

/-- `PrimGenerator.generate`. -/
def primGenerate (σ : Nat → Nat) (k : Nat) (m0 : Maze) : Option (Maze × Nat) :=
  let m := resetMazeGen m0
  let sk := m.randomCell σ k
  let m1 := m.setVisited sk.1
  primLoop σ (primFuel m1) m1 (primStartEdges m1 sk.1) sk.2

/-! ### Kruskal's generator: union-find with path compression and union by rank -/

/-- The union-find state: the `parent` and `rank` dictionaries of
`KruskalGenerator.generate` (`none` means the key is not in the dictionary;
ranks are only read after initialisation, so a total function default 0 is used). -/
structure UF : Type where
  parent : Pos → Option Pos
  rank : Pos → Nat

def ufInit : UF where
  parent := fun _ => none
  rank := fun _ => 0

/-- The lazy initialisation at the top of `find`: `if cell not in parent: ...`. -/
def ufEnsure (uf : UF) (c : Pos) : UF :=
  match uf.parent c with
  | some _ => uf
  | none =>
    { parent := fun q => if q = c then some c else uf.parent q,
      rank := fun q => if q = c then 0 else uf.rank q }

/-- `find` with path compression, fuelled (the source recursion terminates because
parent chains strictly ascend in rank). -/
def ufFind : Nat → UF → Pos → Option (Pos × UF)
  | 0, _, _ => none
  | fuel + 1, uf0, c =>
    let uf := ufEnsure uf0 c
    let p := (uf.parent c).getD c
    if p = c then some (c, uf)
    else
      match ufFind fuel uf p with
      | none => none
      | some (r, uf1) =>
        some (r, { uf1 with parent := fun q => if q = c then some r else uf1.parent q })

/-- `union`: returns whether the two cells were in different sets (and merges
them by rank if so). -/
def ufUnion (fuel : Nat) (uf : UF) (c1 c2 : Pos) : Option (Bool × UF) :=
  match ufFind fuel uf c1 with
  | none => none
  | some (r1, ufA) =>
    match ufFind fuel ufA c2 with
    | none => none
    | some (r2, ufB) =>
      if r1 = r2 then some (false, ufB)
      else if ufB.rank r1 < ufB.rank r2 then
        some (true, { ufB with parent := fun q => if q = r1 then some r2 else ufB.parent q })
      else if ufB.rank r2 < ufB.rank r1 then
        some (true, { ufB with parent := fun q => if q = r2 then some r1 else ufB.parent q })
      else
        some (true,
          { parent := fun q => if q = r2 then some r1 else ufB.parent q,
            rank := fun q => if q = r1 then ufB.rank r1 + 1 else ufB.rank q })

/-- The edge list of `KruskalGenerator.generate`: per cell in row-major order,
the east edge then the south edge (when the neighbour exists). -/
def kruskalEdges (w h : Nat) : List (Pos × Pos) :=
  (List.range h).flatMap (fun y =>
    (List.range w).flatMap (fun x =>
      (if x + 1 < w then [((Int.ofNat x, Int.ofNat y), (Int.ofNat x + 1, Int.ofNat y))] else []) ++
      (if y + 1 < h then [((Int.ofNat x, Int.ofNat y), (Int.ofNat x, Int.ofNat y + 1))] else [])))

/-- One Fisher-Yates swap of the elements at positions `i` and `j`. -/
def swapIdx {α : Type} (l : List α) (i j : Nat) (dflt : α) : List α :=
  (l.set i (l.getD j dflt)).set j (l.getD i dflt)

/-- `random.shuffle`: Fisher-Yates, `i` running from `len-1` down to `1`, one
draw `j <= i` per step. -/
def shuffleGo {α : Type} (σ : Nat → Nat) (dflt : α) : Nat → Nat → List α → List α × Nat
  | 0, k, l => (l, k)
  | i + 1, k, l =>
    let j := randBelow σ k (i + 2)
    shuffleGo σ dflt i (k + 1) (swapIdx l (i + 1) j dflt)

def shuffleList {α : Type} (σ : Nat → Nat) (k : Nat) (l : List α) (dflt : α) : List α × Nat :=
  shuffleGo σ dflt (l.length - 1) k l

/-- Fuel that always suffices for `find` (parent chains strictly ascend in rank,
and every rank is at most the number of unions performed, itself at most the
number of edges). -/
def kruskalFindFuel (m : Maze) : Nat := 2 * m.width * m.height + 2

/-- The edge-processing loop of `KruskalGenerator.generate`. -/
def kruskalLoop (ffuel : Nat) : List (Pos × Pos) → Maze → UF → Option (Maze × UF)
  | [], m, uf => some (m, uf)
  | (c1, c2) :: rest, m, uf =>
    match ufUnion ffuel uf c1 c2 with
    | none => none
    | some (true, uf1) => kruskalLoop ffuel rest ((m.removeWallBetween c1 c2).1) uf1
    | some (false, uf1) => kruskalLoop ffuel rest m uf1

/-- `KruskalGenerator.generate`. -/
def kruskalGenerate (σ : Nat → Nat) (k : Nat) (m0 : Maze) : Option (Maze × Nat) :=
  let m := resetMazeGen m0
  let ek := shuffleList σ k (kruskalEdges m.width m.height) (posDflt, posDflt)
  match kruskalLoop (kruskalFindFuel m) ek.1 m ufInit with
  | none => none
  | some (m1, _) => some (m1, ek.2)

/-! ### Wilson's generator: loop-erased random walks -/

/-- The random-walk loop of `WilsonGenerator.generate`: walk until a visited cell
is reached, erasing loops as they occur.  A walk need not terminate for an
adversarial draw sequence, hence the fuel. -/
def wilsonWalk (σ : Nat → Nat) (m : Maze) : Nat → Nat → List Pos → Pos → Option (List Pos × Nat)
  | 0, _, _, _ => none
  | fuel + 1, k, path, current =>
    if m.visited current then some (path, k)
    else
      let nbs := m.neighbors current
      if nbs.isEmpty then some (path, k)
      else
        let next := nbs.getD (randBelow σ k nbs.length) posDflt
        let k1 := k + 1
        if next ∈ path then
          wilsonWalk σ m fuel k1 (path.take (path.indexOf next + 1)) next
        else
          wilsonWalk σ m fuel k1 (path ++ [next]) next

/-- The carving loop: mark each path cell visited, carve the wall to its
successor, and drop it from the unvisited list. -/
def wilsonCarve : List Pos → Maze → List Pos → Maze × List Pos
  | [], m, unvisited => (m, unvisited)
  | [_], m, unvisited => (m, unvisited)
  | p :: q :: rest, m, unvisited =>
    let m1 := m.setVisited p
    let m2 := (m1.removeWallBetween p q).1
    wilsonCarve (q :: rest) m2 (unvisited.erase p)

/-- The outer loop of `WilsonGenerator.generate`, fuelled by the number of
still-unvisited cells. -/
def wilsonLoop (σ : Nat → Nat) (wfuel : Nat) : Nat → Maze → List Pos → Nat → Option (Maze × Nat)
  | 0, _, _, _ => none
  | _ + 1, m, [], k => some (m, k)
  | ofuel + 1, m, unvisited@(_ :: _), k =>
    let c := unvisited.getD (randBelow σ k unvisited.length) posDflt
    let k1 := k + 1
    match wilsonWalk σ m wfuel k1 [c] c with
    | none => none
    | some (path, k2) =>
      let mu := wilsonCarve path m unvisited
      let unvisited2 := mu.2.filter (fun q => ! mu.1.visited q)
      wilsonLoop σ wfuel ofuel mu.1 unvisited2 k2

/-- `WilsonGenerator.generate`.  `wfuel` bounds each random walk; the outer loop
needs at most one pass per cell. -/
def wilsonGenerate (σ : Nat → Nat) (k : Nat) (m0 : Maze) (wfuel : Nat) : Option (Maze × Nat) :=
  let m := resetMazeGen m0
  let sk := m.randomCell σ k
  let m1 := m.setVisited sk.1
  let unvisited := (allCells m1.width m1.height).filter (fun c => ! m1.visited c)
  wilsonLoop σ wfuel (m1.width * m1.height + 1) m1 unvisited sk.2

/-! ## Solvers (`algorithms/solvers.py`) -/

/-- `MazeSolver._get_accessible_neighbors`: in-bounds neighbours with no wall on
this cell's side, in NSEW order. -/
def Maze.accessibleNeighbors (m : Maze) (p : Pos) : List Pos :=
  dirList.filterMap (fun d => if m.walls p d then none else m.getCell (posAdd p d))

/-- `MazeSolver._reconstruct_path`: follow parent pointers from the end cell and
return the cells in start-to-end order. -/
def reconstructPath (m : Maze) : Nat → Pos → List Pos → Option (List Pos)
  | 0, _, _ => none
  | fuel + 1, c, acc =>
    match m.parent c with
    | none => some (c :: acc)
    | some u => reconstructPath m fuel u (c :: acc)

/-- Fuel that always suffices to follow a strictly-descending parent chain. -/
def reconFuel (m : Maze) : Nat := m.width * m.height + 1

/-- The neighbour-relaxation fold of `BreadthFirstSearchSolver.solve`:
returns the updated maze, visited set, and the cells appended to the queue. -/
def bfsRelax (current : Pos) : Maze → (Pos → Bool) → List Pos → List Pos →
    Maze × (Pos → Bool) × List Pos
  | m, vis, qadd, [] => (m, vis, qadd)
  | m, vis, qadd, nb :: rest =>
    if vis nb then bfsRelax current m vis qadd rest
    else
      let vis1 := fun q => if q = nb then true else vis q
      let m1 := m.setDistance nb ((m.distance current).getD 0 + 1)
      let m2 := m1.setParent nb current
      bfsRelax current m2 vis1 (qadd ++ [nb]) rest

/-- The while-loop of `BreadthFirstSearchSolver.solve` (FIFO queue, front at the
list head, appends at the tail). -/
def bfsLoop : Nat → Maze → List Pos → (Pos → Bool) → Option (List Pos × Maze)
  | 0, _, _, _ => none
  | _ + 1, m, [], _ => some ([], m)
  | fuel + 1, m, current :: rest, vis =>
    if m.endPos = some current then
      match reconstructPath m (reconFuel m) current [] with
      | none => none
      | some path => some (path, { m with solutionPath := path })
    else
      let r := bfsRelax current m vis [] (m.accessibleNeighbors current)
      bfsLoop fuel r.1 (rest ++ r.2.2) r.2.1

def bfsFuel (m : Maze) : Nat := 2 * m.width * m.height + 1

/-- `BreadthFirstSearchSolver.solve`.  Note the early `[]` return for unset
endpoints happens before `reset_solution`. -/
def bfsSolve (m : Maze) : Option (List Pos × Maze) :=
  match m.startPos, m.endPos with
  | some s, some _ =>
    let m1 := m.resetSolution
    let m2 := m1.setDistance s 0
    bfsLoop (bfsFuel m2) m2 [s] (fun q => q = s)
  | _, _ => some ([], m)

/-- The neighbour fold of `DepthFirstSearchSolver.solve` (no distances; pushes
onto the stack, whose top is the list head, so successive pushes end up popped
in reverse append order exactly like the Python list). -/
def dfsSolveRelax (current : Pos) : Maze → (Pos → Bool) → List Pos → List Pos →
    Maze × (Pos → Bool) × List Pos
  | m, vis, stack, [] => (m, vis, stack)
  | m, vis, stack, nb :: rest =>
    if vis nb then dfsSolveRelax current m vis stack rest
    else
      let vis1 := fun q => if q = nb then true else vis q
      let m1 := m.setParent nb current
      dfsSolveRelax current m1 vis1 (nb :: stack) rest

/-- The while-loop of `DepthFirstSearchSolver.solve`. -/
def dfsSolveLoop : Nat → Maze → List Pos → (Pos → Bool) → Option (List Pos × Maze)
  | 0, _, _, _ => none
  | _ + 1, m, [], _ => some ([], m)
  | fuel + 1, m, current :: rest, vis =>
    if m.endPos = some current then
      match reconstructPath m (reconFuel m) current [] with
      | none => none
      | some path => some (path, { m with solutionPath := path })
    else
      let r := dfsSolveRelax current m vis rest (m.accessibleNeighbors current)
      dfsSolveLoop fuel r.1 r.2.2 r.2.1

/-- `DepthFirstSearchSolver.solve`. -/
def dfsSolve (m : Maze) : Option (List Pos × Maze) :=
  match m.startPos, m.endPos with
  | some s, some _ =>
    let m1 := m.resetSolution
    dfsSolveLoop (bfsFuel m1) m1 [s] (fun q => q = s)
  | _, _ => some ([], m)

/-! ### Priority-queue solvers.  `heapq` pops the least entry of the heap's
multiset under the lexicographic order on `(priority, cell.x, cell.y)` (Python
tuple comparison with the coordinate-based `Cell.__lt__`); entries with equal
keys are equal values, so a pop-minimum on a plain list is value-faithful. -/

/-- Strict lexicographic order on priority-queue entries. -/
def pqLt (a b : Nat × Pos) : Bool :=
  a.1 < b.1 ∨ (a.1 = b.1 ∧ (a.2.1 < b.2.1 ∨ (a.2.1 = b.2.1 ∧ a.2.2 < b.2.2)))

/-- `heapq.heappop`: remove and return the least entry. -/
def popMin (l : List (Nat × Pos)) : Option ((Nat × Pos) × List (Nat × Pos)) :=
  match l with
  | [] => none
  | x :: xs =>
    let mn := xs.foldl (fun acc y => if pqLt y acc then y else acc) x
    some (mn, l.erase mn)

/-- The neighbour relaxation of `DijkstraSolver.solve`. -/
def dijkstraRelax (current : Pos) (cdist : Nat) : Maze → (Pos → Bool) →
    List (Nat × Pos) → List Pos → Maze × List (Nat × Pos)
  | m, _, pq, [] => (m, pq)
  | m, vis, pq, nb :: rest =>
    if vis nb then dijkstraRelax current cdist m vis pq rest
    else
      let nd := cdist + 1
      if (m.distance nb).isNone ∨ nd < (m.distance nb).getD 0 then
        let m1 := (m.setDistance nb nd).setParent nb current
        dijkstraRelax current cdist m1 vis (pq ++ [(nd, nb)]) rest
      else
        dijkstraRelax current cdist m vis pq rest

/-- The while-loop of `DijkstraSolver.solve` (lazy deletion: entries whose cell
is already finalised are skipped at pop time). -/
def dijkstraLoop : Nat → Maze → List (Nat × Pos) → (Pos → Bool) → Option (List Pos × Maze)
  | 0, _, _, _ => none
  | fuel + 1, m, pq, vis =>
    match popMin pq with
    | none => some ([], m)
    | some ((cdist, current), pq1) =>
      if vis current then dijkstraLoop fuel m pq1 vis
      else
        let vis1 := fun q => if q = current then true else vis q
        if m.endPos = some current then
          match reconstructPath m (reconFuel m) current [] with
          | none => none
          | some path => some (path, { m with solutionPath := path })
        else
          let r := dijkstraRelax current cdist m vis1 pq1 (m.accessibleNeighbors current)
          dijkstraLoop fuel r.1 r.2 vis1

def dijkstraFuel (m : Maze) : Nat := 5 * m.width * m.height + 2

/-- `DijkstraSolver.solve`. -/
def dijkstraSolve (m : Maze) : Option (List Pos × Maze) :=
  match m.startPos, m.endPos with
  | some s, some _ =>
    let m1 := m.resetSolution
    let m2 := m1.setDistance s 0
    dijkstraLoop (dijkstraFuel m2) m2 [(0, s)] (fun _ => false)
  | _, _ => some ([], m)

/-- The Manhattan-distance heuristic of `AStarSolver.solve` (integer-valued:
`abs` of integer differences). -/
def manhattan (p q : Pos) : Nat := (p.1 - q.1).natAbs + (p.2 - q.2).natAbs

/-- The `g_scores` / `f_scores` dictionaries of `AStarSolver.solve`. -/
structure AStarMaps : Type where
  g : Pos → Option Nat
  f : Pos → Option Nat

/-- The neighbour relaxation of `AStarSolver.solve`. -/
def astarRelax (current : Pos) (epos : Pos) : Maze → AStarMaps → (Pos → Bool) →
    List (Nat × Pos) → List Pos → Maze × AStarMaps × List (Nat × Pos)
  | m, gs, _, pq, [] => (m, gs, pq)
  | m, gs, vis, pq, nb :: rest =>
    if vis nb then astarRelax current epos m gs vis pq rest
    else
      let tg := (gs.g current).getD 0 + 1
      if (gs.g nb).isNone ∨ tg < (gs.g nb).getD 0 then
        let m1 := (m.setParent nb current).setDistance nb tg
        let fscore := tg + manhattan nb epos
        let gs1 : AStarMaps :=
          { g := fun q => if q = nb then some tg else gs.g q,
            f := fun q => if q = nb then some fscore else gs.f q }
        astarRelax current epos m1 gs1 vis (pq ++ [(fscore, nb)]) rest
      else
        astarRelax current epos m gs vis pq rest

/-- The while-loop of `AStarSolver.solve`. -/
def astarLoop (epos : Pos) : Nat → Maze → AStarMaps → List (Nat × Pos) → (Pos → Bool) →
    Option (List Pos × Maze)
  | 0, _, _, _, _ => none
  | fuel + 1, m, gs, pq, vis =>
    match popMin pq with
    | none => some ([], m)
    | some ((_, current), pq1) =>
      if vis current then astarLoop epos fuel m gs pq1 vis
      else
        let vis1 := fun q => if q = current then true else vis q
        if m.endPos = some current then
          match reconstructPath m (reconFuel m) current [] with
          | none => none
          | some path => some (path, { m with solutionPath := path })
        else
          let r := astarRelax current epos m gs vis1 pq1 (m.accessibleNeighbors current)
          astarLoop epos fuel r.1 r.2.1 r.2.2 vis1

/-- `AStarSolver.solve`. -/
def astarSolve (m : Maze) : Option (List Pos × Maze) :=
  match m.startPos, m.endPos with
  | some s, some e =>
    let m1 := m.resetSolution
    let m2 := m1.setDistance s 0
    let h0 := manhattan s e
    let gs : AStarMaps := { g := fun q => if q = s then some 0 else none,
                            f := fun q => if q = s then some h0 else none }
    astarLoop e (dijkstraFuel m2) m2 gs [(h0, s)] (fun _ => false)
  | _, _ => some ([], m)

/-! ### Wall follower -/

/-- `WallFollowerSolver._turn_right`. -/
def turnRight : Dir → Dir
  | Dir.north => Dir.east
  | Dir.east => Dir.south
  | Dir.south => Dir.west
  | Dir.west => Dir.north

/-- `WallFollowerSolver._turn_left`. -/
def turnLeft : Dir → Dir
  | Dir.north => Dir.west
  | Dir.west => Dir.south
  | Dir.south => Dir.east
  | Dir.east => Dir.north

/-- The while-loop of `WallFollowerSolver.solve`.  Each iteration records the
`(position, facing)` state and returns the empty path if it repeats.  In the
right-turn branch the facing is updated before the move is attempted, so a
failed move falls through to the forward test with the new facing (which
re-checks the identical wall and neighbour and necessarily falls to the left
turn). -/
def wfLoop (m : Maze) : Nat → Pos → Dir → List Pos → List (Pos × Dir) →
    Option (List Pos × Maze)
  | 0, _, _, _, _ => none
  | fuel + 1, current, facing, path, states =>
    if m.endPos = some current then some (path, { m with solutionPath := path })
    else if (current, facing) ∈ states then some ([], m)
    else
      let states1 := (current, facing) :: states
      let rdir := turnRight facing
      if ! m.walls current rdir then
        match m.getCell (posAdd current rdir) with
        | some next => wfLoop m fuel next rdir (path ++ [next]) states1
        | none =>
          match m.getCell (posAdd current rdir) with
          | some next => wfLoop m fuel next rdir (path ++ [next]) states1
          | none => wfLoop m fuel current (turnLeft rdir) path states1
      else if ! m.walls current facing then
        match m.getCell (posAdd current facing) with
        | some next => wfLoop m fuel next facing (path ++ [next]) states1
        | none => wfLoop m fuel current (turnLeft facing) path states1
      else
        wfLoop m fuel current (turnLeft facing) path states1

def wfFuel (m : Maze) : Nat := 4 * m.width * m.height + 2

/-- `WallFollowerSolver.solve`: start at `start` facing north. -/
def wallFollowerSolve (m : Maze) : Option (List Pos × Maze) :=
  match m.startPos, m.endPos with
  | some s, some _ =>
    let m1 := m.resetSolution
    wfLoop m1 (wfFuel m1) s Dir.north [s] []
  | _, _ => some ([], m)

/-- The generation algorithms, for claims quantifying over all four. -/
inductive GenAlg : Type where
  | dfs : GenAlg
  | prim : GenAlg
  | kruskal : GenAlg
  | wilson : GenAlg
deriving DecidableEq, Repr

/-- Run a generator (`wfuel` bounds each of Wilson's random walks and is unused
by the other three, which always terminate). -/
def runGen : GenAlg → (Nat → Nat) → Nat → Maze → Nat → Option (Maze × Nat)
  | GenAlg.dfs, σ, k, m, _ => dfsGenerate σ k m
  | GenAlg.prim, σ, k, m, _ => primGenerate σ k m
  | GenAlg.kruskal, σ, k, m, _ => kruskalGenerate σ k m
  | GenAlg.wilson, σ, k, m, wfuel => wilsonGenerate σ k m wfuel

/-- The solving algorithms. -/
inductive SolAlg : Type where
  | bfs : SolAlg
  | dfs : SolAlg
  | dijkstra : SolAlg
  | astar : SolAlg
  | wallFollower : SolAlg
deriving DecidableEq, Repr

def runSolve : SolAlg → Maze → Option (List Pos × Maze)
  | SolAlg.bfs, m => bfsSolve m
  | SolAlg.dfs, m => dfsSolve m
  | SolAlg.dijkstra, m => dijkstraSolve m
  | SolAlg.astar, m => astarSolve m
  | SolAlg.wallFollower, m => wallFollowerSolve m

/-! ## The passage graph and the spec's invariants -/

/-- There is an open passage from `p` one step in direction `d`: both cells are
in bounds and `p`'s wall towards `d` is absent. -/
def passageB (m : Maze) (p : Pos) (d : Dir) : Bool :=
  (m.getCell p).isSome && (m.getCell (posAdd p d)).isSome && ! m.walls p d

/-- One wall-respecting step of the passage graph. -/
def Step (m : Maze) (a b : Pos) : Prop :=
  ∃ d, passageB m a d = true ∧ b = posAdd a d

/-- Wall-respecting reachability. -/
def Conn (m : Maze) : Pos → Pos → Prop := Relation.ReflTransGen (Step m)

/-- The symmetric-wall invariant: every pair of grid-adjacent cells agree on the
wall between them. -/
def wallSym (m : Maze) : Prop :=
  ∀ p d, m.inB p → m.inB (posAdd p d) → m.walls p d = m.walls (posAdd p d) d.opposite

/-- All grid-boundary walls (walls facing out of the grid) are present. -/
def boundaryOk (m : Maze) : Prop :=
  ∀ p d, ¬ m.inB (posAdd p d) → m.walls p d = true

/-- Positions outside the grid (which carry no real cell) keep all walls. -/
def oobOk (m : Maze) : Prop :=
  ∀ p d, ¬ m.inB p → m.walls p d = true

/-- Number of visited cells. -/
def visitedCount (m : Maze) : Nat :=
  (allCells m.width m.height).countP (fun p => m.visited p)

/-- Number of removed internal walls: each removed wall joins an ordered pair of
adjacent in-bounds cells exactly once in the east or south direction. -/
def removedCount (m : Maze) : Nat :=
  (allCells m.width m.height).countP (fun p => passageB m p Dir.east) +
    (allCells m.width m.height).countP (fun p => passageB m p Dir.south)

/-- The spanning-tree conclusion of the spec: every pair of cells is connected
through passages and exactly `w*h - 1` internal walls were removed. -/
def SpanningTree (m : Maze) : Prop :=
  (∀ p q, m.inB p → m.inB q → Conn m p q) ∧ removedCount m + 1 = m.width * m.height

/-! ### Basic lemmas about the model -/

theorem dir_delta_cases (d : Dir) :
    d.delta = (0, -1) ∨ d.delta = (0, 1) ∨ d.delta = (1, 0) ∨ d.delta = (-1, 0) := by
  cases d <;> simp [Dir.delta]

@[simp] theorem posAdd_opposite (p : Pos) (d : Dir) : posAdd (posAdd p d) d.opposite = p := by
  cases d <;> simp [posAdd, Dir.delta, Dir.opposite] <;> omega

theorem posAdd_ne (p : Pos) (d : Dir) : posAdd p d ≠ p := by
  cases d <;> simp [posAdd, Dir.delta, Prod.ext_iff] <;> omega

theorem posAdd_inj {p q : Pos} {d : Dir} (h : posAdd p d = posAdd q d) : p = q := by
  cases d <;>
    simpa [posAdd, Dir.delta, Prod.ext_iff] using h

@[simp] theorem opposite_opposite (d : Dir) : d.opposite.opposite = d := by
  cases d <;> rfl

/-- Width and height are never changed by the updaters. -/
@[simp] theorem removeWallAt_width (m : Maze) (p : Pos) (d : Dir) :
    (m.removeWallAt p d).width = m.width := rfl
@[simp] theorem removeWallAt_height (m : Maze) (p : Pos) (d : Dir) :
    (m.removeWallAt p d).height = m.height := rfl
@[simp] theorem setVisited_width (m : Maze) (p : Pos) : (m.setVisited p).width = m.width := rfl
@[simp] theorem setVisited_height (m : Maze) (p : Pos) : (m.setVisited p).height = m.height := rfl
@[simp] theorem setVisited_walls (m : Maze) (p : Pos) : (m.setVisited p).walls = m.walls := rfl
@[simp] theorem removeWallAt_visited (m : Maze) (p : Pos) (d : Dir) :
    (m.removeWallAt p d).visited = m.visited := rfl
@[simp] theorem setDistance_width (m : Maze) (p : Pos) (n : Nat) :
    (m.setDistance p n).width = m.width := rfl
@[simp] theorem setDistance_height (m : Maze) (p : Pos) (n : Nat) :
    (m.setDistance p n).height = m.height := rfl
@[simp] theorem setParent_width (m : Maze) (p u : Pos) : (m.setParent p u).width = m.width := rfl
@[simp] theorem setParent_height (m : Maze) (p u : Pos) : (m.setParent p u).height = m.height := rfl
@[simp] theorem setDistance_walls (m : Maze) (p : Pos) (n : Nat) :
    (m.setDistance p n).walls = m.walls := rfl
@[simp] theorem setParent_walls (m : Maze) (p u : Pos) : (m.setParent p u).walls = m.walls := rfl

@[simp] theorem setVisited_visited (m : Maze) (p q : Pos) :
    (m.setVisited p).visited q = (if q = p then true else m.visited q) := rfl
@[simp] theorem setDistance_distance (m : Maze) (p q : Pos) (n : Nat) :
    (m.setDistance p n).distance q = (if q = p then some n else m.distance q) := rfl
@[simp] theorem setParent_parent (m : Maze) (p u q : Pos) :
    (m.setParent p u).parent q = (if q = p then some u else m.parent q) := rfl

theorem removeWallBetween_width (m : Maze) (c1 c2 : Pos) :
    (m.removeWallBetween c1 c2).1.width = m.width := by
  unfold Maze.removeWallBetween
  repeat' split
  all_goals rfl

theorem removeWallBetween_height (m : Maze) (c1 c2 : Pos) :
    (m.removeWallBetween c1 c2).1.height = m.height := by
  unfold Maze.removeWallBetween
  repeat' split
  all_goals rfl

theorem removeWallBetween_visited (m : Maze) (c1 c2 : Pos) :
    (m.removeWallBetween c1 c2).1.visited = m.visited := by
  unfold Maze.removeWallBetween
  repeat' split
  all_goals rfl

/-- The direction taking an adjacent pair's first cell to its second. -/
theorem areAdjacent_iff (c1 c2 : Pos) :
    areAdjacent c1 c2 = true ↔ ∃ d, c2 = posAdd c1 d := by
  constructor
  · intro h
    simp only [areAdjacent, decide_eq_true_eq] at h
    rcases h with ⟨h1, h2⟩ | ⟨h1, h2⟩
    · rcases Int.natAbs_eq_iff.mp h1 with h | h
      · exact ⟨Dir.west, by simp [posAdd, Dir.delta, Prod.ext_iff]; omega⟩
      · exact ⟨Dir.east, by simp [posAdd, Dir.delta, Prod.ext_iff]; omega⟩
    · rcases Int.natAbs_eq_iff.mp h2 with h | h
      · exact ⟨Dir.north, by simp [posAdd, Dir.delta, Prod.ext_iff]; omega⟩
      · exact ⟨Dir.south, by simp [posAdd, Dir.delta, Prod.ext_iff]; omega⟩
  · rintro ⟨d, rfl⟩
    cases d <;> simp [areAdjacent, posAdd, Dir.delta] <;> omega

/-- `remove_wall_between` on an adjacent pair, written with the direction. -/
theorem removeWallBetween_posAdd (m : Maze) (p : Pos) (d : Dir) :
    m.removeWallBetween p (posAdd p d) =
      ((m.removeWallAt p d).removeWallAt (posAdd p d) d.opposite, true) := by
  cases d <;>
    norm_num [Maze.removeWallBetween, areAdjacent, posAdd, Dir.delta, Dir.opposite]

/-- The wall function after a two-sided removal. -/
theorem removeWallBetween_walls (m : Maze) (p : Pos) (d : Dir) (q : Pos) (e : Dir) :
    (m.removeWallBetween p (posAdd p d)).1.walls q e =
      (if (q = p ∧ e = d) ∨ (q = posAdd p d ∧ e = d.opposite) then false else m.walls q e) := by
  rw [removeWallBetween_posAdd]
  simp only [Maze.removeWallAt]
  by_cases h1 : q = posAdd p d ∧ e = d.opposite
  · simp [h1]
  · by_cases h2 : q = p ∧ e = d
    · have hne : ¬ (q = posAdd p d ∧ e = d.opposite) := h1
      simp [h2, h1]
    · simp [h1, h2]

theorem removeWallBetween_not_adjacent (m : Maze) (c1 c2 : Pos)
    (h : areAdjacent c1 c2 = false) : m.removeWallBetween c1 c2 = (m, false) := by
  unfold Maze.removeWallBetween
  simp [h]

/-! ### Walks in a step relation

The generators only ever carve walls between cells that are not yet connected,
so the passage graph stays a forest: between any two cells there is at most one
duplicate-free walk.  This section develops that argument for an abstract step
relation on positions. -/

/-- A walk in relation `E` from `p` to `q` visiting exactly the cells of `l`. -/
inductive Walk (E : Pos → Pos → Prop) : Pos → Pos → List Pos → Prop where
  | single (p : Pos) : Walk E p p [p]
  | cons {p q r : Pos} {l : List Pos} : E p q → Walk E q r l → Walk E p r (p :: l)

/-- Between any two endpoints there is at most one duplicate-free walk. -/
def UniqueWalks (E : Pos → Pos → Prop) : Prop :=
  ∀ p q l1 l2, Walk E p q l1 → l1.Nodup → Walk E p q l2 → l2.Nodup → l1 = l2

theorem Walk.ne_nil {E : Pos → Pos → Prop} {p q : Pos} {l : List Pos} (w : Walk E p q l) :
    l ≠ [] := by
  cases w <;> simp

theorem Walk.cons_inv {E : Pos → Pos → Prop} {p q a : Pos} {l : List Pos}
    (w : Walk E p q (a :: l)) :
    a = p ∧ ((l = [] ∧ q = p) ∨ ∃ b t, l = b :: t ∧ E p b ∧ Walk E b q l) := by
  cases w with
  | single => exact ⟨rfl, Or.inl ⟨rfl, rfl⟩⟩
  | cons h w' =>
    refine ⟨rfl, ?_⟩
    cases w' with
    | single => exact Or.inr ⟨_, [], rfl, h, Walk.single _⟩
    | cons h' w'' => exact Or.inr ⟨_, _, rfl, h, Walk.cons h' w''⟩

theorem Walk.head_eq {E : Pos → Pos → Prop} {p q a : Pos} {l : List Pos}
    (w : Walk E p q (a :: l)) : a = p := w.cons_inv.1

theorem Walk.start_mem {E : Pos → Pos → Prop} {p q : Pos} {l : List Pos}
    (w : Walk E p q l) : p ∈ l := by
  cases w with
  | single => simp
  | cons h w' => simp

theorem Walk.end_mem {E : Pos → Pos → Prop} {p q : Pos} {l : List Pos}
    (w : Walk E p q l) : q ∈ l := by
  induction w with
  | single => simp
  | cons h _ ih => simp [ih]

theorem Walk.toConn {E : Pos → Pos → Prop} {p q : Pos} {l : List Pos}
    (w : Walk E p q l) : Relation.ReflTransGen E p q := by
  induction w with
  | single => exact Relation.ReflTransGen.refl
  | cons h _ ih => exact Relation.ReflTransGen.head h ih

theorem conn_toWalk {E : Pos → Pos → Prop} {p q : Pos}
    (h : Relation.ReflTransGen E p q) : ∃ l, Walk E p q l := by
  induction h using Relation.ReflTransGen.head_induction_on with
  | refl => exact ⟨[q], Walk.single q⟩
  | head hab _ ih =>
    obtain ⟨l, w⟩ := ih
    exact ⟨_, Walk.cons hab w⟩

theorem conn_symm {E : Pos → Pos → Prop} (hsym : ∀ a b, E a b → E b a) {p q : Pos}
    (h : Relation.ReflTransGen E p q) : Relation.ReflTransGen E q p := by
  induction h with
  | refl => exact Relation.ReflTransGen.refl
  | tail hab hbc ih => exact Relation.ReflTransGen.head (hsym _ _ hbc) ih

/-- Split a walk at an occurrence of a cell. -/
theorem Walk.split {E : Pos → Pos → Prop} {p r x : Pos} {l1 l2 : List Pos}
    (w : Walk E p r (l1 ++ x :: l2)) :
    Walk E p x (l1 ++ [x]) ∧ Walk E x r (x :: l2) := by
  induction l1 generalizing p with
  | nil =>
    simp only [List.nil_append] at w
    obtain rfl : x = p := w.head_eq
    exact ⟨by simpa using Walk.single x, w⟩
  | cons a t ih =>
    simp only [List.cons_append] at w ⊢
    obtain rfl : a = p := w.head_eq
    rcases w.cons_inv.2 with ⟨hl, _⟩ | ⟨b, t', hl, hE, w'⟩
    · exact absurd hl (by simp)
    · obtain ⟨w1, w2⟩ := ih w'
      exact ⟨Walk.cons hE w1, w2⟩

/-- Concatenate two walks sharing the middle endpoint. -/
theorem Walk.glue {E : Pos → Pos → Prop} {p x q : Pos} {l1 l2 : List Pos}
    (w1 : Walk E p x (l1 ++ [x])) (w2 : Walk E x q (x :: l2)) :
    Walk E p q (l1 ++ x :: l2) := by
  induction l1 generalizing p with
  | nil =>
    simp only [List.nil_append] at w1 ⊢
    obtain rfl : x = p := w1.head_eq
    exact w2
  | cons a t ih =>
    simp only [List.cons_append] at w1 ⊢
    obtain rfl : a = p := w1.head_eq
    rcases w1.cons_inv.2 with ⟨hl, _⟩ | ⟨b, t', hl, hE, w'⟩
    · simp at hl
    · exact Walk.cons hE (ih w')

/-- Extract a duplicate from a non-`Nodup` list. -/
theorem exists_dup_split {l : List Pos} (h : ¬ l.Nodup) :
    ∃ x a1 a2 a3, l = a1 ++ x :: (a2 ++ x :: a3) := by
  induction l with
  | nil => simp at h
  | cons a t ih =>
    by_cases ha : a ∈ t
    · obtain ⟨t1, t2, rfl⟩ := List.append_of_mem ha
      exact ⟨a, [], t1, t2, by simp⟩
    · have ht : ¬ t.Nodup := fun hn => h (List.nodup_cons.mpr ⟨ha, hn⟩)
      obtain ⟨x, a1, a2, a3, rfl⟩ := ih ht
      exact ⟨x, a :: a1, a2, a3, by simp⟩

/-- Every walk contains a duplicate-free walk between the same endpoints that is
no longer. -/
theorem walk_toSimple_aux {E : Pos → Pos → Prop} :
    ∀ (n : Nat) {p q : Pos} {l : List Pos}, l.length ≤ n → Walk E p q l →
      ∃ l', Walk E p q l' ∧ l'.Nodup ∧ l'.length ≤ l.length := by
  intro n
  induction n with
  | zero =>
    intro p q l hl w
    cases w <;> simp at hl
  | succ n ih =>
    intro p q l hl w
    by_cases hnd : l.Nodup
    · exact ⟨l, w, hnd, le_refl _⟩
    · obtain ⟨x, a1, a2, a3, rfl⟩ := exists_dup_split hnd
      have h1 := (@Walk.split E p q x a1 (a2 ++ x :: a3) w).1
      have h2 := (@Walk.split E p q x a1 (a2 ++ x :: a3) w).2
      have h3 := (@Walk.split E x q x (x :: a2) a3 (by simpa using h2)).2
      have wshort : Walk E p q (a1 ++ x :: a3) := Walk.glue h1 h3
      have hlen : (a1 ++ x :: a3).length < (a1 ++ x :: (a2 ++ x :: a3)).length := by
        simp; omega
      obtain ⟨l', w', hnd', hle'⟩ := ih (by simp at hl hlen ⊢; omega) wshort
      exact ⟨l', w', hnd', le_trans hle' (le_of_lt hlen)⟩

theorem Walk.toSimple {E : Pos → Pos → Prop} {p q : Pos} {l : List Pos}
    (w : Walk E p q l) : ∃ l', Walk E p q l' ∧ l'.Nodup ∧ l'.length ≤ l.length :=
  walk_toSimple_aux l.length (le_refl _) w

theorem Walk.shape {E : Pos → Pos → Prop} {p q : Pos} {l : List Pos} (w : Walk E p q l) :
    ∃ t, l = p :: t := by
  cases w <;> exact ⟨_, rfl⟩

theorem Walk.congrRel {E F : Pos → Pos → Prop} (h : ∀ a b, E a b → F a b) {p q : Pos}
    {l : List Pos} (w : Walk E p q l) : Walk F p q l := by
  induction w with
  | single => exact Walk.single _
  | cons hE _ ih => exact Walk.cons (h _ _ hE) ih

/-- The relation obtained by adding the undirected edge `u`-`v`. -/
def addEdgeRel (E : Pos → Pos → Prop) (u v : Pos) (a b : Pos) : Prop :=
  E a b ∨ (a = u ∧ b = v) ∨ (a = v ∧ b = u)

/-- The number of traversals of the undirected edge `u`-`v` along a cell list. -/
def uvSteps (u v : Pos) : List Pos → Nat
  | a :: b :: t =>
    (if (a = u ∧ b = v) ∨ (a = v ∧ b = u) then 1 else 0) + uvSteps u v (b :: t)
  | _ => 0

theorem walk_of_no_uv {E : Pos → Pos → Prop} {u v p q : Pos} {l : List Pos}
    (w : Walk (addEdgeRel E u v) p q l) (h : uvSteps u v l = 0) : Walk E p q l := by
  induction w with
  | single => exact Walk.single _
  | cons hE w' ih =>
    rename_i p' b r l'
    obtain ⟨t, rfl⟩ := w'.shape
    rw [uvSteps] at h
    have hpair : ¬ ((p' = u ∧ b = v) ∨ (p' = v ∧ b = u)) := by
      by_contra hc
      simp [hc] at h
    have hE' : E p' b := by
      rcases hE with h' | h' | h'
      · exact h'
      · exact absurd (Or.inl h') hpair
      · exact absurd (Or.inr h') hpair
    exact Walk.cons hE' (ih (by simpa [hpair] using h))

theorem uv_mem {u v : Pos} : ∀ {l : List Pos}, 1 ≤ uvSteps u v l → u ∈ l ∧ v ∈ l := by
  intro l
  induction l with
  | nil => simp [uvSteps]
  | cons a t ih =>
    cases t with
    | nil => simp [uvSteps]
    | cons b t' =>
      intro h
      rw [uvSteps] at h
      by_cases hp : (a = u ∧ b = v) ∨ (a = v ∧ b = u)
      · rcases hp with ⟨rfl, rfl⟩ | ⟨rfl, rfl⟩ <;> simp
      · have := ih (by simpa [hp] using h)
        exact ⟨List.mem_cons_of_mem _ this.1, List.mem_cons_of_mem _ this.2⟩

theorem nodup_uvSteps_le_one {u v : Pos} : ∀ {l : List Pos}, l.Nodup → uvSteps u v l ≤ 1 := by
  intro l
  induction l with
  | nil => simp [uvSteps]
  | cons a t ih =>
    cases t with
    | nil => simp [uvSteps]
    | cons b t' =>
      intro hnd
      rw [uvSteps]
      by_cases hp : (a = u ∧ b = v) ∨ (a = v ∧ b = u)
      · have htail : uvSteps u v (b :: t') = 0 := by
          by_contra hc
          have h1 : 1 ≤ uvSteps u v (b :: t') := Nat.one_le_iff_ne_zero.mpr hc
          have hm := uv_mem h1
          have ha : a ∉ b :: t' := (List.nodup_cons.mp hnd).1
          rcases hp with ⟨rfl, _⟩ | ⟨rfl, _⟩
          · exact ha hm.1
          · exact ha hm.2
        simp [hp, htail]
      · have := ih (List.nodup_cons.mp hnd).2
        simpa [hp] using this

/-- A duplicate-free walk that traverses the added edge decomposes into two old
walks joined by that edge. -/
theorem walk_uv_decomp {E : Pos → Pos → Prop} {u v p q : Pos} {l : List Pos}
    (w : Walk (addEdgeRel E u v) p q l) (hnd : l.Nodup) (h1 : uvSteps u v l = 1) :
    (∃ l1 l2, l = l1 ++ u :: v :: l2 ∧ Walk E p u (l1 ++ [u]) ∧ Walk E v q (v :: l2)) ∨
    (∃ l1 l2, l = l1 ++ v :: u :: l2 ∧ Walk E p v (l1 ++ [v]) ∧ Walk E u q (u :: l2)) := by
  induction w with
  | single => simp [uvSteps] at h1
  | cons hE w' ih =>
    rename_i p' b r l'
    obtain ⟨t, rfl⟩ := w'.shape
    rw [uvSteps] at h1
    by_cases hp : (p' = u ∧ b = v) ∨ (p' = v ∧ b = u)
    · have htail : uvSteps u v (b :: t) = 0 := by
        rcases hp with hp' | hp' <;> simp [hp'] at h1 ⊢ <;> omega
      have wold : Walk E b r (b :: t) := walk_of_no_uv w' htail
      rcases hp with ⟨rfl, rfl⟩ | ⟨rfl, rfl⟩
      · exact Or.inl ⟨[], t, by simp, by simpa using Walk.single p', wold⟩
      · exact Or.inr ⟨[], t, by simp, by simpa using Walk.single p', wold⟩
    · have htail : uvSteps u v (b :: t) = 1 := by simpa [hp] using h1
      have hE' : E p' b := by
        rcases hE with h' | h' | h'
        · exact h'
        · exact absurd (Or.inl h') hp
        · exact absurd (Or.inr h') hp
      rcases ih (List.nodup_cons.mp hnd).2 htail with
        ⟨l1, l2, hl, wa, wb⟩ | ⟨l1, l2, hl, wa, wb⟩
      · refine Or.inl ⟨p' :: l1, l2, by simp [hl], ?_, wb⟩
        have hh : l1 ++ [u] = b :: (l1 ++ [u]).tail := by
          obtain ⟨t', ht'⟩ := wa.shape
          simp [ht']
        exact List.cons_append p' l1 [u] ▸ Walk.cons hE' wa
      · refine Or.inr ⟨p' :: l1, l2, by simp [hl], ?_, wb⟩
        exact List.cons_append p' l1 [v] ▸ Walk.cons hE' wa

/-- Adding an edge between two cells that are not yet connected preserves
uniqueness of duplicate-free walks. -/
theorem uniqueWalks_addEdge {E : Pos → Pos → Prop} (hsym : ∀ a b, E a b → E b a)
    {u v : Pos} (hnc : ¬ Relation.ReflTransGen E u v) (hU : UniqueWalks E) :
    UniqueWalks (addEdgeRel E u v) := by
  intro p q l1 l2 w1 nd1 w2 nd2
  have hs1 := nodup_uvSteps_le_one (u := u) (v := v) nd1
  have hs2 := nodup_uvSteps_le_one (u := u) (v := v) nd2
  have noconn : ∀ {a b : Pos}, Relation.ReflTransGen E a u → Relation.ReflTransGen E a b →
      Relation.ReflTransGen E v b → False := by
    intro a b hau hab hvb
    exact hnc (((conn_symm hsym hau).trans hab).trans (conn_symm hsym hvb))
  have ndsplit : ∀ (x y : Pos) (a b : List Pos), (a ++ x :: y :: b).Nodup →
      (a ++ [x]).Nodup ∧ (y :: b).Nodup := by
    intro x y a b hnd
    have hsplit : a ++ x :: y :: b = (a ++ [x]) ++ y :: b := by simp
    rw [hsplit] at hnd
    exact ⟨hnd.sublist (List.sublist_append_left _ _),
      hnd.sublist (List.sublist_append_right _ _)⟩
  rcases Nat.le_one_iff_eq_zero_or_eq_one.mp hs1 with h1 | h1 <;>
    rcases Nat.le_one_iff_eq_zero_or_eq_one.mp hs2 with h2 | h2
  · exact hU p q l1 l2 (walk_of_no_uv w1 h1) nd1 (walk_of_no_uv w2 h2) nd2
  · -- w2 crosses the new edge, w1 does not: the endpoints would connect u to v
    exfalso
    have wold : Walk E p q l1 := walk_of_no_uv w1 h1
    rcases walk_uv_decomp w2 nd2 h2 with ⟨a, b, hl, wa, wb⟩ | ⟨a, b, hl, wa, wb⟩
    · exact noconn wa.toConn wold.toConn wb.toConn
    · exact hnc (wb.toConn.trans ((conn_symm hsym wold.toConn).trans wa.toConn))
  · exfalso
    have wold : Walk E p q l2 := walk_of_no_uv w2 h2
    rcases walk_uv_decomp w1 nd1 h1 with ⟨a, b, hl, wa, wb⟩ | ⟨a, b, hl, wa, wb⟩
    · exact noconn wa.toConn wold.toConn wb.toConn
    · exact hnc (wb.toConn.trans ((conn_symm hsym wold.toConn).trans wa.toConn))
  · rcases walk_uv_decomp w1 nd1 h1 with ⟨a, b, hla, wa, wb⟩ | ⟨a, b, hla, wa, wb⟩ <;>
      rcases walk_uv_decomp w2 nd2 h2 with ⟨c, d, hlc, wc, wd⟩ | ⟨c, d, hlc, wc, wd⟩
    · -- both cross u -> v: the pieces coincide by uniqueness in the old graph
      obtain ⟨nda, ndb⟩ := ndsplit u v a b (hla ▸ nd1)
      obtain ⟨ndc, ndd⟩ := ndsplit u v c d (hlc ▸ nd2)
      have e1 : a ++ [u] = c ++ [u] := hU p u _ _ wa nda wc ndc
      have e2 : (v :: b) = v :: d := hU v q _ _ wb ndb wd ndd
      rw [hla, hlc, List.append_cancel_right e1]
      simp only [List.cons.injEq] at e2
      rw [e2.2]
    · -- w1 crosses u -> v while w2 crosses v -> u: impossible
      exact absurd (Relation.ReflTransGen.trans (conn_symm hsym wa.toConn) wc.toConn) hnc
    · exact absurd (Relation.ReflTransGen.trans (conn_symm hsym wc.toConn) wa.toConn) hnc
    · -- both cross v -> u
      obtain ⟨nda, ndb⟩ := ndsplit v u a b (hla ▸ nd1)
      obtain ⟨ndc, ndd⟩ := ndsplit v u c d (hlc ▸ nd2)
      have e1 : a ++ [v] = c ++ [v] := hU p v _ _ wa nda wc ndc
      have e2 : (u :: b) = u :: d := hU u q _ _ wb ndb wd ndd
      rw [hla, hlc, List.append_cancel_right e1]
      simp only [List.cons.injEq] at e2
      rw [e2.2]

/-! ### Counting utilities -/

theorem mem_allCells {w h : Nat} {p : Pos} :
    p ∈ allCells w h ↔ 0 ≤ p.1 ∧ p.1 < (w : Int) ∧ 0 ≤ p.2 ∧ p.2 < (h : Int) := by
  obtain ⟨x, y⟩ := p
  constructor
  · intro hmem
    unfold allCells at hmem
    rw [List.mem_flatMap] at hmem
    obtain ⟨b, hb, hx⟩ := hmem
    rw [List.mem_map] at hx
    obtain ⟨a, ha, hax⟩ := hx
    rw [List.mem_range] at hb ha
    cases hax
    refine ⟨?_, ?_, ?_, ?_⟩ <;> simp <;> omega
  · rintro ⟨h1, h2, h3, h4⟩
    unfold allCells
    rw [List.mem_flatMap]
    refine ⟨y.toNat, by rw [List.mem_range]; omega, ?_⟩
    rw [List.mem_map]
    refine ⟨x.toNat, by rw [List.mem_range]; omega, ?_⟩
    rw [Prod.mk.injEq]
    constructor <;> simp <;> omega

theorem allCells_nodup (w h : Nat) : (allCells w h).Nodup := by
  unfold allCells
  refine List.nodup_flatMap.mpr ⟨?_, ?_⟩
  · intro y _
    have hr : (List.range w).Nodup := List.nodup_range w
    exact hr.map (fun a b hab => by simpa using hab)
  · have hnd : (List.range h).Nodup := List.nodup_range h
    refine hnd.imp ?_
    intro y1 y2 hne q hq1 hq2
    simp only [Function.onFun, List.mem_map, List.mem_range] at hq1 hq2
    obtain ⟨x1, _, rfl⟩ := hq1
    obtain ⟨x2, _, h2⟩ := hq2
    apply hne
    have := congrArg Prod.snd h2
    simp at this
    omega

theorem allCells_length (w h : Nat) : (allCells w h).length = w * h := by
  induction h with
  | zero => simp [allCells]
  | succ n ih =>
    unfold allCells at ih ⊢
    rw [List.range_succ]
    simp only [List.flatMap_append, List.length_append, ih]
    simp [Nat.mul_succ]

theorem countP_congr_eq {f g : Pos → Bool} : ∀ {l : List Pos},
    (∀ a ∈ l, f a = g a) → l.countP f = l.countP g := by
  intro l
  induction l with
  | nil => simp
  | cons a t ih =>
    intro h
    rw [List.countP_cons, List.countP_cons, h a (by simp), ih (fun b hb => h b (by simp [hb]))]

/-- Flipping one list element's predicate value from false to true raises the
count by one. -/
theorem countP_flip_one {f g : Pos → Bool} {a : Pos} : ∀ {l : List Pos},
    l.Nodup → a ∈ l → f a = false → g a = true → (∀ b, b ≠ a → g b = f b) →
    l.countP g = l.countP f + 1 := by
  intro l
  induction l with
  | nil => simp
  | cons x t ih =>
    intro hnd hmem hf hg hoth
    rw [List.countP_cons, List.countP_cons]
    rcases List.mem_cons.mp hmem with rfl | hat
    · have hnot : a ∉ t := (List.nodup_cons.mp hnd).1
      have : t.countP g = t.countP f := countP_congr_eq (fun b hb => hoth b (fun hba => hnot (hba ▸ hb)))
      rw [this, hf, hg]
      simp
    · have hxa : x ≠ a := by
        rintro rfl
        exact (List.nodup_cons.mp hnd).1 hat
      rw [hoth x hxa, ih (List.nodup_cons.mp hnd).2 hat hf hg hoth]
      ring

/-! ### Passage-graph lemmas -/

theorem getCell_dims_eq {m m' : Maze} (hw : m'.width = m.width) (hh : m'.height = m.height)
    (p : Pos) : m'.getCell p = m.getCell p := by
  unfold Maze.getCell
  rw [hw, hh]

theorem inB_dims_eq {m m' : Maze} (hw : m'.width = m.width) (hh : m'.height = m.height)
    (p : Pos) : m'.inB p ↔ m.inB p := by
  unfold Maze.inB
  rw [hw, hh]

@[simp] theorem passageB_setVisited (m : Maze) (v p : Pos) (d : Dir) :
    passageB (m.setVisited v) p d = passageB m p d := rfl

@[simp] theorem step_setVisited (m : Maze) (v : Pos) :
    Step (m.setVisited v) = Step m := rfl

@[simp] theorem conn_setVisited (m : Maze) (v : Pos) :
    Conn (m.setVisited v) = Conn m := rfl

@[simp] theorem neighbors_setVisited (m : Maze) (v p : Pos) :
    (m.setVisited v).neighbors p = m.neighbors p := rfl

theorem neighbors_removeWallBetween (m : Maze) (c1 c2 p : Pos) :
    ((m.removeWallBetween c1 c2).1).neighbors p = m.neighbors p := by
  unfold Maze.neighbors
  congr 1
  funext d
  exact getCell_dims_eq (removeWallBetween_width m c1 c2) (removeWallBetween_height m c1 c2) _

theorem mem_neighbors {m : Maze} {p q : Pos} :
    q ∈ m.neighbors p ↔ ∃ d, q = posAdd p d ∧ m.inB q := by
  unfold Maze.neighbors
  simp only [List.mem_filterMap]
  constructor
  · rintro ⟨d, _, hc⟩
    obtain ⟨hB, rfl⟩ := getCell_eq_some_iff.mp hc
    exact ⟨d, rfl, hB⟩
  · rintro ⟨d, rfl, hB⟩
    refine ⟨d, ?_, getCell_eq_some_iff.mpr ⟨hB, rfl⟩⟩
    cases d <;> simp [dirList]

theorem mem_unvisitedNeighbors {m : Maze} {p q : Pos} :
    q ∈ m.unvisitedNeighbors p ↔ q ∈ m.neighbors p ∧ m.visited q = false := by
  unfold Maze.unvisitedNeighbors
  simp

theorem mem_accessibleNeighbors {m : Maze} {p q : Pos} :
    q ∈ m.accessibleNeighbors p ↔ ∃ d, q = posAdd p d ∧ m.inB q ∧ m.walls p d = false := by
  unfold Maze.accessibleNeighbors
  simp only [List.mem_filterMap]
  constructor
  · rintro ⟨d, _, hc⟩
    by_cases hw : m.walls p d
    · simp [hw] at hc
    · simp only [hw, if_false, Bool.false_eq_true] at hc
      obtain ⟨hB, rfl⟩ := getCell_eq_some_iff.mp hc
      exact ⟨d, rfl, hB, by simpa using hw⟩
  · rintro ⟨d, rfl, hB, hw⟩
    refine ⟨d, ?_, ?_⟩
    · cases d <;> simp [dirList]
    · simp [hw, getCell_eq_some_iff.mpr ⟨hB, rfl⟩]

theorem getD_mem {l : List Pos} (h : l ≠ []) (σ : Nat → Nat) (k : Nat) (dflt : Pos) :
    l.getD (randBelow σ k l.length) dflt ∈ l := by
  have hlen : 0 < l.length := List.length_pos.mpr h
  have hidx : randBelow σ k l.length < l.length := Nat.mod_lt _ hlen
  rw [List.getD_eq_getElem l dflt hidx]
  exact List.getElem_mem hidx

/-- Characterisation of the passages after a two-sided wall removal between
adjacent in-bounds cells. -/
theorem passageB_removeWB (m : Maze) (u : Pos) (d : Dir)
    (hu : m.inB u) (hv : m.inB (posAdd u d)) (p : Pos) (e : Dir) :
    passageB (m.removeWallBetween u (posAdd u d)).1 p e = true ↔
      (passageB m p e = true ∨ (p = u ∧ e = d) ∨ (p = posAdd u d ∧ e = d.opposite)) := by
  have hw := removeWallBetween_width m u (posAdd u d)
  have hh := removeWallBetween_height m u (posAdd u d)
  unfold passageB
  rw [getCell_dims_eq hw hh, getCell_dims_eq hw hh, removeWallBetween_walls]
  by_cases hcase : (p = u ∧ e = d) ∨ (p = posAdd u d ∧ e = d.opposite)
  · rw [if_pos hcase]
    constructor
    · intro _
      rcases hcase with hc | hc
      · exact Or.inr (Or.inl hc)
      · exact Or.inr (Or.inr hc)
    · intro _
      rcases hcase with ⟨hp, he⟩ | ⟨hp, he⟩
      · rw [hp, he]
        simp [getCell_isSome_iff, hu, hv]
      · rw [hp, he]
        simp [getCell_isSome_iff, hu, hv]
  · rw [if_neg hcase]
    simp only [hcase, or_false]

theorem step_removeWB (m : Maze) (u : Pos) (d : Dir)
    (hu : m.inB u) (hv : m.inB (posAdd u d)) (a b : Pos) :
    Step (m.removeWallBetween u (posAdd u d)).1 a b ↔
      addEdgeRel (Step m) u (posAdd u d) a b := by
  constructor
  · rintro ⟨e, hp, rfl⟩
    rcases (passageB_removeWB m u d hu hv a e).mp hp with h | ⟨rfl, rfl⟩ | ⟨rfl, rfl⟩
    · exact Or.inl ⟨e, h, rfl⟩
    · exact Or.inr (Or.inl ⟨rfl, rfl⟩)
    · exact Or.inr (Or.inr ⟨rfl, by simp⟩)
  · rintro (⟨e, hp, rfl⟩ | ⟨ha, hb⟩ | ⟨ha, hb⟩)
    · exact ⟨e, (passageB_removeWB m u d hu hv a e).mpr (Or.inl hp), rfl⟩
    · rw [ha, hb]
      exact ⟨d, (passageB_removeWB m u d hu hv u d).mpr (Or.inr (Or.inl ⟨rfl, rfl⟩)), rfl⟩
    · rw [ha, hb]
      exact ⟨d.opposite,
        (passageB_removeWB m u d hu hv _ d.opposite).mpr (Or.inr (Or.inr ⟨rfl, rfl⟩)),
        by simp⟩

theorem boolEq_of_iff {a b : Bool} (h : a = true ↔ b = true) : a = b := by
  cases a <;> cases b <;> simp_all

theorem inB_mem_allCells {m : Maze} {p : Pos} (h : m.inB p) :
    p ∈ allCells m.width m.height := mem_allCells.mpr h

/-- Number of unvisited cells. -/
def uvCount (m : Maze) : Nat :=
  (allCells m.width m.height).countP (fun p => ! m.visited p)

theorem visitedCount_setVisited {m : Maze} {v : Pos} (hvB : m.inB v)
    (hv : m.visited v = false) :
    visitedCount (m.setVisited v) = visitedCount m + 1 := by
  unfold visitedCount
  simp only [setVisited_width, setVisited_height]
  refine countP_flip_one (allCells_nodup _ _) (inB_mem_allCells hvB) hv (by simp) ?_
  intro b hb
  simp [hb]

theorem uvCount_setVisited {m : Maze} {v : Pos} (hvB : m.inB v)
    (hv : m.visited v = false) :
    uvCount m = uvCount (m.setVisited v) + 1 := by
  unfold uvCount
  simp only [setVisited_width, setVisited_height]
  refine countP_flip_one (allCells_nodup _ _) (inB_mem_allCells hvB) (by simp) (by simp [hv]) ?_
  intro b hb
  simp [hb]

theorem visitedCount_removeWB (m : Maze) (c1 c2 : Pos) :
    visitedCount (m.removeWallBetween c1 c2).1 = visitedCount m := by
  unfold visitedCount
  rw [removeWallBetween_width, removeWallBetween_height, removeWallBetween_visited]

theorem uniqueWalks_empty {E : Pos → Pos → Prop} (h : ∀ a b, ¬ E a b) : UniqueWalks E := by
  intro p q l1 l2 w1 _ w2 _
  cases w1 with
  | single =>
    cases w2 with
    | single => rfl
    | cons hE _ => exact absurd hE (h _ _)
  | cons hE _ => exact absurd hE (h _ _)

theorem uniqueWalks_of_iff {E F : Pos → Pos → Prop} (h : ∀ a b, E a b ↔ F a b)
    (hU : UniqueWalks E) : UniqueWalks F := by
  intro p q l1 l2 w1 n1 w2 n2
  exact hU p q l1 l2 (w1.congrRel (fun a b => (h a b).mpr)) n1
    (w2.congrRel (fun a b => (h a b).mpr)) n2

theorem step_symm_of_wallSym {m : Maze} (hsym : wallSym m) {a b : Pos} (h : Step m a b) :
    Step m b a := by
  obtain ⟨d, hp, rfl⟩ := h
  unfold passageB at hp
  simp only [Bool.and_eq_true, Bool.not_eq_true'] at hp
  obtain ⟨⟨ha, hb⟩, hw⟩ := hp
  have haB := getCell_isSome_iff.mp ha
  have hbB := getCell_isSome_iff.mp hb
  refine ⟨d.opposite, ?_, by simp⟩
  unfold passageB
  simp only [Bool.and_eq_true, Bool.not_eq_true']
  refine ⟨⟨hb, by simpa using ha⟩, ?_⟩
  have hs := hsym a d haB hbB
  rw [hs] at hw
  exact hw

/-- Carving one wall raises the removed-wall count by exactly one. -/
theorem removedCount_carve (m : Maze) (u : Pos) (d : Dir)
    (hu : m.inB u) (hv : m.inB (posAdd u d))
    (h1 : passageB m u d = false) (h2 : passageB m (posAdd u d) d.opposite = false) :
    removedCount (m.removeWallBetween u (posAdd u d)).1 = removedCount m + 1 := by
  have hw := removeWallBetween_width m u (posAdd u d)
  have hh := removeWallBetween_height m u (posAdd u d)
  have hchar := passageB_removeWB m u d hu hv
  unfold removedCount
  rw [hw, hh]
  cases d with
  | east =>
    have heast : (allCells m.width m.height).countP
          (fun p => passageB (m.removeWallBetween u (posAdd u Dir.east)).1 p Dir.east) =
        (allCells m.width m.height).countP (fun p => passageB m p Dir.east) + 1 := by
      refine countP_flip_one (allCells_nodup _ _) (inB_mem_allCells hu) h1
        ((hchar u Dir.east).mpr (Or.inr (Or.inl ⟨rfl, rfl⟩))) ?_
      intro b hb
      refine boolEq_of_iff ?_
      rw [hchar b Dir.east]
      constructor
      · rintro (h | ⟨hbu, _⟩ | ⟨_, he⟩)
        · exact h
        · exact absurd hbu hb
        · simp [Dir.opposite] at he
      · exact Or.inl
    have hsouth : (allCells m.width m.height).countP
          (fun p => passageB (m.removeWallBetween u (posAdd u Dir.east)).1 p Dir.south) =
        (allCells m.width m.height).countP (fun p => passageB m p Dir.south) := by
      refine countP_congr_eq ?_
      intro b _
      refine boolEq_of_iff ?_
      rw [hchar b Dir.south]
      constructor
      · rintro (h | ⟨_, he⟩ | ⟨_, he⟩)
        · exact h
        · simp at he
        · simp [Dir.opposite] at he
      · exact Or.inl
    omega
  | west =>
    have heast : (allCells m.width m.height).countP
          (fun p => passageB (m.removeWallBetween u (posAdd u Dir.west)).1 p Dir.east) =
        (allCells m.width m.height).countP (fun p => passageB m p Dir.east) + 1 := by
      refine countP_flip_one (allCells_nodup _ _) (inB_mem_allCells hv)
        (by simpa [Dir.opposite] using h2)
        ((hchar (posAdd u Dir.west) Dir.east).mpr (Or.inr (Or.inr ⟨rfl, rfl⟩))) ?_
      intro b hb
      refine boolEq_of_iff ?_
      rw [hchar b Dir.east]
      constructor
      · rintro (h | ⟨_, he⟩ | ⟨hbv, _⟩)
        · exact h
        · simp at he
        · exact absurd hbv hb
      · exact Or.inl
    have hsouth : (allCells m.width m.height).countP
          (fun p => passageB (m.removeWallBetween u (posAdd u Dir.west)).1 p Dir.south) =
        (allCells m.width m.height).countP (fun p => passageB m p Dir.south) := by
      refine countP_congr_eq ?_
      intro b _
      refine boolEq_of_iff ?_
      rw [hchar b Dir.south]
      constructor
      · rintro (h | ⟨_, he⟩ | ⟨_, he⟩)
        · exact h
        · simp at he
        · simp [Dir.opposite] at he
      · exact Or.inl
    omega
  | south =>
    have hsouth : (allCells m.width m.height).countP
          (fun p => passageB (m.removeWallBetween u (posAdd u Dir.south)).1 p Dir.south) =
        (allCells m.width m.height).countP (fun p => passageB m p Dir.south) + 1 := by
      refine countP_flip_one (allCells_nodup _ _) (inB_mem_allCells hu) h1
        ((hchar u Dir.south).mpr (Or.inr (Or.inl ⟨rfl, rfl⟩))) ?_
      intro b hb
      refine boolEq_of_iff ?_
      rw [hchar b Dir.south]
      constructor
      · rintro (h | ⟨hbu, _⟩ | ⟨_, he⟩)
        · exact h
        · exact absurd hbu hb
        · simp [Dir.opposite] at he
      · exact Or.inl
    have heast : (allCells m.width m.height).countP
          (fun p => passageB (m.removeWallBetween u (posAdd u Dir.south)).1 p Dir.east) =
        (allCells m.width m.height).countP (fun p => passageB m p Dir.east) := by
      refine countP_congr_eq ?_
      intro b _
      refine boolEq_of_iff ?_
      rw [hchar b Dir.east]
      constructor
      · rintro (h | ⟨_, he⟩ | ⟨_, he⟩)
        · exact h
        · simp at he
        · simp [Dir.opposite] at he
      · exact Or.inl
    omega
  | north =>
    have hsouth : (allCells m.width m.height).countP
          (fun p => passageB (m.removeWallBetween u (posAdd u Dir.north)).1 p Dir.south) =
        (allCells m.width m.height).countP (fun p => passageB m p Dir.south) + 1 := by
      refine countP_flip_one (allCells_nodup _ _) (inB_mem_allCells hv)
        (by simpa [Dir.opposite] using h2)
        ((hchar (posAdd u Dir.north) Dir.south).mpr (Or.inr (Or.inr ⟨rfl, rfl⟩))) ?_
      intro b hb
      refine boolEq_of_iff ?_
      rw [hchar b Dir.south]
      constructor
      · rintro (h | ⟨_, he⟩ | ⟨hbv, _⟩)
        · exact h
        · simp at he
        · exact absurd hbv hb
      · exact Or.inl
    have heast : (allCells m.width m.height).countP
          (fun p => passageB (m.removeWallBetween u (posAdd u Dir.north)).1 p Dir.east) =
        (allCells m.width m.height).countP (fun p => passageB m p Dir.east) := by
      refine countP_congr_eq ?_
      intro b _
      refine boolEq_of_iff ?_
      rw [hchar b Dir.east]
      constructor
      · rintro (h | ⟨_, he⟩ | ⟨_, he⟩)
        · exact h
        · simp at he
        · simp [Dir.opposite] at he
      · exact Or.inl
    omega

/-! ### The single-tree generator invariant

Shared by the DFS, Prim and Wilson proofs: the visited cells form one connected
component of the passage graph, the passage graph has unique duplicate-free
walks (is a forest), carved walls match visited count minus one, and walls stay
symmetric with the boundary intact. -/

structure GenInv (m : Maze) : Prop where
  sym : wallSym m
  bnd : boundaryOk m
  oob : oobOk m
  visB : ∀ p, m.visited p = true → m.inB p
  passV : ∀ p d, passageB m p d = true → m.visited p = true ∧ m.visited (posAdd p d) = true
  conn : ∀ p q, m.visited p = true → m.visited q = true → Conn m p q
  uniq : UniqueWalks (Step m)
  count : removedCount m + 1 = visitedCount m

theorem genInv_init (m0 : Maze) (s : Pos) (hs : (resetMazeGen m0).inB s) :
    GenInv ((resetMazeGen m0).setVisited s) := by
  have hnopass : ∀ p d, passageB ((resetMazeGen m0).setVisited s) p d = false := by
    intro p d
    unfold passageB resetMazeGen
    simp [Maze.setVisited, Maze.resetVisited]
  refine ⟨?_, ?_, ?_, ?_, ?_, ?_, ?_, ?_⟩
  · intro p d _ _
    rfl
  · intro p d _
    rfl
  · intro p d _
    rfl
  · intro p hp
    simp only [setVisited_visited] at hp
    unfold resetMazeGen Maze.resetVisited at hp ⊢
    split at hp
    · next h => exact h ▸ hs
    · simp at hp
  · intro p d hp
    rw [hnopass] at hp
    exact absurd hp (by simp)
  · intro p q hp hq
    simp only [setVisited_visited] at hp hq
    unfold resetMazeGen Maze.resetVisited at hp hq
    split at hp
    · next h =>
      split at hq
      · next h' =>
        rw [h, h']
        exact Relation.ReflTransGen.refl
      · simp at hq
    · simp at hp
  · refine uniqueWalks_empty ?_
    rintro a b ⟨d, hp, _⟩
    rw [hnopass] at hp
    exact absurd hp (by simp)
  · have h0 : removedCount ((resetMazeGen m0).setVisited s) = 0 := by
      unfold removedCount
      rw [List.countP_eq_zero.mpr, List.countP_eq_zero.mpr] <;>
        intro p _ <;> simp [hnopass]
    have h1 : visitedCount ((resetMazeGen m0).setVisited s) = 1 := by
      have : visitedCount (resetMazeGen m0) = 0 := by
        unfold visitedCount resetMazeGen Maze.resetVisited
        rw [List.countP_eq_zero.mpr]
        intro p _
        simp [Maze.setVisited]
      rw [visitedCount_setVisited hs (by unfold resetMazeGen Maze.resetVisited; simp), this]
    rw [h0, h1]

theorem wallSym_carve {m : Maze} (hsym : wallSym m) {u : Pos} (d : Dir) :
    wallSym (m.removeWallBetween u (posAdd u d)).1 := by
  intro p e hpB hqB
  have hw := removeWallBetween_width m u (posAdd u d)
  have hh := removeWallBetween_height m u (posAdd u d)
  rw [inB_dims_eq hw hh] at hpB hqB
  rw [removeWallBetween_walls, removeWallBetween_walls]
  by_cases hc : (p = u ∧ e = d) ∨ (p = posAdd u d ∧ e = d.opposite)
  · rw [if_pos hc, if_pos ?mir]
    case mir =>
      rcases hc with ⟨hp, he⟩ | ⟨hp, he⟩
      · right
        exact ⟨by rw [hp, he], by rw [he]⟩
      · left
        refine ⟨?_, by rw [he]; simp⟩
        rw [hp, he]
        simp
  · rw [if_neg hc, if_neg ?mir2]
    · exact hsym p e hpB hqB
    case mir2 =>
      intro hcc
      apply hc
      have hpe : p = posAdd (posAdd p e) e.opposite := by simp
      rcases hcc with ⟨hp, he⟩ | ⟨hp, he⟩
      · right
        refine ⟨?_, by rw [← he]; simp⟩
        rw [hpe, hp, he]
      · left
        have he' : e = d := by
          have := congrArg Dir.opposite he
          simpa using this
        refine ⟨?_, he'⟩
        rw [hpe, hp, he']
        simp

theorem boundaryOk_carve {m : Maze} (hbnd : boundaryOk m) {u : Pos} (d : Dir)
    (hu : m.inB u) (hv : m.inB (posAdd u d)) :
    boundaryOk (m.removeWallBetween u (posAdd u d)).1 := by
  intro p e hq
  have hw := removeWallBetween_width m u (posAdd u d)
  have hh := removeWallBetween_height m u (posAdd u d)
  rw [inB_dims_eq hw hh] at hq
  rw [removeWallBetween_walls]
  rw [if_neg]
  · exact hbnd p e hq
  · rintro (⟨hp, he⟩ | ⟨hp, he⟩)
    · exact hq (by rw [hp, he]; exact hv)
    · exact hq (by rw [hp, he]; simpa using hu)

theorem oobOk_carve {m : Maze} (hoob : oobOk m) {u : Pos} (d : Dir)
    (hu : m.inB u) (hv : m.inB (posAdd u d)) :
    oobOk (m.removeWallBetween u (posAdd u d)).1 := by
  intro p e hp
  have hw := removeWallBetween_width m u (posAdd u d)
  have hh := removeWallBetween_height m u (posAdd u d)
  rw [inB_dims_eq hw hh] at hp
  rw [removeWallBetween_walls]
  rw [if_neg]
  · exact hoob p e hp
  · rintro (⟨hpu, _⟩ | ⟨hpv, _⟩)
    · exact hp (hpu ▸ hu)
    · exact hp (hpv ▸ hv)

/-- Carving the wall towards an unvisited in-bounds neighbour of a visited cell
preserves the generator invariant and grows the visited count by one. -/
theorem GenInv.carve {m : Maze} (I : GenInv m) {u : Pos} {d : Dir}
    (hu : m.visited u = true) (hv : m.visited (posAdd u d) = false)
    (hvB : m.inB (posAdd u d)) :
    GenInv ((m.setVisited (posAdd u d)).removeWallBetween u (posAdd u d)).1 ∧
      visitedCount ((m.setVisited (posAdd u d)).removeWallBetween u (posAdd u d)).1 =
        visitedCount m + 1 := by
  have huB : m.inB u := I.visB u hu
  have closed1 : passageB m u d = false := by
    by_contra hc
    have := (I.passV u d (by simpa using hc)).2
    rw [this] at hv
    simp at hv
  have closed2 : passageB m (posAdd u d) d.opposite = false := by
    by_contra hc
    have := (I.passV (posAdd u d) d.opposite (by simpa using hc)).1
    rw [this] at hv
    simp at hv
  have hchar : ∀ p e,
      passageB ((m.setVisited (posAdd u d)).removeWallBetween u (posAdd u d)).1 p e = true ↔
        (passageB m p e = true ∨ (p = u ∧ e = d) ∨ (p = posAdd u d ∧ e = d.opposite)) :=
    passageB_removeWB (m.setVisited (posAdd u d)) u d huB hvB
  have hstep : ∀ a b,
      Step ((m.setVisited (posAdd u d)).removeWallBetween u (posAdd u d)).1 a b ↔
        addEdgeRel (Step m) u (posAdd u d) a b :=
    step_removeWB (m.setVisited (posAdd u d)) u d huB hvB
  have hnc : ¬ Relation.ReflTransGen (Step m) u (posAdd u d) := by
    intro hconn
    rcases Relation.ReflTransGen.cases_tail hconn with heq | ⟨c, _, hc⟩
    · rw [← heq] at hu
      rw [hu] at hv
      simp at hv
    · obtain ⟨e, hpass, hbe⟩ := hc
      have := (I.passV c e hpass).2
      rw [← hbe] at this
      rw [this] at hv
      simp at hv
  have hvisited :
      ((m.setVisited (posAdd u d)).removeWallBetween u (posAdd u d)).1.visited =
        (m.setVisited (posAdd u d)).visited :=
    removeWallBetween_visited _ _ _
  have hinB : ∀ p, ((m.setVisited (posAdd u d)).removeWallBetween u (posAdd u d)).1.inB p ↔
      m.inB p := fun p =>
    inB_dims_eq (removeWallBetween_width _ _ _) (removeWallBetween_height _ _ _) p
  have hsymNew : wallSym ((m.setVisited (posAdd u d)).removeWallBetween u (posAdd u d)).1 :=
    wallSym_carve (m := m.setVisited (posAdd u d)) I.sym d
  refine ⟨⟨hsymNew, boundaryOk_carve (m := m.setVisited (posAdd u d)) I.bnd d huB hvB,
    oobOk_carve (m := m.setVisited (posAdd u d)) I.oob d huB hvB,
    ?_, ?_, ?_, ?_, ?_⟩, ?_⟩
  · -- visB
    intro p hp
    rw [hvisited] at hp
    simp only [setVisited_visited] at hp
    rw [hinB]
    split at hp
    · next h => exact h ▸ hvB
    · exact I.visB p hp
  · -- passV
    intro p e hp
    rw [hvisited]
    simp only [setVisited_visited]
    rcases (hchar p e).mp hp with h | ⟨hp1, he1⟩ | ⟨hp1, he1⟩
    · have := I.passV p e h
      constructor
      · split
        · rfl
        · exact this.1
      · split
        · rfl
        · exact this.2
    · constructor
      · split
        · rfl
        · rw [hp1]; exact hu
      · rw [hp1, he1]
        simp
    · constructor
      · rw [hp1]
        simp
      · rw [hp1, he1]
        simp only [posAdd_opposite]
        split
        · rfl
        · exact hu
  · -- conn
    intro p q hp hq
    rw [hvisited] at hp hq
    have hmono : ∀ a b, Step m a b →
        Step ((m.setVisited (posAdd u d)).removeWallBetween u (posAdd u d)).1 a b :=
      fun a b h => (hstep a b).mpr (Or.inl h)
    have hlift : ∀ a b, Conn m a b →
        Conn ((m.setVisited (posAdd u d)).removeWallBetween u (posAdd u d)).1 a b :=
      fun a b h => Relation.ReflTransGen.mono hmono h
    have hvu : Step ((m.setVisited (posAdd u d)).removeWallBetween u (posAdd u d)).1
        (posAdd u d) u := (hstep _ _).mpr (Or.inr (Or.inr ⟨rfl, rfl⟩))
    have hto : ∀ r, (m.setVisited (posAdd u d)).visited r = true →
        Conn ((m.setVisited (posAdd u d)).removeWallBetween u (posAdd u d)).1 (posAdd u d) r := by
      intro r hr
      simp only [setVisited_visited] at hr
      split at hr
      · next h => exact h ▸ Relation.ReflTransGen.refl
      · exact Relation.ReflTransGen.head hvu (hlift u r (I.conn u r hu hr))
    exact Relation.ReflTransGen.trans
      (conn_symm (fun a b h => step_symm_of_wallSym hsymNew h) (hto p hp)) (hto q hq)
  · -- uniq
    refine uniqueWalks_of_iff (fun a b => Iff.symm (hstep a b)) ?_
    exact uniqueWalks_addEdge (fun a b h => step_symm_of_wallSym I.sym h) hnc I.uniq
  · -- count
    have hrc : removedCount ((m.setVisited (posAdd u d)).removeWallBetween u (posAdd u d)).1 =
        removedCount (m.setVisited (posAdd u d)) + 1 :=
      removedCount_carve (m.setVisited (posAdd u d)) u d huB hvB closed1 closed2
    have hrc2 : removedCount (m.setVisited (posAdd u d)) = removedCount m := rfl
    have hvc : visitedCount ((m.setVisited (posAdd u d)).removeWallBetween u (posAdd u d)).1 =
        visitedCount m + 1 := by
      rw [visitedCount_removeWB, visitedCount_setVisited hvB hv]
    have := I.count
    omega
  · rw [visitedCount_removeWB, visitedCount_setVisited hvB hv]

/-! ### Connectivity of the grid graph -/

/-- One step of the wall-blind grid graph (used by the generators). -/
def GridStep (m : Maze) (a b : Pos) : Prop := m.inB a ∧ b ∈ m.neighbors a

theorem gridStep_symm {m : Maze} {a b : Pos} (h : GridStep m a b) : GridStep m b a := by
  obtain ⟨haB, hmem⟩ := h
  obtain ⟨d, rfl, hbB⟩ := mem_neighbors.mp hmem
  exact ⟨hbB, mem_neighbors.mpr ⟨d.opposite, by simp, by simpa using haB⟩⟩

theorem gridReach_origin {m : Maze} :
    ∀ (n : Nat) (p : Pos), (p.1 + p.2).toNat ≤ n → m.inB p →
      Relation.ReflTransGen (GridStep m) p ((0 : Int), (0 : Int)) := by
  intro n
  induction n with
  | zero =>
    intro p hn hp
    obtain ⟨h1, _, h3, _⟩ := hp
    have hx : p.1 = 0 ∧ p.2 = 0 := by omega
    have : p = ((0 : Int), (0 : Int)) := Prod.ext hx.1 hx.2
    rw [this]
  | succ n ih =>
    intro p hn hp
    obtain ⟨h1, h2, h3, h4⟩ := hp
    by_cases hx : p.1 = 0 ∧ p.2 = 0
    · have : p = ((0 : Int), (0 : Int)) := Prod.ext hx.1 hx.2
      rw [this]
    · by_cases hx1 : p.1 = 0
      · -- step north
        have hq : m.inB (posAdd p Dir.north) := by
          unfold Maze.inB posAdd at *
          simp [Dir.delta] at *
          omega
        refine Relation.ReflTransGen.head
          ⟨⟨h1, h2, h3, h4⟩, mem_neighbors.mpr ⟨Dir.north, rfl, hq⟩⟩ (ih _ ?_ hq)
        simp [posAdd, Dir.delta]
        omega
      · -- step west
        have hq : m.inB (posAdd p Dir.west) := by
          unfold Maze.inB posAdd at *
          simp [Dir.delta] at *
          omega
        refine Relation.ReflTransGen.head
          ⟨⟨h1, h2, h3, h4⟩, mem_neighbors.mpr ⟨Dir.west, rfl, hq⟩⟩ (ih _ ?_ hq)
        simp [posAdd, Dir.delta]
        omega

theorem gridConn {m : Maze} {p q : Pos} (hp : m.inB p) (hq : m.inB q) :
    Relation.ReflTransGen (GridStep m) p q := by
  refine Relation.ReflTransGen.trans
    (gridReach_origin (p.1 + p.2).toNat p (le_refl _) hp) ?_
  exact conn_symm (fun a b h => gridStep_symm h)
    (gridReach_origin (q.1 + q.2).toNat q (le_refl _) hq)

/-- A maze whose visited set satisfies the invariant, contains a cell, and is
closed under grid adjacency is fully visited and a spanning tree. -/
theorem genInv_spanning {m : Maze} (I : GenInv m)
    (hclosed : ∀ p, m.visited p = true → ∀ q ∈ m.neighbors p, m.visited q = true)
    {s : Pos} (hs : m.visited s = true) :
    (∀ p, m.inB p → m.visited p = true) ∧ SpanningTree m := by
  have hall : ∀ p, m.inB p → m.visited p = true := by
    intro p hpB
    have hpath : Relation.ReflTransGen (GridStep m) s p := gridConn (I.visB s hs) hpB
    clear hpB
    induction hpath with
    | refl => exact hs
    | tail _ hstep ih => exact hclosed _ ih _ hstep.2
  refine ⟨hall, fun p q hp hq => I.conn p q (hall p hp) (hall q hq), ?_⟩
  have hvc : visitedCount m = m.width * m.height := by
    unfold visitedCount
    rw [List.countP_eq_length.mpr, allCells_length]
    intro p hp
    exact hall p (mem_allCells.mp hp)
  rw [I.count, hvc]

/-! ### The DFS generator satisfies the spanning-tree contract -/

/-- Loop invariant of `DepthFirstSearchGenerator.generate`: every stack cell is
visited, and every visited cell is on the stack or has all neighbours visited. -/
def DfsInv (m : Maze) (stack : List Pos) : Prop :=
  GenInv m ∧ (∀ p ∈ stack, m.visited p = true) ∧
    (∀ p, m.visited p = true → p ∈ stack ∨ ∀ q ∈ m.neighbors p, m.visited q = true)

theorem unvisitedNeighbors_empty {m : Maze} {p : Pos}
    (h : (m.unvisitedNeighbors p).isEmpty = true) :
    ∀ q ∈ m.neighbors p, m.visited q = true := by
  intro q hq
  rw [List.isEmpty_iff] at h
  by_contra hv
  have : q ∈ m.unvisitedNeighbors p :=
    mem_unvisitedNeighbors.mpr ⟨hq, by simpa using hv⟩
  rw [h] at this
  simp at this

theorem dfsLoop_post (σ : Nat → Nat) :
    ∀ (fuel : Nat) (m : Maze) (stack : List Pos) (k : Nat),
      DfsInv m stack →
      ∀ m' k', dfsLoop σ fuel m stack k = some (m', k') →
        GenInv m' ∧ (∀ p, m'.visited p = true → ∀ q ∈ m'.neighbors p, m'.visited q = true) ∧
          m'.width = m.width ∧ m'.height = m.height ∧
          (∀ p, m.visited p = true → m'.visited p = true) := by
  intro fuel
  induction fuel with
  | zero =>
    intro m stack k _ m' k' h
    simp [dfsLoop] at h
  | succ n ih =>
    intro m stack k hInv m' k' h
    cases stack with
    | nil =>
      simp only [dfsLoop, Option.some.injEq, Prod.mk.injEq] at h
      obtain ⟨rfl, rfl⟩ := h
      refine ⟨hInv.1, ?_, rfl, rfl, fun p hp => hp⟩
      intro p hp
      rcases hInv.2.2 p hp with hmem | hcl
      · simp at hmem
      · exact hcl
    | cons cur rest =>
      simp only [dfsLoop] at h
      by_cases hemp : (m.unvisitedNeighbors cur).isEmpty
      · rw [if_pos hemp] at h
        refine ih m rest k ⟨hInv.1, ?_, ?_⟩ m' k' h
        · intro p hp
          exact hInv.2.1 p (by simp [hp])
        · intro p hp
          rcases hInv.2.2 p hp with hmem | hcl
          · rcases List.mem_cons.mp hmem with rfl | hmem'
            · exact Or.inr (unvisitedNeighbors_empty hemp)
            · exact Or.inl hmem'
          · exact Or.inr hcl
      · rw [if_neg hemp] at h
        have hne : m.unvisitedNeighbors cur ≠ [] := by
          intro hc
          rw [hc] at hemp
          simp at hemp
        have hnx := getD_mem hne σ k posDflt
        obtain ⟨hnb, hnv⟩ := mem_unvisitedNeighbors.mp hnx
        obtain ⟨d, hnd, hnB⟩ := mem_neighbors.mp hnb
        have hcurv : m.visited cur = true := hInv.2.1 cur (by simp)
        rw [hnd] at h hnv hnB
        obtain ⟨I2, _⟩ := hInv.1.carve hcurv hnv hnB
        have hdw : ((m.setVisited (posAdd cur d)).removeWallBetween cur (posAdd cur d)).1.width
            = m.width := removeWallBetween_width _ _ _
        have hdh : ((m.setVisited (posAdd cur d)).removeWallBetween cur (posAdd cur d)).1.height
            = m.height := removeWallBetween_height _ _ _
        have hvis2 :
            ((m.setVisited (posAdd cur d)).removeWallBetween cur (posAdd cur d)).1.visited =
              (m.setVisited (posAdd cur d)).visited := removeWallBetween_visited _ _ _
        have hmono : ∀ p, m.visited p = true →
            ((m.setVisited (posAdd cur d)).removeWallBetween cur (posAdd cur d)).1.visited p
              = true := by
          intro p hp
          rw [hvis2]
          simp only [setVisited_visited]
          split
          · rfl
          · exact hp
        have hnbrs : ∀ p,
            ((m.setVisited (posAdd cur d)).removeWallBetween cur (posAdd cur d)).1.neighbors p
              = m.neighbors p := by
          intro p
          unfold Maze.neighbors
          congr 1
          funext e
          exact getCell_dims_eq hdw hdh _
        have hstA : ∀ p ∈ posAdd cur d :: cur :: rest,
            ((m.setVisited (posAdd cur d)).removeWallBetween cur (posAdd cur d)).1.visited p
              = true := by
          intro p hp
          rcases List.mem_cons.mp hp with rfl | hp'
          · rw [hvis2]
            simp
          · exact hmono p (hInv.2.1 p hp')
        have hstB : ∀ p,
            ((m.setVisited (posAdd cur d)).removeWallBetween cur (posAdd cur d)).1.visited p
              = true →
            p ∈ posAdd cur d :: cur :: rest ∨
              ∀ q ∈ ((m.setVisited (posAdd cur d)).removeWallBetween cur
                (posAdd cur d)).1.neighbors p,
                ((m.setVisited (posAdd cur d)).removeWallBetween cur
                  (posAdd cur d)).1.visited q = true := by
          intro p hp
          rw [hvis2] at hp
          simp only [setVisited_visited] at hp
          split at hp
          · next heq => exact Or.inl (by simp [heq])
          · rcases hInv.2.2 p hp with hmem | hcl
            · exact Or.inl (by simp [List.mem_cons.mp hmem])
            · refine Or.inr ?_
              intro q hq
              rw [hnbrs] at hq
              exact hmono q (hcl q hq)
        obtain ⟨g1, g2, g3, g4, g5⟩ := ih _ _ _ ⟨I2, hstA, hstB⟩ m' k' h
        refine ⟨g1, g2, by rw [g3, hdw], by rw [g4, hdh], ?_⟩
        intro p hp
        exact g5 p (hmono p hp)

theorem dfsLoop_total (σ : Nat → Nat) :
    ∀ (fuel : Nat) (m : Maze) (stack : List Pos) (k : Nat),
      (∀ p ∈ stack, m.visited p = true) →
      2 * uvCount m + stack.length < fuel →
      (dfsLoop σ fuel m stack k).isSome = true := by
  intro fuel
  induction fuel with
  | zero =>
    intro m stack k _ hlt
    omega
  | succ n ih =>
    intro m stack k hvis hlt
    cases stack with
    | nil => simp [dfsLoop]
    | cons cur rest =>
      simp only [dfsLoop]
      by_cases hemp : (m.unvisitedNeighbors cur).isEmpty
      · rw [if_pos hemp]
        refine ih m rest k (fun p hp => hvis p (by simp [hp])) ?_
        simp at hlt ⊢
        omega
      · rw [if_neg hemp]
        have hne : m.unvisitedNeighbors cur ≠ [] := by
          intro hc
          rw [hc] at hemp
          simp at hemp
        have hnx := getD_mem hne σ k posDflt
        obtain ⟨hnb, hnv⟩ := mem_unvisitedNeighbors.mp hnx
        obtain ⟨d, hnd, hnB⟩ := mem_neighbors.mp hnb
        rw [hnd]
        set nx := posAdd cur d with hnxdef
        rw [hnd] at hnv hnB
        have hvis2 : ((m.setVisited nx).removeWallBetween cur nx).1.visited =
            (m.setVisited nx).visited := removeWallBetween_visited _ _ _
        have huv2 : uvCount ((m.setVisited nx).removeWallBetween cur nx).1 =
            uvCount (m.setVisited nx) := by
          unfold uvCount
          rw [removeWallBetween_width, removeWallBetween_height, hvis2]
        have huv : uvCount m = uvCount (m.setVisited nx) + 1 := uvCount_setVisited hnB hnv
        refine ih _ _ _ ?_ ?_
        · intro p hp
          rw [hvis2]
          simp only [setVisited_visited]
          rcases List.mem_cons.mp hp with rfl | hp'
          · simp
          · split
            · rfl
            · exact hvis p hp'
        · rw [huv2]
          simp only [List.length_cons] at hlt ⊢
          omega

theorem visitedCount_add_uvCount (m : Maze) : visitedCount m + uvCount m = m.width * m.height := by
  unfold visitedCount uvCount
  rw [← allCells_length m.width m.height]
  have h2 : (allCells m.width m.height).countP (fun p => ! m.visited p) =
      (allCells m.width m.height).countP (fun a => decide ¬ (m.visited a = true)) :=
    countP_congr_eq (fun a _ => by cases ha : m.visited a <;> simp [ha])
  rw [h2]
  exact (List.length_eq_countP_add_countP (p := fun p => m.visited p) _).symm

theorem randomCell_inB {m : Maze} (hw : 1 ≤ m.width) (hh : 1 ≤ m.height)
    (σ : Nat → Nat) (k : Nat) : m.inB (m.randomCell σ k).1 := by
  unfold Maze.randomCell Maze.inB randBelow
  have hx : σ k % m.width < m.width := Nat.mod_lt _ (by omega)
  have hy : σ (k + 1) % m.height < m.height := Nat.mod_lt _ (by omega)
  simp
  omega

/-- The DFS generator terminates and produces a spanning tree. -/
theorem dfsGenerate_spec (σ : Nat → Nat) (k : Nat) (m0 : Maze)
    (hw : 1 ≤ m0.width) (hh : 1 ≤ m0.height) :
    (dfsGenerate σ k m0).isSome = true ∧
      ∀ m' k', dfsGenerate σ k m0 = some (m', k') →
        GenInv m' ∧ (∀ p, m'.inB p = true → True) ∧ SpanningTree m' ∧
          (∀ p, m'.inB p → m'.visited p = true) ∧
          m'.width = m0.width ∧ m'.height = m0.height := by
  unfold dfsGenerate
  have hsB : (resetMazeGen m0).inB ((resetMazeGen m0).randomCell σ k).1 :=
    randomCell_inB hw hh σ k
  have hI : GenInv ((resetMazeGen m0).setVisited ((resetMazeGen m0).randomCell σ k).1) :=
    genInv_init m0 _ hsB
  set m1 := (resetMazeGen m0).setVisited ((resetMazeGen m0).randomCell σ k).1 with hm1
  have hInv : DfsInv m1 [((resetMazeGen m0).randomCell σ k).1] := by
    refine ⟨hI, ?_, ?_⟩
    · intro p hp
      simp only [List.mem_singleton] at hp
      rw [hp, hm1]
      simp
    · intro p hp
      left
      rw [hm1] at hp
      simp only [setVisited_visited] at hp
      split at hp
      · next heq => simp [heq]
      · exfalso
        unfold resetMazeGen Maze.resetVisited at hp
        simp at hp
  constructor
  · refine dfsLoop_total σ _ _ _ _ hInv.2.1 ?_
    unfold dfsFuel
    rw [← hm1]
    have hsum : visitedCount m1 + uvCount m1 = m1.width * m1.height :=
      visitedCount_add_uvCount m1
    have hv1 : 1 ≤ visitedCount m1 := by
      have := hI.count
      omega
    have hassoc : 2 * m1.width * m1.height = 2 * (m1.width * m1.height) := by ring
    rw [hassoc]
    simp only [List.length_cons, List.length_nil]
    omega
  · intro m' k' h
    obtain ⟨g1, g2, g3, g4, g5⟩ := dfsLoop_post σ _ _ _ _ hInv m' k' h
    have hsvis : m'.visited ((resetMazeGen m0).randomCell σ k).1 = true := by
      refine g5 _ ?_
      rw [hm1]
      simp
    obtain ⟨hall, hspan⟩ := genInv_spanning g1 g2 hsvis
    exact ⟨g1, fun _ _ => trivial, hspan, hall, g3, g4⟩

/-! ### Prim's generator satisfies the spanning-tree contract -/

theorem getD_mem_gen {α : Type} {l : List α} (h : l ≠ []) (i : Nat) (dflt : α)
    (hi : i < l.length) : l.getD i dflt ∈ l := by
  rw [List.getD_eq_getElem l dflt hi]
  exact List.getElem_mem hi

theorem mem_eraseIdx_of_ne {α : Type} {l : List α} {a dflt : α} {i : Nat} (hi : i < l.length)
    (ha : a ∈ l) (hne : a ≠ l.getD i dflt) : a ∈ l.eraseIdx i := by
  rw [List.getD_eq_getElem l dflt hi] at hne
  rw [List.eraseIdx_eq_take_drop_succ]
  have hdecomp : l.take i ++ l[i] :: l.drop (i + 1) = l := by
    conv_rhs => rw [← List.take_append_drop i l]
    congr 1
    exact (List.drop_eq_getElem_cons hi).symm
  rw [← hdecomp] at ha
  rcases List.mem_append.mp ha with h1 | h1
  · exact List.mem_append.mpr (Or.inl h1)
  · rcases List.mem_cons.mp h1 with rfl | h2
    · exact absurd rfl hne
    · exact List.mem_append.mpr (Or.inr h2)

theorem primNewEdges_mem {m : Maze} {p : Pos} :
    ∀ e ∈ primNewEdges m p, e.1 = p ∧ e.2.1 ∈ m.neighbors p := by
  intro e he
  unfold primNewEdges at he
  rw [List.mem_filterMap] at he
  obtain ⟨d, _, hres⟩ := he
  cases hc : m.getCell (posAdd p d) with
  | none => rw [hc] at hres; simp at hres
  | some nb =>
    rw [hc] at hres
    by_cases hv : m.visited nb
    · simp [hv] at hres
    · simp only [hv, Bool.false_eq_true, if_false, Option.some.injEq] at hres
      obtain ⟨hB, rfl⟩ := getCell_eq_some_iff.mp hc
      rw [← hres]
      exact ⟨rfl, mem_neighbors.mpr ⟨d, rfl, hB⟩⟩

theorem primNewEdges_cover {m : Maze} {p q : Pos} (hq : q ∈ m.neighbors p)
    (hv : m.visited q = false) : ∃ d, (p, q, d) ∈ primNewEdges m p := by
  obtain ⟨d, rfl, hB⟩ := mem_neighbors.mp hq
  refine ⟨d, ?_⟩
  unfold primNewEdges
  rw [List.mem_filterMap]
  refine ⟨d, by cases d <;> simp [dirList], ?_⟩
  rw [getCell_eq_some_iff.mpr ⟨hB, rfl⟩]
  simp [hv]

theorem primNewEdges_len (m : Maze) (p : Pos) : (primNewEdges m p).length ≤ 4 := by
  unfold primNewEdges
  calc (dirList.filterMap _).length ≤ dirList.length := List.length_filterMap_le _ _
    _ = 4 := rfl

/-- Loop invariant of `PrimGenerator.generate`: every frontier entry's inside
cell is visited and outside cell is its grid neighbour, and every boundary edge
of the visited region is on the frontier. -/
def PrimInv (m : Maze) (walls : List (Pos × Pos × Dir)) : Prop :=
  GenInv m ∧ (∀ e ∈ walls, m.visited e.1 = true ∧ e.2.1 ∈ m.neighbors e.1) ∧
    (∀ p q, m.visited p = true → q ∈ m.neighbors p →
      m.visited q = true ∨ ∃ d, (p, q, d) ∈ walls)

theorem primLoop_post (σ : Nat → Nat) :
    ∀ (fuel : Nat) (m : Maze) (walls : List (Pos × Pos × Dir)) (k : Nat),
      PrimInv m walls →
      ∀ m' k', primLoop σ fuel m walls k = some (m', k') →
        GenInv m' ∧ (∀ p, m'.visited p = true → ∀ q ∈ m'.neighbors p, m'.visited q = true) ∧
          m'.width = m.width ∧ m'.height = m.height ∧
          (∀ p, m.visited p = true → m'.visited p = true) := by
  intro fuel
  induction fuel with
  | zero =>
    intro m walls k _ m' k' h
    simp [primLoop] at h
  | succ n ih =>
    intro m walls k hInv m' k' h
    cases walls with
    | nil =>
      simp only [primLoop, Option.some.injEq, Prod.mk.injEq] at h
      obtain ⟨rfl, rfl⟩ := h
      refine ⟨hInv.1, ?_, rfl, rfl, fun p hp => hp⟩
      intro p hp q hq
      rcases hInv.2.2 p q hp hq with hv | ⟨d, hd⟩
      · exact hv
      · simp at hd
    | cons e0 rest =>
      simp only [primLoop] at h
      have hlen : randBelow σ k (e0 :: rest).length < (e0 :: rest).length :=
        Nat.mod_lt _ (by simp)
      have hwmem : (e0 :: rest).getD (randBelow σ k (e0 :: rest).length)
          (posDflt, posDflt, Dir.north) ∈ e0 :: rest :=
        getD_mem_gen (by simp) _ _ hlen
      set w := (e0 :: rest).getD (randBelow σ k (e0 :: rest).length)
        (posDflt, posDflt, Dir.north) with hwdef
      obtain ⟨hw1, hw2⟩ := hInv.2.1 w hwmem
      have herase : ∀ (x : Pos × Pos × Dir),
          x ∈ (e0 :: rest).eraseIdx (randBelow σ k (e0 :: rest).length) → x ∈ e0 :: rest :=
        fun x hx => List.mem_of_mem_eraseIdx hx
      by_cases hc1 : (m.visited w.1 != m.visited w.2.1) = true
      · rw [if_pos hc1] at h
        by_cases hc2 : (! m.visited w.2.1) = true
        · -- carve branch
          rw [if_pos hc2] at h
          have hv2 : m.visited w.2.1 = false := by simpa using hc2
          obtain ⟨d, hnd, hnB⟩ := mem_neighbors.mp hw2
          rw [hnd] at h hv2 hnB
          obtain ⟨I2, _⟩ := hInv.1.carve hw1 hv2 hnB
          have hdw := removeWallBetween_width (m.setVisited (posAdd w.1 d)) w.1 (posAdd w.1 d)
          have hdh := removeWallBetween_height (m.setVisited (posAdd w.1 d)) w.1 (posAdd w.1 d)
          have hvis2 := removeWallBetween_visited (m.setVisited (posAdd w.1 d)) w.1 (posAdd w.1 d)
          have hmono : ∀ p, m.visited p = true →
              ((m.setVisited (posAdd w.1 d)).removeWallBetween w.1 (posAdd w.1 d)).1.visited p
                = true := by
            intro p hp
            rw [hvis2]
            simp only [setVisited_visited]
            split
            · rfl
            · exact hp
          have hnbrs : ∀ p,
              ((m.setVisited (posAdd w.1 d)).removeWallBetween w.1
                (posAdd w.1 d)).1.neighbors p = m.neighbors p := by
            intro p
            unfold Maze.neighbors
            congr 1
            funext e
            exact getCell_dims_eq hdw hdh _
          set m2 := ((m.setVisited (posAdd w.1 d)).removeWallBetween w.1 (posAdd w.1 d)).1
            with hm2
          have hstA : ∀ e ∈ (e0 :: rest).eraseIdx (randBelow σ k (e0 :: rest).length) ++
              primNewEdges m2 (posAdd w.1 d),
              m2.visited e.1 = true ∧ e.2.1 ∈ m2.neighbors e.1 := by
            intro e he
            rcases List.mem_append.mp he with he1 | he2
            · obtain ⟨ha, hb⟩ := hInv.2.1 e (herase e he1)
              rw [hnbrs]
              exact ⟨hmono _ ha, hb⟩
            · obtain ⟨ha, hb⟩ := primNewEdges_mem e he2
              rw [ha]
              refine ⟨?_, hb⟩
              rw [hvis2]
              simp
          have hstB : ∀ p q, m2.visited p = true → q ∈ m2.neighbors p →
              m2.visited q = true ∨ ∃ d',
                (p, q, d') ∈ (e0 :: rest).eraseIdx (randBelow σ k (e0 :: rest).length) ++
                  primNewEdges m2 (posAdd w.1 d) := by
            intro p q hp hq
            rw [hnbrs] at hq
            rw [hm2, hvis2] at hp
            simp only [setVisited_visited] at hp
            by_cases hqv : m2.visited q = true
            · exact Or.inl hqv
            · have hqv' : m.visited q = false := by
                by_contra hc
                exact hqv (hmono q (by simpa using hc))
              have hqv2 : m2.visited q = false := by
                simpa using hqv
              split at hp
              · next heq =>
                -- p is the newly joined cell
                obtain ⟨d', hd'⟩ := primNewEdges_cover (m := m2)
                  (p := posAdd w.1 d) (q := q) (by rw [hnbrs, ← heq]; exact hq) hqv2
                rw [heq]
                exact Or.inr ⟨d', List.mem_append.mpr (Or.inr hd')⟩
              · rcases hInv.2.2 p q hp hq with hv | ⟨d', hd'⟩
                · exact absurd (hmono q hv) hqv
                · by_cases hpq : (p, q, d') = w
                  · exfalso
                    apply hqv
                    have : q = w.2.1 := by rw [← hpq]
                    rw [this, hm2, hvis2, hnd]
                    simp
                  · refine Or.inr ⟨d', List.mem_append.mpr (Or.inl ?_)⟩
                    exact mem_eraseIdx_of_ne hlen hd' (by rw [← hwdef]; exact hpq)
          obtain ⟨g1, g2, g3, g4, g5⟩ := ih _ _ _ ⟨I2, hstA, hstB⟩ m' k' h
          refine ⟨g1, g2, by rw [g3, hm2, hdw]; rfl, by rw [g4, hm2, hdh]; rfl, ?_⟩
          intro p hp
          exact g5 p (hmono p hp)
        · -- inside already visited on both ends (unreachable in practice): discard
          rw [if_neg hc2] at h
          refine ih _ _ _ ⟨hInv.1, fun e he => hInv.2.1 e (herase e he), ?_⟩ m' k' h
          intro p q hp hq
          rcases hInv.2.2 p q hp hq with hv | ⟨d', hd'⟩
          · exact Or.inl hv
          · by_cases hpq : (p, q, d') = w
            · left
              have : q = w.2.1 := by rw [← hpq]
              rw [this]
              simpa using hc2
            · exact Or.inr ⟨d', mem_eraseIdx_of_ne hlen hd' (by rw [← hwdef]; exact hpq)⟩
      · -- both sides in the same visited state: discard
        rw [if_neg hc1] at h
        have hsame : m.visited w.1 = m.visited w.2.1 := by
          simpa [bne_iff_ne] using hc1
        refine ih _ _ _ ⟨hInv.1, fun e he => hInv.2.1 e (herase e he), ?_⟩ m' k' h
        intro p q hp hq
        rcases hInv.2.2 p q hp hq with hv | ⟨d', hd'⟩
        · exact Or.inl hv
        · by_cases hpq : (p, q, d') = w
          · left
            have hqw : q = w.2.1 := by rw [← hpq]
            rw [hqw, ← hsame]
            exact hw1
          · exact Or.inr ⟨d', mem_eraseIdx_of_ne hlen hd' (by rw [← hwdef]; exact hpq)⟩

theorem primLoop_total (σ : Nat → Nat) :
    ∀ (fuel : Nat) (m : Maze) (walls : List (Pos × Pos × Dir)) (k : Nat),
      (∀ e ∈ walls, e.2.1 ∈ m.neighbors e.1) →
      5 * uvCount m + walls.length < fuel →
      (primLoop σ fuel m walls k).isSome = true := by
  intro fuel
  induction fuel with
  | zero =>
    intro m walls k _ hlt
    omega
  | succ n ih =>
    intro m walls k hnb hlt
    cases walls with
    | nil => simp [primLoop]
    | cons e0 rest =>
      simp only [primLoop]
      have hlen : randBelow σ k (e0 :: rest).length < (e0 :: rest).length :=
        Nat.mod_lt _ (by simp)
      have hwmem : (e0 :: rest).getD (randBelow σ k (e0 :: rest).length)
          (posDflt, posDflt, Dir.north) ∈ e0 :: rest :=
        getD_mem_gen (by simp) _ _ hlen
      set w := (e0 :: rest).getD (randBelow σ k (e0 :: rest).length)
        (posDflt, posDflt, Dir.north) with hwdef
      have herase : ∀ (x : Pos × Pos × Dir),
          x ∈ (e0 :: rest).eraseIdx (randBelow σ k (e0 :: rest).length) → x ∈ e0 :: rest :=
        fun x hx => List.mem_of_mem_eraseIdx hx
      have helen : ((e0 :: rest).eraseIdx (randBelow σ k (e0 :: rest).length)).length =
          (e0 :: rest).length - 1 := List.length_eraseIdx_of_lt hlen
      by_cases hc1 : (m.visited w.1 != m.visited w.2.1) = true
      · rw [if_pos hc1]
        by_cases hc2 : (! m.visited w.2.1) = true
        · rw [if_pos hc2]
          have hv2 : m.visited w.2.1 = false := by simpa using hc2
          obtain ⟨d, hnd, hnB⟩ := mem_neighbors.mp (hnb w hwmem)
          rw [hnd] at hv2 hnB ⊢
          have hvis2 := removeWallBetween_visited (m.setVisited (posAdd w.1 d)) w.1
            (posAdd w.1 d)
          have hdw := removeWallBetween_width (m.setVisited (posAdd w.1 d)) w.1 (posAdd w.1 d)
          have hdh := removeWallBetween_height (m.setVisited (posAdd w.1 d)) w.1 (posAdd w.1 d)
          set m2 := ((m.setVisited (posAdd w.1 d)).removeWallBetween w.1 (posAdd w.1 d)).1
            with hm2
          have hnbrs : ∀ p, m2.neighbors p = m.neighbors p := by
            intro p
            unfold Maze.neighbors
            congr 1
            funext e
            exact getCell_dims_eq hdw hdh _
          have huv2 : uvCount m2 = uvCount (m.setVisited (posAdd w.1 d)) := by
            unfold uvCount
            rw [hm2, removeWallBetween_width, removeWallBetween_height,
              removeWallBetween_visited]
          have huv : uvCount m = uvCount (m.setVisited (posAdd w.1 d)) + 1 :=
            uvCount_setVisited hnB hv2
          refine ih m2 _ _ ?_ ?_
          · intro e he
            rcases List.mem_append.mp he with he1 | he2
            · rw [hnbrs]
              exact hnb e (herase e he1)
            · obtain ⟨ha, hb⟩ := primNewEdges_mem e he2
              rw [ha]
              exact hb
          · have hplen := primNewEdges_len m2 (posAdd w.1 d)
            rw [List.length_append, helen, huv2]
            simp only [List.length_cons] at hlt ⊢
            omega
        · rw [if_neg hc2]
          refine ih m _ _ (fun e he => hnb e (herase e he)) ?_
          rw [helen]
          simp only [List.length_cons] at hlt ⊢
          omega
      · rw [if_neg hc1]
        refine ih m _ _ (fun e he => hnb e (herase e he)) ?_
        rw [helen]
        simp only [List.length_cons] at hlt ⊢
        omega

theorem primStartEdges_mem {m : Maze} {p : Pos} :
    ∀ e ∈ primStartEdges m p, e.1 = p ∧ e.2.1 ∈ m.neighbors p := by
  intro e he
  unfold primStartEdges at he
  rw [List.mem_filterMap] at he
  obtain ⟨d, _, hres⟩ := he
  cases hc : m.getCell (posAdd p d) with
  | none => rw [hc] at hres; simp at hres
  | some nb =>
    rw [hc] at hres
    obtain ⟨hB, rfl⟩ := getCell_eq_some_iff.mp hc
    obtain rfl : e = (p, posAdd p d, d) := by simpa using hres.symm
    exact ⟨rfl, mem_neighbors.mpr ⟨d, rfl, hB⟩⟩

theorem primStartEdges_cover {m : Maze} {p q : Pos} (hq : q ∈ m.neighbors p) :
    ∃ d, (p, q, d) ∈ primStartEdges m p := by
  obtain ⟨d, rfl, hB⟩ := mem_neighbors.mp hq
  refine ⟨d, ?_⟩
  unfold primStartEdges
  rw [List.mem_filterMap]
  refine ⟨d, by cases d <;> simp [dirList], ?_⟩
  rw [getCell_eq_some_iff.mpr ⟨hB, rfl⟩]
  rfl

theorem primStartEdges_len (m : Maze) (p : Pos) : (primStartEdges m p).length ≤ 4 := by
  unfold primStartEdges
  calc (dirList.filterMap _).length ≤ dirList.length := List.length_filterMap_le _ _
    _ = 4 := rfl

/-- Prim's generator terminates and produces a spanning tree. -/
theorem primGenerate_spec (σ : Nat → Nat) (k : Nat) (m0 : Maze)
    (hw : 1 ≤ m0.width) (hh : 1 ≤ m0.height) :
    (primGenerate σ k m0).isSome = true ∧
      ∀ m' k', primGenerate σ k m0 = some (m', k') →
        GenInv m' ∧ SpanningTree m' ∧ (∀ p, m'.inB p → m'.visited p = true) ∧
          m'.width = m0.width ∧ m'.height = m0.height := by
  unfold primGenerate
  have hsB : (resetMazeGen m0).inB ((resetMazeGen m0).randomCell σ k).1 :=
    randomCell_inB hw hh σ k
  have hI : GenInv ((resetMazeGen m0).setVisited ((resetMazeGen m0).randomCell σ k).1) :=
    genInv_init m0 _ hsB
  set s := ((resetMazeGen m0).randomCell σ k).1 with hs
  set m1 := (resetMazeGen m0).setVisited s with hm1
  have hsvis : m1.visited s = true := by
    rw [hm1]
    simp
  have honly : ∀ p, m1.visited p = true → p = s := by
    intro p hp
    rw [hm1] at hp
    simp only [setVisited_visited] at hp
    split at hp
    · next heq => exact heq
    · exfalso
      unfold resetMazeGen Maze.resetVisited at hp
      simp at hp
  have hInv : PrimInv m1 (primStartEdges m1 s) := by
    refine ⟨hI, ?_, ?_⟩
    · intro e he
      obtain ⟨ha, hb⟩ := primStartEdges_mem e he
      rw [ha]
      exact ⟨hsvis, hb⟩
    · intro p q hp hq
      rw [honly p hp] at hq ⊢
      obtain ⟨d, hd⟩ := primStartEdges_cover hq
      exact Or.inr ⟨d, hd⟩
  constructor
  · refine primLoop_total σ _ _ _ _ ?_ ?_
    · intro e he
      obtain ⟨ha, hb⟩ := primStartEdges_mem e he
      rw [ha]
      exact hb
    · unfold primFuel
      rw [← hm1]
      have hsum : visitedCount m1 + uvCount m1 = m1.width * m1.height :=
        visitedCount_add_uvCount m1
      have hv1 : 1 ≤ visitedCount m1 := by
        have := hI.count
        omega
      have hassoc : 5 * m1.width * m1.height = 5 * (m1.width * m1.height) := by ring
      rw [hassoc]
      have hplen := primStartEdges_len m1 ((resetMazeGen m0).randomCell σ k).1
      have hplen2 := primStartEdges_len m1 s
      omega
  · intro m' k' h
    obtain ⟨g1, g2, g3, g4, g5⟩ := primLoop_post σ _ _ _ _ hInv m' k' h
    obtain ⟨hall, hspan⟩ := genInv_spanning g1 g2 (g5 s hsvis)
    exact ⟨g1, hspan, hall, g3, g4⟩

/-! ### Wilson's generator: whenever it returns, the result is a spanning tree

The carving loop marks the walked path front to back, so intermediate states
dangle an unfinished chain; since all the individual updates commute, the carve
is re-associated into leaf attachments from the tree end, each of which is an
ordinary `GenInv.carve` step. -/

/-- One carving step of `WilsonGenerator`: mark `p` and open the wall to `q`. -/
def carveStep (p q : Pos) (m : Maze) : Maze := ((m.setVisited p).removeWallBetween p q).1

/-- The maze component of the carving loop. -/
def carveOnly : List Pos → Maze → Maze
  | p :: q :: rest, m => carveOnly (q :: rest) (carveStep p q m)
  | _, m => m

theorem wilsonCarve_fst : ∀ (path : List Pos) (m : Maze) (unvis : List Pos),
    (wilsonCarve path m unvis).1 = carveOnly path m := by
  intro path
  match path with
  | [] => intro m unvis; rfl
  | [_] => intro m unvis; rfl
  | p :: q :: rest =>
    intro m unvis
    show (wilsonCarve (q :: rest) _ _).1 = _
    rw [wilsonCarve_fst (q :: rest)]
    rfl

theorem wilsonCarve_snd_filter (pred : Pos → Bool) :
    ∀ (path : List Pos) (m : Maze) (unvis : List Pos),
      (∀ p ∈ path.dropLast, pred p = false) →
      (wilsonCarve path m unvis).2.filter pred = unvis.filter pred := by
  intro path
  match path with
  | [] => intro m unvis _; rfl
  | [_] => intro m unvis _; rfl
  | p :: q :: rest =>
    intro m unvis hpred
    show (wilsonCarve (q :: rest) _ _).2.filter pred = _
    rw [wilsonCarve_snd_filter pred (q :: rest) _ _ ?tail]
    case tail =>
      intro x hx
      refine hpred x ?_
      rw [List.dropLast_cons_of_ne_nil (by simp)]
      exact List.mem_cons_of_mem _ hx
    have hp : pred p = false := hpred p (by
      rw [List.dropLast_cons_of_ne_nil (by simp)]
      simp)
    induction unvis with
    | nil => rfl
    | cons a t iht =>
      by_cases hap : a = p
      · rw [hap, List.erase_cons_head]
        rw [List.filter_cons_of_neg (by simp [hp])]
      · rw [List.erase_cons_tail (by simp [hap])]
        by_cases hpa : pred a
        · rw [List.filter_cons_of_pos hpa, List.filter_cons_of_pos hpa, iht]
        · rw [List.filter_cons_of_neg (by simpa using hpa),
            List.filter_cons_of_neg (by simpa using hpa), iht]

/-- The two wall slots cleared by `remove_wall_between p q`. -/
def betweenWall (p q r : Pos) (e : Dir) : Prop :=
  (r = p ∧ posAdd r e = q) ∨ (r = q ∧ posAdd r e = p)

instance (p q r : Pos) (e : Dir) : Decidable (betweenWall p q r e) := by
  unfold betweenWall
  infer_instance

theorem posAdd_left_inj {p : Pos} {d e : Dir} (h : posAdd p d = posAdd p e) : d = e := by
  cases d <;> cases e <;>
    first
      | rfl
      | (exfalso
         simp only [posAdd, Dir.delta, Prod.mk.injEq] at h
         omega)

theorem removeWB_solutionPath (m : Maze) (c1 c2 : Pos) :
    (m.removeWallBetween c1 c2).1.solutionPath = m.solutionPath := by
  unfold Maze.removeWallBetween
  repeat' split
  all_goals rfl

theorem removeWB_startPos (m : Maze) (c1 c2 : Pos) :
    (m.removeWallBetween c1 c2).1.startPos = m.startPos := by
  unfold Maze.removeWallBetween
  repeat' split
  all_goals rfl

theorem removeWB_endPos (m : Maze) (c1 c2 : Pos) :
    (m.removeWallBetween c1 c2).1.endPos = m.endPos := by
  unfold Maze.removeWallBetween
  repeat' split
  all_goals rfl

theorem removeWB_distance (m : Maze) (c1 c2 : Pos) :
    (m.removeWallBetween c1 c2).1.distance = m.distance := by
  unfold Maze.removeWallBetween
  repeat' split
  all_goals rfl

theorem removeWB_parent (m : Maze) (c1 c2 : Pos) :
    (m.removeWallBetween c1 c2).1.parent = m.parent := by
  unfold Maze.removeWallBetween
  repeat' split
  all_goals rfl

theorem removeWB_walls_char (m : Maze) (p q r : Pos) (e : Dir) :
    (m.removeWallBetween p q).1.walls r e =
      if betweenWall p q r e then false else m.walls r e := by
  by_cases hadj : areAdjacent p q = true
  · obtain ⟨d, rfl⟩ := (areAdjacent_iff p q).mp hadj
    rw [removeWallBetween_walls]
    congr 1
    · simp only [eq_iff_iff]
      unfold betweenWall
      constructor
      · rintro (⟨h1, h2⟩ | ⟨h1, h2⟩)
        · exact Or.inl ⟨h1, by rw [h1, h2]⟩
        · refine Or.inr ⟨h1, ?_⟩
          rw [h1, h2]
          simp
      · rintro (⟨h1, h2⟩ | ⟨h1, h2⟩)
        · refine Or.inl ⟨h1, ?_⟩
          rw [h1] at h2
          exact posAdd_left_inj h2
        · refine Or.inr ⟨h1, ?_⟩
          rw [h1] at h2
          have : posAdd (posAdd p d) d.opposite = posAdd (posAdd p d) e := by
            rw [h2]
            simp
          exact (posAdd_left_inj this).symm
  · rw [removeWallBetween_not_adjacent m p q (by simpa using hadj)]
    rw [if_neg]
    unfold betweenWall
    rintro (⟨h1, h2⟩ | ⟨h1, h2⟩)
    · rw [← h1, ← h2] at hadj
      exact hadj ((areAdjacent_iff r (posAdd r e)).mpr ⟨e, rfl⟩)
    · rw [← h1, ← h2] at hadj
      have : areAdjacent (posAdd r e) r = true := by
        have := (areAdjacent_iff (posAdd r e) ((posAdd r e).1 - e.delta.1,
          (posAdd r e).2 - e.delta.2)).mpr ?ex
        case ex =>
          refine ⟨e.opposite, ?_⟩
          cases e <;> simp [posAdd, Dir.delta, Dir.opposite, Prod.ext_iff] <;> omega
        have hr : ((posAdd r e).1 - e.delta.1, (posAdd r e).2 - e.delta.2) = r := by
          cases e <;> simp [posAdd, Dir.delta, Prod.ext_iff] <;> omega
        rwa [hr] at this
      exact hadj this

theorem betweenWall_comm (p q r : Pos) (e : Dir) :
    betweenWall p q r e ↔ betweenWall q p r e := by
  unfold betweenWall
  exact Or.comm

/-- Full characterisation of `remove_wall_between` as a record update. -/
theorem removeWB_eq (m : Maze) (p q : Pos) :
    (m.removeWallBetween p q).1 =
      { m with walls := fun r e => if betweenWall p q r e then false else m.walls r e } := by
  ext1
  · exact removeWallBetween_width m p q
  · exact removeWallBetween_height m p q
  · funext r e
    exact removeWB_walls_char m p q r e
  · exact removeWallBetween_visited m p q
  · exact removeWB_startPos m p q
  · exact removeWB_endPos m p q
  · exact removeWB_distance m p q
  · exact removeWB_parent m p q
  · exact removeWB_solutionPath m p q

theorem carveStep_eq (p q : Pos) (m : Maze) :
    carveStep p q m =
      { m with walls := fun r e => if betweenWall p q r e then false else m.walls r e,
               visited := fun x => if x = p then true else m.visited x } := by
  unfold carveStep
  rw [removeWB_eq]
  rfl

theorem carveStep_comm (p q a b : Pos) (m : Maze) :
    carveStep p q (carveStep a b m) = carveStep a b (carveStep p q m) := by
  rw [carveStep_eq, carveStep_eq, carveStep_eq, carveStep_eq]
  ext1 <;> try rfl
  · funext r e
    simp only
    by_cases h1 : betweenWall p q r e <;> by_cases h2 : betweenWall a b r e <;>
      simp [h1, h2]
  · funext x
    simp only
    by_cases h1 : x = p <;> by_cases h2 : x = a <;> simp [h1, h2]

theorem carveOnly_step_comm (p q : Pos) :
    ∀ (l : List Pos) (m : Maze), carveOnly l (carveStep p q m) = carveStep p q (carveOnly l m) := by
  intro l
  match l with
  | [] => intro m; rfl
  | [_] => intro m; rfl
  | a :: b :: t =>
    intro m
    show carveOnly (b :: t) (carveStep a b (carveStep p q m)) = _
    rw [carveStep_comm a b p q m, carveOnly_step_comm p q (b :: t)]
    rfl

/-- Head-last view of the carve: the head edge is attached after the tail. -/
theorem carveOnly_cons (p q : Pos) (rest : List Pos) (m : Maze) :
    carveOnly (p :: q :: rest) m = carveStep p q (carveOnly (q :: rest) m) := by
  show carveOnly (q :: rest) (carveStep p q m) = _
  exact carveOnly_step_comm p q (q :: rest) m

theorem removeWB_comm_args (m : Maze) (p q : Pos) :
    (m.removeWallBetween p q).1 = (m.removeWallBetween q p).1 := by
  rw [removeWB_eq, removeWB_eq]
  ext1 <;> try rfl
  funext r e
  show (if betweenWall p q r e then false else m.walls r e) =
    (if betweenWall q p r e then false else m.walls r e)
  by_cases h : betweenWall p q r e
  · rw [if_pos h, if_pos ((betweenWall_comm p q r e).mp h)]
  · rw [if_neg h, if_neg (fun hc => h ((betweenWall_comm p q r e).mpr hc))]

@[simp] theorem carveStep_width (p q : Pos) (m : Maze) : (carveStep p q m).width = m.width := by
  rw [carveStep_eq]

@[simp] theorem carveStep_height (p q : Pos) (m : Maze) : (carveStep p q m).height = m.height := by
  rw [carveStep_eq]

theorem neighbors_ne_nil {m : Maze} {p : Pos} (hp : m.inB p) (h2 : 2 ≤ m.width * m.height) :
    m.neighbors p ≠ [] := by
  obtain ⟨h1, h2', h3, h4⟩ := hp
  have hcase : 2 ≤ m.width ∨ 2 ≤ m.height := by
    by_contra hc
    push_neg at hc
    have := Nat.mul_le_mul (Nat.le_of_lt_succ hc.1) (Nat.le_of_lt_succ hc.2)
    omega
  have hmem : ∃ q, q ∈ m.neighbors p := by
    rcases hcase with hcw | hch
    · by_cases hx : p.1 + 1 < (m.width : Int)
      · exact ⟨posAdd p Dir.east, mem_neighbors.mpr ⟨Dir.east, rfl, by
          unfold Maze.inB
          simp [posAdd, Dir.delta]
          omega⟩⟩
      · exact ⟨posAdd p Dir.west, mem_neighbors.mpr ⟨Dir.west, rfl, by
          unfold Maze.inB
          simp [posAdd, Dir.delta]
          omega⟩⟩
    · by_cases hy : p.2 + 1 < (m.height : Int)
      · exact ⟨posAdd p Dir.south, mem_neighbors.mpr ⟨Dir.south, rfl, by
          unfold Maze.inB
          simp [posAdd, Dir.delta]
          omega⟩⟩
      · exact ⟨posAdd p Dir.north, mem_neighbors.mpr ⟨Dir.north, rfl, by
          unfold Maze.inB
          simp [posAdd, Dir.delta]
          omega⟩⟩
  obtain ⟨q, hq⟩ := hmem
  exact List.ne_nil_of_mem hq

/-- Attaching a loop-erased walk whose far end lies in the tree preserves the
generator invariant; the walked cells (except the final tree cell) become
visited. -/
theorem carveOnly_genInv (m : Maze) (I : GenInv m) :
    ∀ path : List Pos,
      path.Nodup →
      List.Chain' (fun a b => b ∈ m.neighbors a) path →
      (∀ p ∈ path, m.inB p) →
      (∀ p ∈ path.dropLast, m.visited p = false) →
      (∀ lc, path.getLast? = some lc → m.visited lc = true) →
      GenInv (carveOnly path m) ∧
        (carveOnly path m).width = m.width ∧ (carveOnly path m).height = m.height ∧
        (∀ x, (carveOnly path m).visited x = true ↔
          (m.visited x = true ∨ x ∈ path.dropLast)) := by
  intro path
  induction path with
  | nil =>
    intro _ _ _ _ _
    exact ⟨I, rfl, rfl, fun x => by simp [carveOnly]⟩
  | cons p tl ih =>
    cases tl with
    | nil =>
      intro _ _ _ _ _
      exact ⟨I, rfl, rfl, fun x => by simp [carveOnly]⟩
    | cons q rest =>
      intro hnd hchain hinB hunvis hlast
      have hdrop : (p :: q :: rest).dropLast = p :: (q :: rest).dropLast := by
        rw [List.dropLast_cons_of_ne_nil (by simp)]
      obtain ⟨ihI, ihW, ihH, ihV⟩ := ih
        (List.nodup_cons.mp hnd).2
        hchain.tail
        (fun x hx => hinB x (List.mem_cons_of_mem _ hx))
        (fun x hx => hunvis x (by rw [hdrop]; exact List.mem_cons_of_mem _ hx))
        (fun lc hlc => hlast lc (by rwa [List.getLast?_cons_cons]))
      have hpq : q ∈ m.neighbors p := (List.chain'_cons.mp hchain).1
      obtain ⟨d0, hqd, hqB⟩ := mem_neighbors.mp hpq
      have hp_eq : p = posAdd q (Dir.opposite d0) := by rw [hqd]; simp
      have hqvis : (carveOnly (q :: rest) m).visited q = true := by
        rw [ihV q]
        cases rest with
        | nil => exact Or.inl (hlast q (by simp))
        | cons r t =>
          refine Or.inr ?_
          rw [List.dropLast_cons_of_ne_nil (by simp)]
          exact List.mem_cons_self _ _
      have hpmem_drop : p ∈ (p :: q :: rest).dropLast := by
        rw [hdrop]
        exact List.mem_cons_self _ _
      have hpunvis : (carveOnly (q :: rest) m).visited p = false := by
        rw [← Bool.not_eq_true, ihV p]
        push_neg
        refine ⟨?_, ?_⟩
        · rw [hunvis p hpmem_drop]
          simp
        · intro hc
          exact (List.nodup_cons.mp hnd).1 (List.dropLast_subset _ hc)
      have hM'pB : (carveOnly (q :: rest) m).inB p :=
        (inB_dims_eq ihW ihH p).mpr (hinB p (List.mem_cons_self _ _))
      have hv' : (carveOnly (q :: rest) m).visited (posAdd q (Dir.opposite d0)) = false := by
        rw [← hp_eq]
        exact hpunvis
      have hvB' : (carveOnly (q :: rest) m).inB (posAdd q (Dir.opposite d0)) := by
        rw [← hp_eq]
        exact hM'pB
      obtain ⟨cI, _⟩ := ihI.carve hqvis hv' hvB'
      have hfinal : carveOnly (p :: q :: rest) m =
          (((carveOnly (q :: rest) m).setVisited
              (posAdd q (Dir.opposite d0))).removeWallBetween q
                (posAdd q (Dir.opposite d0))).1 := by
        rw [carveOnly_cons]
        have h1 : carveStep p q (carveOnly (q :: rest) m) =
            (((carveOnly (q :: rest) m).setVisited p).removeWallBetween q p).1 :=
          removeWB_comm_args ((carveOnly (q :: rest) m).setVisited p) p q
        rw [h1, hp_eq]
      refine ⟨by rw [hfinal]; exact cI, ?_, ?_, ?_⟩
      · rw [hfinal, removeWallBetween_width]
        simpa using ihW
      · rw [hfinal, removeWallBetween_height]
        simpa using ihH
      · intro x
        rw [hfinal]
        have hvis := removeWallBetween_visited
          ((carveOnly (q :: rest) m).setVisited (posAdd q (Dir.opposite d0))) q
          (posAdd q (Dir.opposite d0))
        rw [show (((carveOnly (q :: rest) m).setVisited
              (posAdd q (Dir.opposite d0))).removeWallBetween q
                (posAdd q (Dir.opposite d0))).1.visited x =
            ((carveOnly (q :: rest) m).setVisited (posAdd q (Dir.opposite d0))).visited x from
          congrFun hvis x]
        simp only [setVisited_visited]
        rw [hdrop]
        by_cases hx : x = posAdd q (Dir.opposite d0)
        · rw [if_pos hx]
          constructor
          · intro _
            refine Or.inr ?_
            rw [hx, ← hp_eq]
            exact List.mem_cons_self _ _
          · intro _
            rfl
        · rw [if_neg hx, ihV x, List.mem_cons]
          have hxp : x ≠ p := fun hc => hx (hc.trans hp_eq)
          constructor
          · rintro (h | h)
            · exact Or.inl h
            · exact Or.inr (Or.inr h)
          · rintro (h | h | h)
            · exact Or.inl h
            · exact absurd h hxp
            · exact Or.inr h

theorem walk_all_unvisited {m : Maze} {path : List Pos} {current : Pos}
    (hne : path ≠ []) (hlastEq : path.getLast? = some current)
    (hdrops : ∀ p ∈ path.dropLast, m.visited p = false)
    (hcur : m.visited current = false) :
    ∀ x ∈ path, m.visited x = false := by
  have hgl : path.getLast hne = current := by
    have h := List.getLast?_eq_getLast path hne
    rw [h] at hlastEq
    exact Option.some.inj hlastEq
  intro x hx
  rw [← List.dropLast_append_getLast hne] at hx
  rcases List.mem_append.mp hx with h | h
  · exact hdrops x h
  · rw [List.mem_singleton] at h
    rw [h, hgl]
    exact hcur

theorem take_indexOf_concat {l : List Pos} {a : Pos} (h : a ∈ l) :
    l.take (l.indexOf a + 1) = l.take (l.indexOf a) ++ [a] := by
  induction l with
  | nil => cases h
  | cons b t ih =>
    by_cases hb : a = b
    · subst hb
      have h0 : (a :: t).indexOf a = 0 := by
        simp [List.indexOf, List.findIdx_cons]
      rw [h0]
      rfl
    · have hat : a ∈ t := by
        rcases List.mem_cons.mp h with hc | hc
        · exact absurd hc hb
        · exact hc
      have hbeq : (b == a) = false := beq_eq_false_iff_ne.mpr (fun hc => hb hc.symm)
      have hstep : (b :: t).indexOf a = t.indexOf a + 1 := by
        simp [List.indexOf, List.findIdx_cons, hbeq]
      rw [hstep, List.take_succ_cons, List.take_succ_cons, ih hat]
      simp

/-- The random walk, when it returns, hands back a duplicate-free path of
adjacent in-bounds cells whose final cell is the only visited one. -/
theorem wilsonWalk_post (σ : Nat → Nat) (m : Maze) (h2 : 2 ≤ m.width * m.height) :
    ∀ (fuel k : Nat) (path : List Pos) (current : Pos) (path' : List Pos) (k' : Nat),
      path ≠ [] →
      path.getLast? = some current →
      path.Nodup →
      List.Chain' (fun a b => b ∈ m.neighbors a) path →
      (∀ p ∈ path, m.inB p) →
      (∀ p ∈ path.dropLast, m.visited p = false) →
      wilsonWalk σ m fuel k path current = some (path', k') →
      path' ≠ [] ∧ path'.Nodup ∧
        List.Chain' (fun a b => b ∈ m.neighbors a) path' ∧
        (∀ p ∈ path', m.inB p) ∧
        (∀ p ∈ path'.dropLast, m.visited p = false) ∧
        (∀ lc, path'.getLast? = some lc → m.visited lc = true) := by
  intro fuel
  induction fuel with
  | zero =>
    intro k path current path' k' _ _ _ _ _ _ h
    simp [wilsonWalk] at h
  | succ n ih =>
    intro k path current path' k' hne hlastEq hnd hchain hinB hdrops h
    simp only [wilsonWalk] at h
    by_cases hvc : m.visited current = true
    · rw [if_pos hvc] at h
      rw [Option.some.injEq, Prod.mk.injEq] at h
      obtain ⟨rfl, rfl⟩ := h
      refine ⟨hne, hnd, hchain, hinB, hdrops, ?_⟩
      intro lc hlc
      rw [hlastEq] at hlc
      obtain rfl := Option.some.inj hlc
      exact hvc
    · rw [if_neg hvc] at h
      have hcurf : m.visited current = false := by simpa using hvc
      have hgl : path.getLast hne = current := by
        have hg := List.getLast?_eq_getLast path hne
        rw [hg] at hlastEq
        exact Option.some.inj hlastEq
      have hcurmem : current ∈ path := by
        rw [← hgl]
        exact List.getLast_mem hne
      have hnbne : m.neighbors current ≠ [] :=
        neighbors_ne_nil (hinB current hcurmem) h2
      have hnbe : ¬((m.neighbors current).isEmpty = true) := by
        simpa [List.isEmpty_iff] using hnbne
      rw [if_neg hnbe] at h
      have hall : ∀ x ∈ path, m.visited x = false :=
        walk_all_unvisited hne hlastEq hdrops hcurf
      have hnmem : (m.neighbors current).getD
          (randBelow σ k (m.neighbors current).length) posDflt ∈ m.neighbors current :=
        getD_mem hnbne σ k posDflt
      set nxt := (m.neighbors current).getD
        (randBelow σ k (m.neighbors current).length) posDflt with hnxt
      obtain ⟨dn, hndir, hnB⟩ := mem_neighbors.mp hnmem
      by_cases hmem : nxt ∈ path
      · rw [if_pos hmem] at h
        have htake : path.take (path.indexOf nxt + 1) =
            path.take (path.indexOf nxt) ++ [nxt] := take_indexOf_concat hmem
        refine ih (k + 1) _ nxt path' k' ?_ ?_ ?_ ?_ ?_ ?_ h
        · rw [htake]
          simp
        · rw [htake]
          exact List.getLast?_concat _
        · exact List.Nodup.sublist (List.take_sublist _ _) hnd
        · exact List.Chain'.prefix hchain (List.take_prefix _ _)
        · intro x hx
          exact hinB x (List.take_subset _ _ hx)
        · intro x hx
          exact hall x (List.take_subset _ _ (List.dropLast_subset _ hx))
      · rw [if_neg hmem] at h
        refine ih (k + 1) _ nxt path' k' ?_ ?_ ?_ ?_ ?_ ?_ h
        · simp
        · exact List.getLast?_concat _
        · rw [List.nodup_append]
          refine ⟨hnd, by simp, ?_⟩
          intro a ha hb
          rw [List.mem_singleton] at hb
          exact hmem (hb ▸ ha)
        · rw [List.chain'_append]
          refine ⟨hchain, List.chain'_singleton _, ?_⟩
          intro x hx y hy
          rw [hlastEq] at hx
          rw [Option.mem_some_iff] at hx
          simp only [List.head?_cons, Option.mem_some_iff] at hy
          rw [← hx, ← hy]
          exact hnmem
        · intro x hx
          rcases List.mem_append.mp hx with hxa | hxa
          · exact hinB x hxa
          · rw [List.mem_singleton] at hxa
            exact hxa ▸ hnB
        · intro x hx
          rw [List.dropLast_concat] at hx
          exact hall x hx

/-- The outer Wilson loop preserves the generator invariant; on success every
in-bounds cell has been visited. -/
theorem wilsonLoop_post (σ : Nat → Nat) (wfuel : Nat) :
    ∀ (ofuel : Nat) (m : Maze) (unvis : List Pos) (k : Nat) (m' : Maze) (k' : Nat),
      GenInv m →
      unvis = (allCells m.width m.height).filter (fun c => ! m.visited c) →
      wilsonLoop σ wfuel ofuel m unvis k = some (m', k') →
      GenInv m' ∧ m'.width = m.width ∧ m'.height = m.height ∧
        (∀ p, m'.inB p → m'.visited p = true) := by
  intro ofuel
  induction ofuel with
  | zero =>
    intro m unvis k m' k' _ _ h
    simp [wilsonLoop] at h
  | succ n ih =>
    intro m unvis k m' k' I hU h
    cases unvis with
    | nil =>
      simp only [wilsonLoop, Option.some.injEq, Prod.mk.injEq] at h
      obtain ⟨rfl, rfl⟩ := h
      refine ⟨I, rfl, rfl, ?_⟩
      intro p hp
      by_contra hvp
      have hf : m.visited p = false := by simpa using hvp
      have hpm : p ∈ (allCells m.width m.height).filter (fun c => ! m.visited c) :=
        List.mem_filter.mpr ⟨inB_mem_allCells hp, by simp [hf]⟩
      rw [← hU] at hpm
      simp at hpm
    | cons u us =>
      simp only [wilsonLoop] at h
      have hcmem0 : (u :: us).getD (randBelow σ k (u :: us).length) posDflt ∈ u :: us :=
        getD_mem (by simp) σ k posDflt
      set c := (u :: us).getD (randBelow σ k (u :: us).length) posDflt with hcdef
      have hcmem : c ∈ (allCells m.width m.height).filter (fun x => ! m.visited x) := by
        rw [← hU]
        exact hcmem0
      rw [List.mem_filter] at hcmem
      have hcB : m.inB c := mem_allCells.mp hcmem.1
      have hcun : m.visited c = false := by
        have h3 := hcmem.2
        simpa using h3
      have hvc1 : 1 ≤ visitedCount m := by
        have := I.count
        omega
      have huv1 : 1 ≤ uvCount m := by
        have hpos : 0 < (allCells m.width m.height).countP (fun p => ! m.visited p) :=
          List.countP_pos.mpr ⟨c, inB_mem_allCells hcB, by simp [hcun]⟩
        exact hpos
      have h2 : 2 ≤ m.width * m.height := by
        have := visitedCount_add_uvCount m
        omega
      rcases hw : wilsonWalk σ m wfuel (k + 1) [c] c with _ | ⟨path, k2⟩
      · simp only [hw] at h
        simp at h
      · simp only [hw] at h
        have hin1 : ∀ p ∈ [c], m.inB p := by
          intro p hp
          rw [List.mem_singleton] at hp
          exact hp ▸ hcB
        obtain ⟨wne, wnd, wch, winB, wdrop, wlast⟩ :=
          wilsonWalk_post σ m h2 wfuel (k + 1) [c] c path k2 (by simp) (by simp) (by simp)
            (List.chain'_singleton c) hin1 (by simp) hw
        obtain ⟨cI, cW, cH, cV⟩ := carveOnly_genInv m I path wnd wch winB wdrop wlast
        have hfst : (wilsonCarve path m (u :: us)).1 = carveOnly path m :=
          wilsonCarve_fst path m (u :: us)
        rw [hfst] at h
        have hpredF : ∀ p ∈ path.dropLast,
            (fun q => ! (carveOnly path m).visited q) p = false := by
          intro p hp
          have hv := (cV p).mpr (Or.inr hp)
          simp [hv]
        have hsnd : (wilsonCarve path m (u :: us)).2.filter
            (fun q => ! (carveOnly path m).visited q) =
            (u :: us).filter (fun q => ! (carveOnly path m).visited q) :=
          wilsonCarve_snd_filter _ path m (u :: us) hpredF
        rw [hsnd] at h
        have hU2 : (u :: us).filter (fun q => ! (carveOnly path m).visited q) =
            (allCells (carveOnly path m).width (carveOnly path m).height).filter
              (fun x => ! (carveOnly path m).visited x) := by
          rw [cW, cH, hU, List.filter_filter]
          refine List.filter_congr ?_
          intro x _
          cases hcx : (carveOnly path m).visited x
          · have hmx : m.visited x = false := by
              by_contra hmx'
              have hmx2 : m.visited x = true := by simpa using hmx'
              have hvt := (cV x).mpr (Or.inl hmx2)
              rw [hvt] at hcx
              cases hcx
            simp [hcx, hmx]
          · simp [hcx]
        obtain ⟨g1, g2, g3, g4⟩ := ih (carveOnly path m) _ k2 m' k' cI hU2 h
        exact ⟨g1, g2.trans cW, g3.trans cH, g4⟩

/-- `WilsonGenerator.generate`: whenever the fuelled run returns, the result is
a spanning tree on unchanged dimensions with every cell visited. -/
theorem wilsonGenerate_spec (σ : Nat → Nat) (k : Nat) (m0 : Maze) (wfuel : Nat)
    (hw : 1 ≤ m0.width) (hh : 1 ≤ m0.height) :
    ∀ m' k', wilsonGenerate σ k m0 wfuel = some (m', k') →
      GenInv m' ∧ SpanningTree m' ∧ (∀ p, m'.inB p → m'.visited p = true) ∧
        m'.width = m0.width ∧ m'.height = m0.height := by
  intro m' k' h
  unfold wilsonGenerate at h
  have hsB : (resetMazeGen m0).inB ((resetMazeGen m0).randomCell σ k).1 :=
    randomCell_inB hw hh σ k
  have hI : GenInv ((resetMazeGen m0).setVisited ((resetMazeGen m0).randomCell σ k).1) :=
    genInv_init m0 _ hsB
  obtain ⟨g1, g2, g3, g4⟩ := wilsonLoop_post σ wfuel _ _ _ _ m' k' hI rfl h
  have hW0 : m'.width = m0.width := g2
  have hH0 : m'.height = m0.height := g3
  have hclosed : ∀ p, m'.visited p = true → ∀ q ∈ m'.neighbors p, m'.visited q = true := by
    intro p _ q hq
    obtain ⟨d, _, hqB⟩ := mem_neighbors.mp hq
    exact g4 q hqB
  have h00 : m'.inB ((0 : Int), (0 : Int)) := by
    unfold Maze.inB
    rw [hW0, hH0]
    refine ⟨le_refl 0, ?_, le_refl 0, ?_⟩ <;> simp <;> omega
  obtain ⟨hall, hspan⟩ := genInv_spanning g1 hclosed (g4 _ h00)
  exact ⟨g1, hspan, hall, hW0, hH0⟩

/-! ### Kruskal's generator: union-find correctness -/

/-- A union-find root: absent from the dictionary, or its own parent. -/
def isRoot (uf : UF) (c : Pos) : Prop := uf.parent c = none ∨ uf.parent c = some c

instance (uf : UF) (c : Pos) : Decidable (isRoot uf c) := by
  unfold isRoot
  infer_instance

/-- Structural invariant of the union-find state: rank ascends strictly along
non-trivial parent edges, ranks are bounded, parents stay in the dictionary and
inside the grid, and parent edges never leave a passage component. -/
structure UFOk (m : Maze) (uf : UF) (R : Nat) : Prop where
  asc : ∀ a b, uf.parent a = some b → b ≠ a → uf.rank a < uf.rank b
  bnd : ∀ a, uf.rank a ≤ R
  dom : ∀ a b, uf.parent a = some b → uf.parent b ≠ none
  inBd : ∀ a b, uf.parent a = some b → m.inB a ∧ m.inB b
  conn : ∀ a b, uf.parent a = some b → Conn m a b

/-- Distinct union-find roots lie in distinct passage components. -/
def ufSep (m : Maze) (uf : UF) : Prop :=
  ∀ a b, isRoot uf a → isRoot uf b → a ≠ b → ¬ Conn m a b

theorem ufSep_of_roots_iff {m : Maze} {uf uf' : UF}
    (hiff : ∀ x, isRoot uf' x ↔ isRoot uf x) (hsep : ufSep m uf) : ufSep m uf' :=
  fun a b ha hb hne => hsep a b ((hiff a).mp ha) ((hiff b).mp hb) hne

theorem ufEnsure_of_mem {uf : UF} {c q : Pos} (h : uf.parent c = some q) :
    ufEnsure uf c = uf := by
  unfold ufEnsure
  rw [h]

theorem ufEnsure_of_none {uf : UF} {c : Pos} (h : uf.parent c = none) :
    ufEnsure uf c =
      { parent := fun q => if q = c then some c else uf.parent q,
        rank := fun q => if q = c then 0 else uf.rank q } := by
  unfold ufEnsure
  rw [h]

theorem ufEnsure_ok {m : Maze} {uf : UF} {R : Nat} (Ok : UFOk m uf R) {c : Pos}
    (hc : m.inB c) : UFOk m (ufEnsure uf c) R := by
  rcases hp : uf.parent c with _ | q
  · rw [ufEnsure_of_none hp]
    have hnoin : ∀ a, uf.parent a ≠ some c := by
      intro a ha
      exact Ok.dom a c ha hp
    refine ⟨?_, ?_, ?_, ?_, ?_⟩
    · intro a b hab hba
      simp only at hab ⊢
      split at hab
      · next hac =>
        obtain rfl := Option.some.inj hab
        exact absurd hac.symm (by simpa using hba)
      · next hac =>
        have hbc : b ≠ c := fun hbc => hnoin a (hbc ▸ hab)
        rw [if_neg hac, if_neg hbc]
        exact Ok.asc a b hab hba
    · intro a
      simp only
      split
      · omega
      · exact Ok.bnd a
    · intro a b hab
      simp only at hab ⊢
      split at hab
      · obtain rfl := Option.some.inj hab
        simp
      · next hac =>
        have hbc : b ≠ c := fun hbc => hnoin a (hbc ▸ hab)
        rw [if_neg hbc]
        exact Ok.dom a b hab
    · intro a b hab
      simp only at hab
      split at hab
      · next hac =>
        obtain rfl := Option.some.inj hab
        exact ⟨hac ▸ hc, hac ▸ hc⟩
      · exact Ok.inBd a b hab
    · intro a b hab
      simp only at hab
      split at hab
      · next hac =>
        obtain rfl := Option.some.inj hab
        subst hac
        exact Relation.ReflTransGen.refl
      · exact Ok.conn a b hab
  · rw [ufEnsure_of_mem hp]
    exact Ok

theorem ufEnsure_isRoot (uf : UF) (c x : Pos) :
    isRoot (ufEnsure uf c) x ↔ isRoot uf x := by
  rcases hp : uf.parent c with _ | q
  · rw [ufEnsure_of_none hp]
    unfold isRoot
    simp only
    by_cases hx : x = c
    · subst hx
      simp [hp]
    · rw [if_neg hx]
  · rw [ufEnsure_of_mem hp]

/-- `find` always succeeds given enough fuel, returns a root of the cell's
component, and preserves the structural invariant, the root set and the ranks. -/
theorem ufFind_spec (m : Maze) :
    ∀ (fuel : Nat) (uf : UF) (c : Pos) (R : Nat),
      UFOk m uf R → m.inB c → R < uf.rank c + fuel →
      ∃ r uf', ufFind fuel uf c = some (r, uf') ∧
        UFOk m uf' R ∧
        (∀ x, isRoot uf' x ↔ isRoot uf x) ∧
        uf'.rank = (ufEnsure uf c).rank ∧
        uf'.parent r = some r ∧
        Conn m c r ∧
        (ufEnsure uf c).rank c ≤ uf'.rank r ∧
        m.inB r ∧
        (∀ x, uf.parent x ≠ none → uf'.parent x ≠ none) := by
  intro fuel
  induction fuel with
  | zero =>
    intro uf c R Ok hc hlt
    have h1 : uf.rank c ≤ R := Ok.bnd c
    omega
  | succ n ih =>
    intro uf c R Ok hc hlt
    rcases hp : uf.parent c with _ | q
    · refine ⟨c, ufEnsure uf c, ?_, ufEnsure_ok Ok hc, fun x => ufEnsure_isRoot uf c x,
        rfl, ?_, Relation.ReflTransGen.refl, le_refl _, hc, ?_⟩
      · simp only [ufFind]
        rw [ufEnsure_of_none hp]
        simp
      · rw [ufEnsure_of_none hp]
        simp
      · intro x hx
        rw [ufEnsure_of_none hp]
        simp only
        split
        · simp
        · exact hx
    · have hens : ufEnsure uf c = uf := ufEnsure_of_mem hp
      have hstep : ufFind (n + 1) uf c =
          (if q = c then some (c, uf)
           else match ufFind n uf q with
             | none => none
             | some (r, uf1) =>
               some (r, { uf1 with parent := fun x => if x = c then some r else uf1.parent x })) := by
        simp only [ufFind]
        rw [hens, hp]
        simp only [Option.getD_some]
      by_cases hqc : q = c
      · subst hqc
        rw [hstep, if_pos rfl]
        exact ⟨q, uf, rfl, Ok, fun _ => Iff.rfl, by rw [hens], hp,
          Relation.ReflTransGen.refl, by rw [hens], hc, fun _ hx => hx⟩
      · have hqB : m.inB q := (Ok.inBd c q hp).2
        have hrkcq : uf.rank c < uf.rank q := Ok.asc c q hp hqc
        have hltq : R < uf.rank q + n := by omega
        obtain ⟨r, uf1, heq, Ok1, hroots1, hrank1, hrootr, hconn1, hle1, hrB, hdict1⟩ :=
          ih uf q R Ok hqB hltq
        have hqdict : ∃ q2, uf.parent q = some q2 := by
          rcases hq2 : uf.parent q with _ | q2
          · exact absurd hq2 (Ok.dom c q hp)
          · exact ⟨q2, rfl⟩
        obtain ⟨q2, hq2⟩ := hqdict
        have hrank1' : uf1.rank = uf.rank := by
          rw [hrank1, ufEnsure_of_mem hq2]
        have hle1' : uf.rank q ≤ uf1.rank r := by
          rw [ufEnsure_of_mem hq2] at hle1
          exact hle1
        have hcr : uf.rank c < uf.rank r := by
          rw [hrank1'] at hle1'
          omega
        have hrc : r ≠ c := by
          intro hcontr
          rw [hcontr] at hcr
          omega
        refine ⟨r, { uf1 with parent := fun x => if x = c then some r else uf1.parent x },
          ?_, ?_, ?_, ?_, ?_, ?_, ?_, hrB, ?_⟩
        · rw [hstep, if_neg hqc, heq]
        · refine ⟨?_, ?_, ?_, ?_, ?_⟩
          · intro a b hab hba
            simp only at hab ⊢
            split at hab
            · next hac =>
              obtain rfl := Option.some.inj hab
              subst hac
              rw [hrank1']
              exact hcr
            · exact Ok1.asc a b hab hba
          · intro a
            exact Ok1.bnd a
          · intro a b hab
            simp only at hab ⊢
            split at hab
            · obtain rfl := Option.some.inj hab
              rw [if_neg hrc, hrootr]
              simp
            · split
              · simp
              · exact Ok1.dom a b hab
          · intro a b hab
            simp only at hab
            split at hab
            · next hac =>
              obtain rfl := Option.some.inj hab
              exact ⟨hac ▸ hc, hrB⟩
            · exact Ok1.inBd a b hab
          · intro a b hab
            simp only at hab
            split at hab
            · next hac =>
              obtain rfl := Option.some.inj hab
              rw [hac]
              exact Relation.ReflTransGen.trans (Ok.conn c q hp) hconn1
            · exact Ok1.conn a b hab
        · intro x
          by_cases hx : x = c
          · subst hx
            unfold isRoot
            simp only [if_pos rfl]
            constructor
            · rintro (hno | hself)
              · cases hno
              · exact absurd (Option.some.inj hself) hrc
            · rintro (hno | hself)
              · rw [hp] at hno
                cases hno
              · rw [hp] at hself
                exact absurd (Option.some.inj hself) hqc
          · unfold isRoot
            simp only [if_neg hx]
            exact hroots1 x
        · rw [hens]
          show uf1.rank = uf.rank
          exact hrank1'
        · simp only [if_neg hrc]
          exact hrootr
        · exact Relation.ReflTransGen.trans (Ok.conn c q hp) hconn1
        · rw [hens]
          show uf.rank c ≤ uf1.rank r
          rw [hrank1']
          omega
        · intro x hx
          simp only
          split
          · simp
          · exact hdict1 x hx

/-- Re-pointing one root `l` at another root `w` (with a rank function that
still ascends along edges) yields a structure whose roots are the old roots
minus `l`. -/
theorem ufLink_props (m : Maze) (R : Nat) (ufB : UF) (w l c1 c2 : Pos)
    (OkB : UFOk m ufB R)
    (hrootw : ufB.parent w = some w)
    (hlw : w ≠ l) (hwB : m.inB w) (hlB : m.inB l)
    (hcross : (Conn m l c1 ∧ Conn m c2 w) ∨ (Conn m l c2 ∧ Conn m c1 w))
    (nr : Pos → Nat)
    (hascnr : ∀ a b, ufB.parent a = some b → b ≠ a → nr a < nr b)
    (hnrlw : nr l < nr w)
    (hnrbnd : ∀ a, nr a ≤ R + 1) :
    (∀ x, isRoot ⟨fun q => if q = l then some w else ufB.parent q, nr⟩ x ↔
        (isRoot ufB x ∧ x ≠ l)) ∧
    (∀ a b', (fun q => if q = l then some w else ufB.parent q) a = some b' → b' ≠ a →
        nr a < nr b') ∧
    (∀ a b', (fun q => if q = l then some w else ufB.parent q) a = some b' →
        (fun q => if q = l then some w else ufB.parent q) b' ≠ none) ∧
    (∀ a b', (fun q => if q = l then some w else ufB.parent q) a = some b' →
        m.inB a ∧ m.inB b') ∧
    (∀ a b', (fun q => if q = l then some w else ufB.parent q) a = some b' →
        Conn m a b' ∨ (Conn m a c1 ∧ Conn m c2 b') ∨ (Conn m a c2 ∧ Conn m c1 b')) := by
  refine ⟨?_, ?_, ?_, ?_, ?_⟩
  · intro x
    by_cases hx : x = l
    · subst hx
      unfold isRoot
      simp only [if_pos rfl]
      constructor
      · rintro (hno | hself)
        · cases hno
        · exact absurd (Option.some.inj hself) hlw
      · rintro ⟨_, hne⟩
        exact absurd rfl hne
    · unfold isRoot
      simp only [if_neg hx]
      exact ⟨fun h => ⟨h, hx⟩, fun h => h.1⟩
  · intro a b' hab hba
    simp only at hab
    split at hab
    · next hal =>
      obtain rfl := Option.some.inj hab
      subst hal
      exact hnrlw
    · exact hascnr a b' hab hba
  · intro a b' hab
    simp only at hab ⊢
    split at hab
    · obtain rfl := Option.some.inj hab
      rw [if_neg hlw, hrootw]
      simp
    · split
      · simp
      · next hab2 =>
        exact OkB.dom a b' hab
  · intro a b' hab
    simp only at hab
    split at hab
    · next hal =>
      obtain rfl := Option.some.inj hab
      exact ⟨hal ▸ hlB, hwB⟩
    · exact OkB.inBd a b' hab
  · intro a b' hab
    simp only at hab
    split at hab
    · next hal =>
      obtain rfl := Option.some.inj hab
      subst hal
      rcases hcross with ⟨hl1, hl2⟩ | ⟨hl1, hl2⟩
      · exact Or.inr (Or.inl ⟨hl1, hl2⟩)
      · exact Or.inr (Or.inr ⟨hl1, hl2⟩)
    · exact Or.inl (OkB.conn a b' hab)

/-- `union` always succeeds given enough fuel.  It returns `false` exactly when
the two cells already lie in the same passage component; returning `true`, it
merges two distinct components, demoting one root. -/
theorem ufUnion_spec (m : Maze) (hws : wallSym m) (f R : Nat) (uf : UF) (c1 c2 : Pos)
    (Ok : UFOk m uf R) (hsep : ufSep m uf) (h1 : m.inB c1) (h2 : m.inB c2)
    (hfl : R < f) :
    ∃ b uf', ufUnion f uf c1 c2 = some (b, uf') ∧
      ((b = false ∧ Conn m c1 c2 ∧ UFOk m uf' R ∧
          (∀ x, isRoot uf' x ↔ isRoot uf x)) ∨
       (b = true ∧ ¬ Conn m c1 c2 ∧
        ∃ r1 r2 l, (l = r1 ∨ l = r2) ∧
          Conn m c1 r1 ∧ Conn m c2 r2 ∧ isRoot uf r1 ∧ isRoot uf r2 ∧ r1 ≠ r2 ∧
          m.inB l ∧
          (∀ x, isRoot uf' x ↔ (isRoot uf x ∧ x ≠ l)) ∧
          (∀ a b', uf'.parent a = some b' → b' ≠ a → uf'.rank a < uf'.rank b') ∧
          (∀ a, uf'.rank a ≤ R + 1) ∧
          (∀ a b', uf'.parent a = some b' → uf'.parent b' ≠ none) ∧
          (∀ a b', uf'.parent a = some b' → m.inB a ∧ m.inB b') ∧
          (∀ a b', uf'.parent a = some b' →
            Conn m a b' ∨ (Conn m a c1 ∧ Conn m c2 b') ∨
              (Conn m a c2 ∧ Conn m c1 b')))) := by
  have csym : ∀ {a b : Pos}, Conn m a b → Conn m b a :=
    fun h => conn_symm (fun _ _ hs => step_symm_of_wallSym hws hs) h
  obtain ⟨r1, ufA, heq1, OkA, rootsA, rankA, rootr1A, conn1, _, hr1B, hdictA⟩ :=
    ufFind_spec m f uf c1 R Ok h1 (by omega)
  obtain ⟨r2, ufB, heq2, OkB, rootsB, rankB, rootr2B, conn2, _, hr2B, hdictB⟩ :=
    ufFind_spec m f ufA c2 R OkA h2 (by omega)
  have hrootr1uf : isRoot uf r1 := (rootsA r1).mp (Or.inr rootr1A)
  have hrootr2uf : isRoot uf r2 := (rootsA r2).mp ((rootsB r2).mp (Or.inr rootr2B))
  have hrootr1B : ufB.parent r1 = some r1 := by
    have hne : ufB.parent r1 ≠ none := hdictB r1 (by rw [rootr1A]; simp)
    rcases (rootsB r1).mpr ((rootsA r1).mpr hrootr1uf) with hno | hself
    · exact absurd hno hne
    · exact hself
  have hsepB : ufSep m ufB :=
    ufSep_of_roots_iff rootsB (ufSep_of_roots_iff rootsA hsep)
  have hunf : ufUnion f uf c1 c2 =
      (if r1 = r2 then some (false, ufB)
       else if ufB.rank r1 < ufB.rank r2 then
         some (true, { ufB with parent := fun q => if q = r1 then some r2 else ufB.parent q })
       else if ufB.rank r2 < ufB.rank r1 then
         some (true, { ufB with parent := fun q => if q = r2 then some r1 else ufB.parent q })
       else
         some (true,
           { parent := fun q => if q = r2 then some r1 else ufB.parent q,
             rank := fun q => if q = r1 then ufB.rank r1 + 1 else ufB.rank q })) := by
    unfold ufUnion
    simp only [heq1]
    simp only [heq2]
  by_cases hr12 : r1 = r2
  · refine ⟨false, ufB, ?_, Or.inl ⟨rfl, ?_, OkB, fun x => (rootsB x).trans (rootsA x)⟩⟩
    · rw [hunf, if_pos hr12]
    · refine Relation.ReflTransGen.trans conn1 ?_
      rw [hr12]
      exact csym conn2
  · have hnc : ¬ Conn m c1 c2 := by
      intro hc
      exact hsep r1 r2 hrootr1uf hrootr2uf hr12
        (Relation.ReflTransGen.trans (csym conn1) (Relation.ReflTransGen.trans hc conn2))
    by_cases hlt : ufB.rank r1 < ufB.rank r2
    · obtain ⟨p1, p2, p3, p4, p5⟩ := ufLink_props m R ufB r2 r1 c1 c2 OkB rootr2B
        (Ne.symm hr12) hr2B hr1B (Or.inl ⟨csym conn1, conn2⟩) ufB.rank
        OkB.asc hlt (fun a => Nat.le_succ_of_le (OkB.bnd a))
      refine ⟨true, ⟨fun q => if q = r1 then some r2 else ufB.parent q, ufB.rank⟩,
        ?_, Or.inr ⟨rfl, hnc, r1, r2, r1, Or.inl rfl, conn1, conn2, hrootr1uf, hrootr2uf,
          hr12, hr1B, ?_, ?_, ?_, ?_, ?_, ?_⟩⟩
      · rw [hunf, if_neg hr12, if_pos hlt]
      · intro x
        exact (p1 x).trans (and_congr_left (fun _ => (rootsB x).trans (rootsA x)))
      · exact p2
      · exact fun a => Nat.le_succ_of_le (OkB.bnd a)
      · exact p3
      · exact p4
      · exact p5
    · by_cases hgt : ufB.rank r2 < ufB.rank r1
      · obtain ⟨p1, p2, p3, p4, p5⟩ := ufLink_props m R ufB r1 r2 c1 c2 OkB hrootr1B
          hr12 hr1B hr2B (Or.inr ⟨csym conn2, conn1⟩) ufB.rank
          OkB.asc hgt (fun a => Nat.le_succ_of_le (OkB.bnd a))
        refine ⟨true, ⟨fun q => if q = r2 then some r1 else ufB.parent q, ufB.rank⟩,
          ?_, Or.inr ⟨rfl, hnc, r1, r2, r2, Or.inr rfl, conn1, conn2, hrootr1uf, hrootr2uf,
            hr12, hr2B, ?_, ?_, ?_, ?_, ?_, ?_⟩⟩
        · rw [hunf, if_neg hr12, if_neg hlt, if_pos hgt]
        · intro x
          exact (p1 x).trans (and_congr_left (fun _ => (rootsB x).trans (rootsA x)))
        · exact p2
        · exact fun a => Nat.le_succ_of_le (OkB.bnd a)
        · exact p3
        · exact p4
        · exact p5
      · have heqrk : ufB.rank r2 = ufB.rank r1 := by omega
        have hascnr : ∀ a b, ufB.parent a = some b → b ≠ a →
            (fun q => if q = r1 then ufB.rank r1 + 1 else ufB.rank q) a <
              (fun q => if q = r1 then ufB.rank r1 + 1 else ufB.rank q) b := by
          intro a b hab hba
          have hanr1 : a ≠ r1 := by
            intro hc
            rw [hc, hrootr1B] at hab
            apply hba
            rw [hc]
            exact (Option.some.inj hab).symm
          simp only [if_neg hanr1]
          split
          · next hbr1 =>
            exact Nat.lt_succ_of_lt (hbr1 ▸ OkB.asc a b hab hba)
          · exact OkB.asc a b hab hba
        have hnrlw : (fun q => if q = r1 then ufB.rank r1 + 1 else ufB.rank q) r2 <
            (fun q => if q = r1 then ufB.rank r1 + 1 else ufB.rank q) r1 := by
          show (if r2 = r1 then ufB.rank r1 + 1 else ufB.rank r2) <
            (if r1 = r1 then ufB.rank r1 + 1 else ufB.rank r1)
          rw [if_neg (fun hc : r2 = r1 => hr12 hc.symm), if_pos rfl]
          omega
        have hnrbnd : ∀ a, (fun q => if q = r1 then ufB.rank r1 + 1 else ufB.rank q) a
            ≤ R + 1 := by
          intro a
          simp only
          split
          · exact Nat.succ_le_succ (OkB.bnd r1)
          · exact Nat.le_succ_of_le (OkB.bnd a)
        obtain ⟨p1, p2, p3, p4, p5⟩ := ufLink_props m R ufB r1 r2 c1 c2 OkB hrootr1B
          hr12 hr1B hr2B (Or.inr ⟨csym conn2, conn1⟩)
          (fun q => if q = r1 then ufB.rank r1 + 1 else ufB.rank q)
          hascnr hnrlw hnrbnd
        refine ⟨true, ⟨fun q => if q = r2 then some r1 else ufB.parent q,
            fun q => if q = r1 then ufB.rank r1 + 1 else ufB.rank q⟩,
          ?_, Or.inr ⟨rfl, hnc, r1, r2, r2, Or.inr rfl, conn1, conn2, hrootr1uf, hrootr2uf,
            hr12, hr2B, ?_, ?_, ?_, ?_, ?_, ?_⟩⟩
        · rw [hunf, if_neg hr12, if_neg hlt, if_neg hgt]
        · intro x
          exact (p1 x).trans (and_congr_left (fun _ => (rootsB x).trans (rootsA x)))
        · exact p2
        · exact hnrbnd
        · exact p3
        · exact p4
        · exact p5

/-- Reachability through a graph with one extra undirected edge decomposes into
pure reachability or reachability through the new edge. -/
theorem reflTransGen_addEdge_cases {E : Pos → Pos → Prop} {u v a b : Pos}
    (h : Relation.ReflTransGen (addEdgeRel E u v) a b) :
    Relation.ReflTransGen E a b ∨
      (Relation.ReflTransGen E a u ∧ Relation.ReflTransGen E v b) ∨
      (Relation.ReflTransGen E a v ∧ Relation.ReflTransGen E u b) := by
  induction h with
  | refl => exact Or.inl Relation.ReflTransGen.refl
  | tail _ hbc ih =>
    rcases hbc with hE | ⟨rfl, rfl⟩ | ⟨rfl, rfl⟩
    · rcases ih with h1 | ⟨h1, h2⟩ | ⟨h1, h2⟩
      · exact Or.inl (h1.tail hE)
      · exact Or.inr (Or.inl ⟨h1, h2.tail hE⟩)
      · exact Or.inr (Or.inr ⟨h1, h2.tail hE⟩)
    · rcases ih with h1 | ⟨h1, h2⟩ | ⟨h1, h2⟩
      · exact Or.inr (Or.inl ⟨h1, Relation.ReflTransGen.refl⟩)
      · exact Or.inr (Or.inl ⟨h1, Relation.ReflTransGen.refl⟩)
      · exact Or.inl h1
    · rcases ih with h1 | ⟨h1, h2⟩ | ⟨h1, h2⟩
      · exact Or.inr (Or.inr ⟨h1, Relation.ReflTransGen.refl⟩)
      · exact Or.inl h1
      · exact Or.inr (Or.inr ⟨h1, Relation.ReflTransGen.refl⟩)

/-- Number of union-find roots among the grid cells. -/
def rootCount (m : Maze) (uf : UF) : Nat :=
  (allCells m.width m.height).countP (fun c => decide (isRoot uf c))

theorem countP_eq_one_of_unique {p : Pos → Bool} {a : Pos} : ∀ {l : List Pos},
    l.Nodup → a ∈ l → p a = true → (∀ b ∈ l, p b = true → b = a) → l.countP p = 1 := by
  intro l
  induction l with
  | nil => simp
  | cons x t ih =>
    intro hnd hmem hpa huniq
    rw [List.countP_cons]
    rcases List.mem_cons.mp hmem with rfl | hmem'
    · have ht0 : t.countP p = 0 := by
        rw [List.countP_eq_zero]
        intro b hb hpb
        have hba := huniq b (List.mem_cons_of_mem _ hb) hpb
        exact (List.nodup_cons.mp hnd).1 (hba ▸ hb)
      rw [ht0, if_pos hpa]
    · have hxa : x ≠ a := fun hc => (List.nodup_cons.mp hnd).1 (hc ▸ hmem')
      have hpx : ¬ (p x = true) := fun hpx => hxa (huniq x (List.mem_cons_self _ _) hpx)
      rw [ih (List.nodup_cons.mp hnd).2 hmem' hpa
        (fun b hb => huniq b (List.mem_cons_of_mem _ hb)), if_neg hpx]

theorem removedCount_le (m : Maze) : removedCount m ≤ 2 * (m.width * m.height) := by
  unfold removedCount
  have h1 := List.countP_le_length (p := fun p => passageB m p Dir.east)
    (l := allCells m.width m.height)
  have h2 := List.countP_le_length (p := fun p => passageB m p Dir.south)
    (l := allCells m.width m.height)
  rw [allCells_length] at h1 h2
  omega

/-- Loop invariant of `KruskalGenerator.generate`: the carved passages form a
forest whose components are exactly the union-find classes, with one root per
component and ranks bounded by the number of merges. -/
structure KInv (m : Maze) (uf : UF) : Prop where
  sym : wallSym m
  bnd : boundaryOk m
  oob : oobOk m
  uniq : UniqueWalks (Step m)
  ok : UFOk m uf (removedCount m)
  sep : ufSep m uf
  cnt : rootCount m uf + removedCount m = m.width * m.height

/-- The Kruskal edge loop terminates and connects the endpoints of every
processed edge while preserving the forest invariant. -/
theorem kruskalLoop_spec (ffuel : Nat) :
    ∀ (edges : List (Pos × Pos)) (m : Maze) (uf : UF),
      KInv m uf →
      (∀ e ∈ edges, ∃ d, e.2 = posAdd e.1 d ∧ m.inB e.1 ∧ m.inB (posAdd e.1 d)) →
      2 * (m.width * m.height) + 2 ≤ ffuel →
      ∃ m' uf', kruskalLoop ffuel edges m uf = some (m', uf') ∧
        KInv m' uf' ∧ m'.width = m.width ∧ m'.height = m.height ∧
        (∀ e ∈ edges, Conn m' e.1 e.2) ∧
        (∀ a b, Conn m a b → Conn m' a b) := by
  intro edges
  induction edges with
  | nil =>
    intro m uf I _ _
    exact ⟨m, uf, rfl, I, rfl, rfl, by simp, fun _ _ h => h⟩
  | cons e rest ih =>
    obtain ⟨c1, c2⟩ := e
    intro m uf I hedges hfuel
    obtain ⟨d, hd0, h1B, h2B0⟩ := hedges (c1, c2) (List.mem_cons_self _ _)
    have hd : c2 = posAdd c1 d := hd0
    have h2B : m.inB (posAdd c1 d) := h2B0
    subst hd
    have hRle : removedCount m ≤ 2 * (m.width * m.height) := removedCount_le m
    have hfl : removedCount m < ffuel := by omega
    have csymm : ∀ {a b : Pos}, Conn m a b → Conn m b a :=
      fun h => conn_symm (fun _ _ hs => step_symm_of_wallSym I.sym hs) h
    obtain ⟨b, uf2, hun, hcases⟩ := ufUnion_spec m I.sym ffuel (removedCount m) uf c1
      (posAdd c1 d) I.ok I.sep h1B h2B hfl
    rcases hcases with ⟨rfl, hconnc, Ok2, roots2⟩ |
      ⟨rfl, hnc, r1, r2, l, hl, hc1r1, hc2r2, hr1root, hr2root, hr12, hlB, roots2, asc2,
        bnd2, dom2, inBd2, conn2⟩
    · have hstep : kruskalLoop ffuel ((c1, posAdd c1 d) :: rest) m uf =
          kruskalLoop ffuel rest m uf2 := by
        simp only [kruskalLoop]
        simp only [hun]
      have hcnt2 : rootCount m uf2 + removedCount m = m.width * m.height := by
        have hcg : rootCount m uf2 = rootCount m uf := by
          unfold rootCount
          exact countP_congr_eq (fun c _ => decide_eq_decide.mpr (roots2 c))
        rw [hcg]
        exact I.cnt
      have I2 : KInv m uf2 :=
        ⟨I.sym, I.bnd, I.oob, I.uniq, Ok2, ufSep_of_roots_iff roots2 I.sep, hcnt2⟩
      obtain ⟨m', uf', heq, I', hw', hh', hconnrest, hmono'⟩ := ih m uf2 I2
        (fun e he => hedges e (List.mem_cons_of_mem _ he)) hfuel
      refine ⟨m', uf', by rw [hstep]; exact heq, I', hw', hh', ?_, hmono'⟩
      intro e he
      rcases List.mem_cons.mp he with rfl | he'
      · exact hmono' _ _ hconnc
      · exact hconnrest e he'
    · have hstep : kruskalLoop ffuel ((c1, posAdd c1 d) :: rest) m uf =
          kruskalLoop ffuel rest (m.removeWallBetween c1 (posAdd c1 d)).1 uf2 := by
        simp only [kruskalLoop]
        simp only [hun]
      have hpass1 : passageB m c1 d = false := by
        by_contra hcp
        exact hnc (Relation.ReflTransGen.single ⟨d, by simpa using hcp, rfl⟩)
      have hpass2 : passageB m (posAdd c1 d) d.opposite = false := by
        by_contra hcp
        apply hnc
        apply csymm
        exact Relation.ReflTransGen.single ⟨d.opposite, by simpa using hcp, by simp⟩
      have hrc2 : removedCount (m.removeWallBetween c1 (posAdd c1 d)).1 =
          removedCount m + 1 := removedCount_carve m c1 d h1B h2B hpass1 hpass2
      have hw2 : (m.removeWallBetween c1 (posAdd c1 d)).1.width = m.width :=
        removeWallBetween_width _ _ _
      have hh2 : (m.removeWallBetween c1 (posAdd c1 d)).1.height = m.height :=
        removeWallBetween_height _ _ _
      have hstepiff : ∀ a b, Step (m.removeWallBetween c1 (posAdd c1 d)).1 a b ↔
          addEdgeRel (Step m) c1 (posAdd c1 d) a b := step_removeWB m c1 d h1B h2B
      have hmono2 : ∀ a b, Conn m a b → Conn (m.removeWallBetween c1 (posAdd c1 d)).1 a b :=
        fun a b h =>
          Relation.ReflTransGen.mono (fun x y hxy => (hstepiff x y).mpr (Or.inl hxy)) h
      have hedge2 : Conn (m.removeWallBetween c1 (posAdd c1 d)).1 c1 (posAdd c1 d) :=
        Relation.ReflTransGen.single ((hstepiff _ _).mpr (Or.inr (Or.inl ⟨rfl, rfl⟩)))
      have hsym2 : wallSym (m.removeWallBetween c1 (posAdd c1 d)).1 := wallSym_carve I.sym d
      have hbnd2 : boundaryOk (m.removeWallBetween c1 (posAdd c1 d)).1 :=
        boundaryOk_carve I.bnd d h1B h2B
      have hoob2 : oobOk (m.removeWallBetween c1 (posAdd c1 d)).1 :=
        oobOk_carve I.oob d h1B h2B
      have huniq2 : UniqueWalks (Step (m.removeWallBetween c1 (posAdd c1 d)).1) :=
        uniqueWalks_of_iff (fun a b => (hstepiff a b).symm)
          (uniqueWalks_addEdge (fun a b hs => step_symm_of_wallSym I.sym hs) hnc I.uniq)
      have hconn_decomp : ∀ a b, Conn (m.removeWallBetween c1 (posAdd c1 d)).1 a b →
          Conn m a b ∨ (Conn m a c1 ∧ Conn m (posAdd c1 d) b) ∨
            (Conn m a (posAdd c1 d) ∧ Conn m c1 b) := by
        intro a b h
        exact reflTransGen_addEdge_cases
          (Relation.ReflTransGen.mono (fun x y hxy => (hstepiff x y).mp hxy) h)
      have hlroot : isRoot uf l := by
        rcases hl with rfl | rfl
        · exact hr1root
        · exact hr2root
      have Ok2 : UFOk (m.removeWallBetween c1 (posAdd c1 d)).1 uf2
          (removedCount (m.removeWallBetween c1 (posAdd c1 d)).1) := by
        refine ⟨asc2, ?_, dom2, ?_, ?_⟩
        · intro a
          rw [hrc2]
          exact bnd2 a
        · intro a b hab
          obtain ⟨ha, hb⟩ := inBd2 a b hab
          exact ⟨(inB_dims_eq hw2 hh2 a).mpr ha, (inB_dims_eq hw2 hh2 b).mpr hb⟩
        · intro a b hab
          rcases conn2 a b hab with h | ⟨ha, hb⟩ | ⟨ha, hb⟩
          · exact hmono2 a b h
          · exact ((hmono2 _ _ ha).trans hedge2).trans (hmono2 _ _ hb)
          · exact ((hmono2 _ _ ha).trans
              (conn_symm (fun _ _ hs => step_symm_of_wallSym hsym2 hs) hedge2)).trans
              (hmono2 _ _ hb)
      have hsep2 : ufSep (m.removeWallBetween c1 (posAdd c1 d)).1 uf2 := by
        intro a b ha hb hne hconn
        obtain ⟨haU, hal⟩ := (roots2 a).mp ha
        obtain ⟨hbU, hbl⟩ := (roots2 b).mp hb
        rcases hconn_decomp a b hconn with h | ⟨hx, hy⟩ | ⟨hx, hy⟩
        · exact I.sep a b haU hbU hne h
        · have har1 : a = r1 := by
            by_contra hcon
            exact I.sep a r1 haU hr1root hcon (hx.trans hc1r1)
          have hbr2 : b = r2 := by
            by_contra hcon
            exact I.sep b r2 hbU hr2root hcon ((csymm hy).trans hc2r2)
          rcases hl with rfl | rfl
          · exact hal har1
          · exact hbl hbr2
        · have har2 : a = r2 := by
            by_contra hcon
            exact I.sep a r2 haU hr2root hcon (hx.trans hc2r2)
          have hbr1 : b = r1 := by
            by_contra hcon
            exact I.sep b r1 hbU hr1root hcon ((csymm hy).trans hc1r1)
          rcases hl with rfl | rfl
          · exact hbl hbr1
          · exact hal har2
      have hcnt2 : rootCount (m.removeWallBetween c1 (posAdd c1 d)).1 uf2 +
          removedCount (m.removeWallBetween c1 (posAdd c1 d)).1 =
          (m.removeWallBetween c1 (posAdd c1 d)).1.width *
            (m.removeWallBetween c1 (posAdd c1 d)).1.height := by
        have hflip : (allCells m.width m.height).countP (fun c => decide (isRoot uf c)) =
            (allCells m.width m.height).countP (fun c => decide (isRoot uf2 c)) + 1 := by
          refine countP_flip_one (allCells_nodup _ _) (inB_mem_allCells hlB) ?_ ?_ ?_
          · simp only [decide_eq_false_iff_not]
            intro hrl
            exact ((roots2 l).mp hrl).2 rfl
          · simp only [decide_eq_true_eq]
            exact hlroot
          · intro bb hbb
            exact decide_eq_decide.mpr (((roots2 bb).trans (and_iff_left hbb)).symm)
        have hIcnt := I.cnt
        unfold rootCount at hIcnt ⊢
        rw [hw2, hh2, hrc2]
        omega
      have I2 : KInv (m.removeWallBetween c1 (posAdd c1 d)).1 uf2 :=
        ⟨hsym2, hbnd2, hoob2, huniq2, Ok2, hsep2, hcnt2⟩
      have hedges2 : ∀ e ∈ rest, ∃ d', e.2 = posAdd e.1 d' ∧
          (m.removeWallBetween c1 (posAdd c1 d)).1.inB e.1 ∧
          (m.removeWallBetween c1 (posAdd c1 d)).1.inB (posAdd e.1 d') := by
        intro e he
        obtain ⟨d', hd', hB1, hB2⟩ := hedges e (List.mem_cons_of_mem _ he)
        exact ⟨d', hd', (inB_dims_eq hw2 hh2 _).mpr hB1, (inB_dims_eq hw2 hh2 _).mpr hB2⟩
      have hfuel2 : 2 * ((m.removeWallBetween c1 (posAdd c1 d)).1.width *
          (m.removeWallBetween c1 (posAdd c1 d)).1.height) + 2 ≤ ffuel := by
        rw [hw2, hh2]
        exact hfuel
      obtain ⟨m', uf', heq, I', hw', hh', hconnrest, hmono'⟩ :=
        ih (m.removeWallBetween c1 (posAdd c1 d)).1 uf2 I2 hedges2 hfuel2
      refine ⟨m', uf', by rw [hstep]; exact heq, I', hw'.trans hw2, hh'.trans hh2, ?_,
        fun a b h => hmono' a b (hmono2 a b h)⟩
      intro e he
      rcases List.mem_cons.mp he with rfl | he'
      · exact hmono' _ _ hedge2
      · exact hconnrest e he'

theorem getD_cons_set_perm {α : Type} (dflt : α) :
    ∀ (t : List α) (m : Nat) (a : α), m < t.length →
      List.Perm (t.getD m dflt :: t.set m a) (a :: t) := by
  intro t
  induction t with
  | nil =>
    intro m a hm
    simp at hm
  | cons b t' ih =>
    intro m a hm
    cases m with
    | zero =>
      simp only [List.getD_cons_zero, List.set_cons_zero]
      exact List.Perm.swap a b t'
    | succ m' =>
      simp only [List.getD_cons_succ, List.set_cons_succ]
      have hm' : m' < t'.length := by simpa using hm
      have s1 : List.Perm (t'.getD m' dflt :: b :: t'.set m' a)
          (b :: t'.getD m' dflt :: t'.set m' a) := List.Perm.swap b _ _
      have s2 : List.Perm (b :: t'.getD m' dflt :: t'.set m' a) (b :: a :: t') :=
        (ih m' a hm').cons b
      have s3 : List.Perm (b :: a :: t') (a :: b :: t') := List.Perm.swap a b t'
      exact (s1.trans s2).trans s3

theorem swapIdx_perm {α : Type} (dflt : α) :
    ∀ (l : List α) (i j : Nat), i < l.length → j < l.length →
      List.Perm (swapIdx l i j dflt) l := by
  intro l
  induction l with
  | nil =>
    intro i j hi _
    simp at hi
  | cons a t ih =>
    intro i j hi hj
    cases i with
    | zero =>
      cases j with
      | zero =>
        unfold swapIdx
        simp only [List.getD_cons_zero, List.set_cons_zero]
        exact List.Perm.refl _
      | succ n =>
        unfold swapIdx
        simp only [List.getD_cons_zero, List.getD_cons_succ, List.set_cons_zero,
          List.set_cons_succ]
        exact getD_cons_set_perm dflt t n a (by simpa using hj)
    | succ m =>
      cases j with
      | zero =>
        unfold swapIdx
        simp only [List.getD_cons_zero, List.getD_cons_succ, List.set_cons_succ,
          List.set_cons_zero]
        exact getD_cons_set_perm dflt t m a (by simpa using hi)
      | succ n =>
        unfold swapIdx
        simp only [List.getD_cons_succ, List.set_cons_succ]
        exact (ih m n (by simpa using hi) (by simpa using hj)).cons a

theorem shuffleGo_perm {α : Type} (σ : Nat → Nat) (dflt : α) :
    ∀ (i k : Nat) (l : List α), i < l.length →
      List.Perm (shuffleGo σ dflt i k l).1 l := by
  intro i
  induction i with
  | zero =>
    intro k l _
    exact List.Perm.refl l
  | succ n ih =>
    intro k l hi
    have hswap : List.Perm (swapIdx l (n + 1) (randBelow σ k (n + 2)) dflt) l :=
      swapIdx_perm dflt l _ _ hi (by
        have : randBelow σ k (n + 2) < n + 2 := Nat.mod_lt _ (by omega)
        omega)
    have hlen : (swapIdx l (n + 1) (randBelow σ k (n + 2)) dflt).length = l.length := by
      unfold swapIdx
      simp
    exact List.Perm.trans (ih (k + 1) _ (by rw [hlen]; omega)) hswap

theorem shuffleList_mem {α : Type} (σ : Nat → Nat) (k : Nat) (l : List α) (dflt : α) :
    ∀ x, x ∈ (shuffleList σ k l dflt).1 ↔ x ∈ l := by
  cases l with
  | nil =>
    intro x
    exact Iff.rfl
  | cons a t =>
    have hperm := shuffleGo_perm σ dflt ((a :: t).length - 1) k (a :: t) (by simp)
    intro x
    exact hperm.mem_iff

theorem mem_kruskalEdges {w h : Nat} {e : Pos × Pos} :
    e ∈ kruskalEdges w h ↔
      ∃ x y : Nat, x < w ∧ y < h ∧
        ((x + 1 < w ∧ e = ((Int.ofNat x, Int.ofNat y), (Int.ofNat x + 1, Int.ofNat y))) ∨
         (y + 1 < h ∧ e = ((Int.ofNat x, Int.ofNat y), (Int.ofNat x, Int.ofNat y + 1)))) := by
  unfold kruskalEdges
  simp only [List.mem_flatMap, List.mem_range, List.mem_append]
  constructor
  · rintro ⟨y, hy, x, hx, hmem | hmem⟩
    · by_cases hxe : x + 1 < w
      · rw [if_pos hxe, List.mem_singleton] at hmem
        exact ⟨x, y, hx, hy, Or.inl ⟨hxe, hmem⟩⟩
      · rw [if_neg hxe] at hmem
        simp at hmem
    · by_cases hye : y + 1 < h
      · rw [if_pos hye, List.mem_singleton] at hmem
        exact ⟨x, y, hx, hy, Or.inr ⟨hye, hmem⟩⟩
      · rw [if_neg hye] at hmem
        simp at hmem
  · rintro ⟨x, y, hx, hy, ⟨hxe, rfl⟩ | ⟨hye, rfl⟩⟩
    · exact ⟨y, hy, x, hx, Or.inl (by rw [if_pos hxe]; simp)⟩
    · exact ⟨y, hy, x, hx, Or.inr (by rw [if_pos hye]; simp)⟩

theorem kruskalEdges_adj {m : Maze} {e : Pos × Pos}
    (he : e ∈ kruskalEdges m.width m.height) :
    ∃ d, e.2 = posAdd e.1 d ∧ m.inB e.1 ∧ m.inB (posAdd e.1 d) := by
  obtain ⟨x, y, hx, hy, ⟨hxe, rfl⟩ | ⟨hye, rfl⟩⟩ := mem_kruskalEdges.mp he
  · refine ⟨Dir.east, ?_, ?_, ?_⟩
    · simp [posAdd, Dir.delta]
    · unfold Maze.inB
      simp
      omega
    · unfold Maze.inB posAdd
      simp [Dir.delta]
      omega
  · refine ⟨Dir.south, ?_, ?_, ?_⟩
    · simp [posAdd, Dir.delta]
    · unfold Maze.inB
      simp
      omega
    · unfold Maze.inB posAdd
      simp [Dir.delta]
      omega

theorem east_mem_kruskalEdges {w h : Nat} {p : Pos} (hp1 : 0 ≤ p.1)
    (hp2 : p.1 + 1 < (w : Int)) (hp3 : 0 ≤ p.2) (hp4 : p.2 < (h : Int)) :
    (p, posAdd p Dir.east) ∈ kruskalEdges w h := by
  refine mem_kruskalEdges.mpr ⟨p.1.toNat, p.2.toNat, by omega, by omega,
    Or.inl ⟨by omega, ?_⟩⟩
  simp only [posAdd, Dir.delta, Prod.ext_iff]
  refine ⟨⟨?_, ?_⟩, ?_, ?_⟩ <;> simp <;> omega

theorem south_mem_kruskalEdges {w h : Nat} {p : Pos} (hp1 : 0 ≤ p.1)
    (hp2 : p.1 < (w : Int)) (hp3 : 0 ≤ p.2) (hp4 : p.2 + 1 < (h : Int)) :
    (p, posAdd p Dir.south) ∈ kruskalEdges w h := by
  refine mem_kruskalEdges.mpr ⟨p.1.toNat, p.2.toNat, by omega, by omega,
    Or.inr ⟨by omega, ?_⟩⟩
  simp only [posAdd, Dir.delta, Prod.ext_iff]
  refine ⟨⟨?_, ?_⟩, ?_, ?_⟩ <;> simp <;> omega

theorem passageB_reset (m0 : Maze) (p : Pos) (d : Dir) :
    passageB (resetMazeGen m0) p d = false := by
  unfold passageB resetMazeGen
  simp

theorem conn_reset_eq {m0 : Maze} {a b : Pos} (h : Conn (resetMazeGen m0) a b) : a = b := by
  induction h with
  | refl => rfl
  | tail _ hbc ih =>
    obtain ⟨d, hp, _⟩ := hbc
    rw [passageB_reset] at hp
    cases hp

/-- The Kruskal loop invariant holds at the start: all walls up, empty
union-find. -/
theorem kruskalInit (m0 : Maze) : KInv (resetMazeGen m0) ufInit := by
  refine ⟨?_, ?_, ?_, ?_, ?_, ?_, ?_⟩
  · intro p d _ _
    rfl
  · intro p d _
    rfl
  · intro p d _
    rfl
  · refine uniqueWalks_empty ?_
    rintro a b ⟨d, hp, _⟩
    rw [passageB_reset] at hp
    cases hp
  · refine ⟨?_, ?_, ?_, ?_, ?_⟩
    · intro a b hab
      cases hab
    · intro a
      exact Nat.zero_le _
    · intro a b hab
      cases hab
    · intro a b hab
      cases hab
    · intro a b hab
      cases hab
  · intro a b _ _ hne hconn
    exact hne (conn_reset_eq hconn)
  · have hrc : removedCount (resetMazeGen m0) = 0 := by
      unfold removedCount
      rw [List.countP_eq_zero.mpr, List.countP_eq_zero.mpr]
      · intro p _
        rw [passageB_reset]
        simp
      · intro p _
        rw [passageB_reset]
        simp
    have hall : rootCount (resetMazeGen m0) ufInit =
        (resetMazeGen m0).width * (resetMazeGen m0).height := by
      unfold rootCount
      rw [List.countP_eq_length.mpr, allCells_length]
      intro p _
      simp [isRoot, ufInit]
    rw [hall, hrc]
    omega

theorem exists_inB_root (m : Maze) (uf : UF) (R : Nat) (Ok : UFOk m uf R) :
    ∀ (n : Nat) (c : Pos), m.inB c → R < uf.rank c + n →
      ∃ r, m.inB r ∧ isRoot uf r := by
  intro n
  induction n with
  | zero =>
    intro c _ hlt
    have := Ok.bnd c
    omega
  | succ k ih =>
    intro c hcB hlt
    rcases hp : uf.parent c with _ | p
    · exact ⟨c, hcB, Or.inl hp⟩
    · by_cases hpc : p = c
      · exact ⟨c, hcB, Or.inr (hpc ▸ hp)⟩
      · refine ih p (Ok.inBd c p hp).2 ?_
        have := Ok.asc c p hp hpc
        omega

/-- `KruskalGenerator.generate` terminates and produces a spanning tree. -/
theorem kruskalGenerate_spec (σ : Nat → Nat) (k : Nat) (m0 : Maze)
    (hw : 1 ≤ m0.width) (hh : 1 ≤ m0.height) :
    (kruskalGenerate σ k m0).isSome = true ∧
      ∀ m' k', kruskalGenerate σ k m0 = some (m', k') →
        wallSym m' ∧ boundaryOk m' ∧ oobOk m' ∧ UniqueWalks (Step m') ∧
          SpanningTree m' ∧ m'.width = m0.width ∧ m'.height = m0.height := by
  have hperm := shuffleList_mem σ k
    (kruskalEdges (resetMazeGen m0).width (resetMazeGen m0).height) (posDflt, posDflt)
  have hedges : ∀ e ∈ (shuffleList σ k
      (kruskalEdges (resetMazeGen m0).width (resetMazeGen m0).height)
      (posDflt, posDflt)).1,
      ∃ d, e.2 = posAdd e.1 d ∧ (resetMazeGen m0).inB e.1 ∧
        (resetMazeGen m0).inB (posAdd e.1 d) :=
    fun e he => kruskalEdges_adj ((hperm e).mp he)
  have hfuel : 2 * ((resetMazeGen m0).width * (resetMazeGen m0).height) + 2 ≤
      kruskalFindFuel (resetMazeGen m0) := by
    unfold kruskalFindFuel
    have hmm : 2 * ((resetMazeGen m0).width * (resetMazeGen m0).height) =
        2 * (resetMazeGen m0).width * (resetMazeGen m0).height := by ring
    omega
  obtain ⟨m1, uf1, heq, I1, hw1, hh1, hconn, _⟩ :=
    kruskalLoop_spec (kruskalFindFuel (resetMazeGen m0))
      (shuffleList σ k (kruskalEdges (resetMazeGen m0).width (resetMazeGen m0).height)
        (posDflt, posDflt)).1
      (resetMazeGen m0) ufInit (kruskalInit m0) hedges hfuel
  have hgen : kruskalGenerate σ k m0 = some (m1,
      (shuffleList σ k (kruskalEdges (resetMazeGen m0).width (resetMazeGen m0).height)
        (posDflt, posDflt)).2) := by
    unfold kruskalGenerate
    simp only [heq]
  have hconnAll : ∀ p q, m1.inB p → m1.inB q → Conn m1 p q := by
    have hstepconn : ∀ b c, GridStep m1 b c → Conn m1 b c := by
      intro b c hstep
      obtain ⟨hbB, hmem⟩ := hstep
      obtain ⟨d, rfl, hcB⟩ := mem_neighbors.mp hmem
      have hbB' := (inB_dims_eq hw1 hh1 b).mp hbB
      have hcB' := (inB_dims_eq hw1 hh1 (posAdd b d)).mp hcB
      obtain ⟨hb1, hb2, hb3, hb4⟩ := hbB'
      obtain ⟨hc1, hc2, hc3, hc4⟩ := hcB'
      cases d with
      | east =>
        refine hconn (b, posAdd b Dir.east) ((hperm _).mpr ?_)
        refine east_mem_kruskalEdges hb1 ?_ hb3 hb4
        simpa [posAdd, Dir.delta] using hc2
      | south =>
        refine hconn (b, posAdd b Dir.south) ((hperm _).mpr ?_)
        refine south_mem_kruskalEdges hb1 hb2 hb3 ?_
        simpa [posAdd, Dir.delta] using hc4
      | west =>
        have hmem2 : (posAdd b Dir.west, posAdd (posAdd b Dir.west) Dir.east) ∈
            kruskalEdges (resetMazeGen m0).width (resetMazeGen m0).height := by
          refine east_mem_kruskalEdges hc1 ?_ hc3 hc4
          have hb2' : (posAdd b Dir.west).1 + 1 = b.1 := by
            simp [posAdd, Dir.delta]
          omega
        have hcn : Conn m1 (posAdd b Dir.west) (posAdd (posAdd b Dir.west) Dir.east) :=
          hconn _ ((hperm _).mpr hmem2)
        have hid : posAdd (posAdd b Dir.west) Dir.east = b := by
          simp [posAdd, Dir.delta]
        rw [hid] at hcn
        exact conn_symm (fun _ _ hs => step_symm_of_wallSym I1.sym hs) hcn
      | north =>
        have hmem2 : (posAdd b Dir.north, posAdd (posAdd b Dir.north) Dir.south) ∈
            kruskalEdges (resetMazeGen m0).width (resetMazeGen m0).height := by
          refine south_mem_kruskalEdges hc1 hc2 hc3 ?_
          have hb4' : (posAdd b Dir.north).2 + 1 = b.2 := by
            simp [posAdd, Dir.delta]
          omega
        have hcn : Conn m1 (posAdd b Dir.north) (posAdd (posAdd b Dir.north) Dir.south) :=
          hconn _ ((hperm _).mpr hmem2)
        have hid : posAdd (posAdd b Dir.north) Dir.south = b := by
          simp [posAdd, Dir.delta]
        rw [hid] at hcn
        exact conn_symm (fun _ _ hs => step_symm_of_wallSym I1.sym hs) hcn
    intro p q hp hq
    have hg := gridConn hp hq
    clear hq
    induction hg with
    | refl => exact Relation.ReflTransGen.refl
    | tail _ hstep ih => exact Relation.ReflTransGen.trans ih (hstepconn _ _ hstep)
  have hcount : removedCount m1 + 1 = m1.width * m1.height := by
    have h00B : m1.inB ((0 : Int), (0 : Int)) := by
      rw [inB_dims_eq hw1 hh1]
      unfold Maze.inB
      refine ⟨le_refl 0, ?_, le_refl 0, ?_⟩
      · show (0 : Int) < (m0.width : Int)
        exact_mod_cast hw
      · show (0 : Int) < (m0.height : Int)
        exact_mod_cast hh
    obtain ⟨r0, hr0B, hr0root⟩ := exists_inB_root m1 uf1 (removedCount m1) I1.ok
      (removedCount m1 + 1) ((0 : Int), (0 : Int)) h00B (by omega)
    have huniqr : ∀ b ∈ allCells m1.width m1.height,
        decide (isRoot uf1 b) = true → b = r0 := by
      intro b hb hroot
      simp only [decide_eq_true_eq] at hroot
      by_contra hne
      exact I1.sep b r0 hroot hr0root hne (hconnAll b r0 (mem_allCells.mp hb) hr0B)
    have hrc1 : rootCount m1 uf1 = 1 :=
      countP_eq_one_of_unique (allCells_nodup _ _) (inB_mem_allCells hr0B)
        (by simp [hr0root]) huniqr
    have hcnt := I1.cnt
    unfold rootCount at hrc1
    unfold rootCount at hcnt
    omega
  refine ⟨by rw [hgen]; rfl, ?_⟩
  intro m' k' h
  rw [hgen] at h
  rw [Option.some.injEq, Prod.mk.injEq] at h
  obtain ⟨h1, h2⟩ := h
  subst h1
  exact ⟨I1.sym, I1.bnd, I1.oob, I1.uniq, ⟨hconnAll, hcount⟩, hw1, hh1⟩

/-! ### Solver infrastructure -/

@[simp] theorem setParent_startPos (m : Maze) (p u : Pos) :
    (m.setParent p u).startPos = m.startPos := rfl
@[simp] theorem setParent_endPos (m : Maze) (p u : Pos) :
    (m.setParent p u).endPos = m.endPos := rfl
@[simp] theorem setParent_solutionPath (m : Maze) (p u : Pos) :
    (m.setParent p u).solutionPath = m.solutionPath := rfl
@[simp] theorem setParent_distance (m : Maze) (p u : Pos) :
    (m.setParent p u).distance = m.distance := rfl
@[simp] theorem setDistance_startPos (m : Maze) (p : Pos) (n : Nat) :
    (m.setDistance p n).startPos = m.startPos := rfl
@[simp] theorem setDistance_endPos (m : Maze) (p : Pos) (n : Nat) :
    (m.setDistance p n).endPos = m.endPos := rfl
@[simp] theorem setDistance_solutionPath (m : Maze) (p : Pos) (n : Nat) :
    (m.setDistance p n).solutionPath = m.solutionPath := rfl
@[simp] theorem setDistance_parent (m : Maze) (p : Pos) (n : Nat) :
    (m.setDistance p n).parent = m.parent := rfl
@[simp] theorem resetSolution_width (m : Maze) : m.resetSolution.width = m.width := rfl
@[simp] theorem resetSolution_height (m : Maze) : m.resetSolution.height = m.height := rfl
@[simp] theorem resetSolution_walls (m : Maze) : m.resetSolution.walls = m.walls := rfl
@[simp] theorem resetSolution_startPos (m : Maze) :
    m.resetSolution.startPos = m.startPos := rfl
@[simp] theorem resetSolution_endPos (m : Maze) : m.resetSolution.endPos = m.endPos := rfl
@[simp] theorem resetSolution_parent (m : Maze) :
    m.resetSolution.parent = fun _ => none := rfl
@[simp] theorem resetSolution_solutionPath (m : Maze) :
    m.resetSolution.solutionPath = [] := rfl

/-- The geometry a solver never touches: dimensions, walls and endpoints. -/
def sameGeom (G m : Maze) : Prop :=
  m.width = G.width ∧ m.height = G.height ∧ m.walls = G.walls ∧
    m.startPos = G.startPos ∧ m.endPos = G.endPos

theorem sameGeom_refl (m : Maze) : sameGeom m m := ⟨rfl, rfl, rfl, rfl, rfl⟩

theorem sameGeom_trans {G m m' : Maze} (h1 : sameGeom G m) (h2 : sameGeom m m') :
    sameGeom G m' := by
  obtain ⟨a1, a2, a3, a4, a5⟩ := h1
  obtain ⟨b1, b2, b3, b4, b5⟩ := h2
  exact ⟨b1.trans a1, b2.trans a2, b3.trans a3, b4.trans a4, b5.trans a5⟩

theorem sameGeom_setDistance (m : Maze) (p : Pos) (n : Nat) :
    sameGeom m (m.setDistance p n) := ⟨rfl, rfl, rfl, rfl, rfl⟩

theorem sameGeom_setParent (m : Maze) (p u : Pos) :
    sameGeom m (m.setParent p u) := ⟨rfl, rfl, rfl, rfl, rfl⟩

theorem sameGeom_resetSolution (m : Maze) : sameGeom m m.resetSolution :=
  ⟨rfl, rfl, rfl, rfl, rfl⟩

theorem getCell_geom {G m : Maze} (h : sameGeom G m) : m.getCell = G.getCell := by
  funext p
  exact getCell_dims_eq h.1 h.2.1 p

theorem passageB_geom {G m : Maze} (h : sameGeom G m) : passageB m = passageB G := by
  funext p d
  unfold passageB
  rw [getCell_geom h, h.2.2.1]

theorem step_geom {G m : Maze} (h : sameGeom G m) : Step m = Step G := by
  funext a b
  unfold Step
  rw [passageB_geom h]

theorem accessibleNeighbors_geom {G m : Maze} (h : sameGeom G m) :
    m.accessibleNeighbors = G.accessibleNeighbors := by
  funext p
  unfold Maze.accessibleNeighbors
  congr 1
  funext d
  rw [getCell_geom h, h.2.2.1]

theorem inB_geom {G m : Maze} (h : sameGeom G m) (p : Pos) : m.inB p ↔ G.inB p :=
  inB_dims_eq h.1 h.2.1 p

theorem step_of_accessible {m : Maze} {p q : Pos} (hp : m.inB p)
    (hq : q ∈ m.accessibleNeighbors p) : Step m p q := by
  obtain ⟨d, rfl, hqB, hw⟩ := mem_accessibleNeighbors.mp hq
  refine ⟨d, ?_, rfl⟩
  unfold passageB
  simp [getCell_isSome_iff.mpr hp, getCell_isSome_iff.mpr hqB, hw]

theorem accessible_of_step {m : Maze} {p q : Pos} (h : Step m p q) :
    q ∈ m.accessibleNeighbors p := by
  obtain ⟨d, hp, rfl⟩ := h
  unfold passageB at hp
  simp only [Bool.and_eq_true, Bool.not_eq_true'] at hp
  obtain ⟨⟨_, hb⟩, hw⟩ := hp
  exact mem_accessibleNeighbors.mpr ⟨d, rfl, getCell_isSome_iff.mp hb, hw⟩

theorem step_inB_left {m : Maze} {p q : Pos} (h : Step m p q) : m.inB p := by
  obtain ⟨d, hp, _⟩ := h
  unfold passageB at hp
  simp only [Bool.and_eq_true] at hp
  exact getCell_isSome_iff.mp hp.1.1

theorem accessibleNeighbors_len (m : Maze) (p : Pos) :
    (m.accessibleNeighbors p).length ≤ 4 := by
  unfold Maze.accessibleNeighbors
  have h := List.length_filterMap_le
    (fun d => if m.walls p d then none else m.getCell (posAdd p d)) dirList
  simpa [dirList] using h

/-- A walk can be extended by one step at its far end. -/
theorem walk_concat {E : Pos → Pos → Prop} {s c nb : Pos} {l : List Pos}
    (w : Walk E s c l) (h : E c nb) : Walk E s nb (l ++ [nb]) := by
  induction w with
  | single p => exact Walk.cons h (Walk.single nb)
  | cons hE _ ih => exact Walk.cons hE (ih h)

/-- A duplicate-free list of in-bounds cells has at most `w*h` entries. -/
theorem nodup_inB_length_le {m : Maze} {l : List Pos} (hnd : l.Nodup)
    (hB : ∀ x ∈ l, m.inB x) : l.length ≤ m.width * m.height := by
  have hsub : l ⊆ allCells m.width m.height := fun x hx => inB_mem_allCells (hB x hx)
  have := (hnd.subperm hsub).length_le
  rwa [allCells_length] at this

/-- The parent chain read off a maze, in start-to-end order. -/
inductive PChain (m : Maze) (s : Pos) : Pos → List Pos → Prop where
  | base : m.parent s = none → PChain m s s [s]
  | step {u p : Pos} {l : List Pos} :
      m.parent p = some u → PChain m s u l → PChain m s p (l ++ [p])

theorem pchain_reconstruct {m : Maze} {s p : Pos} {l : List Pos} (h : PChain m s p l) :
    ∀ (fuel : Nat) (acc : List Pos), l.length ≤ fuel →
      reconstructPath m fuel p acc = some (l ++ acc) := by
  induction h with
  | base hnone =>
    intro fuel acc hf
    match fuel with
    | 0 => simp at hf
    | f + 1 =>
      simp only [reconstructPath, hnone]
      rfl
  | step hpar _ ih =>
    intro fuel acc hf
    match fuel with
    | 0 => simp at hf
    | f + 1 =>
      simp only [reconstructPath, hpar]
      rw [ih f (_ :: acc) (by simp at hf; omega)]
      simp

theorem pchain_frame {m m' : Maze} {s p : Pos} {l : List Pos} (h : PChain m s p l)
    (hsame : ∀ x ∈ l, m'.parent x = m.parent x) : PChain m' s p l := by
  induction h with
  | base hnone =>
    exact PChain.base (by rw [hsame s (by simp)]; exact hnone)
  | step hpar hch ih =>
    refine PChain.step (by rw [hsame _ (by simp)]; exact hpar) (ih ?_)
    intro x hx
    exact hsame x (by simp [hx])

/-- Unvisited cells of the grid, for the solver termination measures. -/
def uvCountV (G : Maze) (vis : Pos → Bool) : Nat :=
  (allCells G.width G.height).countP (fun p => ! vis p)

theorem countP_not_add (l : List Pos) (p : Pos → Bool) :
    l.countP (fun x => ! p x) + l.countP p = l.length := by
  induction l with
  | nil => simp
  | cons a t ih =>
    rw [List.countP_cons, List.countP_cons]
    cases hpa : p a <;> simp [hpa] <;> omega

theorem uvCountV_mark {G : Maze} {vis : Pos → Bool} {nb : Pos} (hB : G.inB nb)
    (hun : vis nb = false) :
    uvCountV G vis = uvCountV G (fun q => if q = nb then true else vis q) + 1 := by
  unfold uvCountV
  refine countP_flip_one (allCells_nodup _ _) (inB_mem_allCells hB) ?_ ?_ ?_
  · simp
  · simp [hun]
  · intro b hb
    simp [hb]

theorem uvCountV_le (G : Maze) (vis : Pos → Bool) :
    uvCountV G vis ≤ G.width * G.height := by
  unfold uvCountV
  have := List.countP_le_length (p := fun p => ! vis p) (l := allCells G.width G.height)
  rwa [allCells_length] at this

/-- The part of a search solver's state the neighbour relaxation preserves:
geometry, a clear solution path, and a duplicate-free parent chain from the
start below every visited cell. -/
structure BfsCore (G : Maze) (s : Pos) (m : Maze) (vis : Pos → Bool) : Prop where
  geom : sameGeom G m
  sol : m.solutionPath = []
  hs : vis s = true
  visB : ∀ p, vis p = true → G.inB p
  chain : ∀ p, vis p = true → ∃ l, PChain m s p l ∧ Walk (Step G) s p l ∧ l.Nodup ∧
    (∀ x ∈ l, vis x = true)

theorem bfsRelax_post (G : Maze) (s current : Pos) :
    ∀ (nbs : List Pos) (m : Maze) (vis : Pos → Bool) (qadd : List Pos),
      BfsCore G s m vis →
      vis current = true →
      (∀ q ∈ nbs, q ∈ G.accessibleNeighbors current) →
      (∀ p ∈ qadd, vis p = true) →
      BfsCore G s (bfsRelax current m vis qadd nbs).1 (bfsRelax current m vis qadd nbs).2.1 ∧
      (∀ p, vis p = true → (bfsRelax current m vis qadd nbs).2.1 p = true) ∧
      (∀ p, (bfsRelax current m vis qadd nbs).2.1 p = true →
        vis p = true ∨ p ∈ (bfsRelax current m vis qadd nbs).2.2) ∧
      (∀ q ∈ nbs, (bfsRelax current m vis qadd nbs).2.1 q = true) ∧
      (∀ p ∈ (bfsRelax current m vis qadd nbs).2.2,
        (bfsRelax current m vis qadd nbs).2.1 p = true) ∧
      uvCountV G (bfsRelax current m vis qadd nbs).2.1 +
        (bfsRelax current m vis qadd nbs).2.2.length ≤ uvCountV G vis + qadd.length ∧
      (∀ p ∈ qadd, p ∈ (bfsRelax current m vis qadd nbs).2.2) := by
  intro nbs
  induction nbs with
  | nil =>
    intro m vis qadd core hcv _ hqadd
    refine ⟨core, fun p hp => hp, fun p hp => Or.inl hp, by simp, ?_, le_refl _,
      fun p hp => hp⟩
    intro p hp
    exact hqadd p hp
  | cons nb rest ih =>
    intro m vis qadd core hcv hnbs hqadd
    show BfsCore G s (bfsRelax current m vis qadd (nb :: rest)).1 _ ∧ _
    by_cases hv : vis nb = true
    · have hred : bfsRelax current m vis qadd (nb :: rest) = bfsRelax current m vis qadd rest := by
        simp only [bfsRelax, hv]
        rfl
      rw [hred]
      obtain ⟨c', mono, news, done, qv, meas, qsub⟩ :=
        ih m vis qadd core hcv (fun q hq => hnbs q (List.mem_cons_of_mem _ hq)) hqadd
      refine ⟨c', mono, news, ?_, qv, meas, qsub⟩
      intro q hq
      rcases List.mem_cons.mp hq with rfl | hq'
      · exact mono q hv
      · exact done q hq'
    · have hv' : vis nb = false := by simpa using hv
      have hnbacc : nb ∈ G.accessibleNeighbors current := hnbs nb (List.mem_cons_self _ _)
      have hnbB : G.inB nb := by
        obtain ⟨d, rfl, hB, _⟩ := mem_accessibleNeighbors.mp hnbacc
        exact hB
      have hred : bfsRelax current m vis qadd (nb :: rest) =
          bfsRelax current
            ((m.setDistance nb ((m.distance current).getD 0 + 1)).setParent nb current)
            (fun q => if q = nb then true else vis q) (qadd ++ [nb]) rest := by
        simp only [bfsRelax, hv']
        rfl
      rw [hred]
      have hsnb : s ≠ nb := by
        intro hc
        rw [← hc] at hv'
        rw [core.hs] at hv'
        cases hv'
      have core2 : BfsCore G s
          ((m.setDistance nb ((m.distance current).getD 0 + 1)).setParent nb current)
          (fun q => if q = nb then true else vis q) := by
        refine ⟨sameGeom_trans core.geom (sameGeom_trans (sameGeom_setDistance _ _ _)
          (sameGeom_setParent _ _ _)), by simp [core.sol], by simp [core.hs], ?_, ?_⟩
        · intro p hp
          split at hp
          · next hpe => exact hpe ▸ hnbB
          · exact core.visB p hp
        · intro p hp
          by_cases hpnb : p = nb
          · subst hpnb
            obtain ⟨lc, hpc, hwalk, hnd, hall⟩ := core.chain current hcv
            have hnbnot : p ∉ lc := by
              intro hc
              have := hall p hc
              rw [hv'] at this
              cases this
            refine ⟨lc ++ [p], ?_, ?_, ?_, ?_⟩
            · refine PChain.step (by simp) (pchain_frame hpc ?_)
              intro x hx
              have hxne : x ≠ p := fun hc => hnbnot (hc ▸ hx)
              simp [hxne]
            · exact walk_concat hwalk
                (step_of_accessible (core.visB current hcv) hnbacc)
            · rw [List.nodup_append]
              exact ⟨hnd, by simp, fun a ha hb => hnbnot ((List.mem_singleton.mp hb) ▸ ha)⟩
            · intro x hx
              rcases List.mem_append.mp hx with hx' | hx'
              · split
                · rfl
                · exact hall x hx'
              · rw [List.mem_singleton.mp hx']
                simp
          · rw [if_neg hpnb] at hp
            obtain ⟨lc, hpc, hwalk, hnd, hall⟩ := core.chain p hp
            have hnbnot : nb ∉ lc := by
              intro hc
              have := hall nb hc
              rw [hv'] at this
              cases this
            refine ⟨lc, pchain_frame hpc ?_, hwalk, hnd, ?_⟩
            · intro x hx
              have hxne : x ≠ nb := fun hc => hnbnot (hc ▸ hx)
              simp [hxne]
            · intro x hx
              split
              · rfl
              · exact hall x hx
      obtain ⟨c', mono, news, done, qv, meas, qsub⟩ :=
        ih ((m.setDistance nb ((m.distance current).getD 0 + 1)).setParent nb current)
          (fun q => if q = nb then true else vis q) (qadd ++ [nb]) core2
          (by
            show (if current = nb then true else vis current) = true
            split
            · rfl
            · exact hcv)
          (fun q hq => hnbs q (List.mem_cons_of_mem _ hq))
          (by
            intro p hp
            rcases List.mem_append.mp hp with hp' | hp'
            · show (if p = nb then true else vis p) = true
              split
              · rfl
              · exact hqadd p hp'
            · rw [List.mem_singleton.mp hp']
              simp)
      have hmark := uvCountV_mark hnbB hv'
      refine ⟨c', ?_, ?_, ?_, qv, ?_, ?_⟩
      · intro p hp
        refine mono p ?_
        split
        · rfl
        · exact hp
      · intro p hp
        rcases news p hp with hp' | hp'
        · split at hp'
          · next hpe =>
            right
            exact qsub p (by rw [hpe]; simp)
          · exact Or.inl hp'
        · exact Or.inr hp'
      · intro q hq
        rcases List.mem_cons.mp hq with rfl | hq'
        · refine mono q ?_
          simp
        · exact done q hq'
      · rw [List.length_append] at meas
        simp only [List.length_singleton] at meas
        omega
      · intro p hp
        exact qsub p (by simp [hp])

/-- The full BFS loop invariant. -/
structure BfsInv (G : Maze) (s e : Pos) (m : Maze) (queue : List Pos) (vis : Pos → Bool) :
    Prop where
  core : BfsCore G s m vis
  qvis : ∀ p ∈ queue, vis p = true
  closed : ∀ p, vis p = true →
    p ∈ queue ∨ ∀ q ∈ G.accessibleNeighbors p, vis q = true
  einq : vis e = true → e ∈ queue

/-- The BFS loop terminates and returns the parent-chain walk to the end cell,
or the empty path exactly when the end is unreachable. -/
theorem bfsLoop_spec (G : Maze) (s e : Pos) (hge : G.endPos = some e) :
    ∀ (fuel : Nat) (m : Maze) (queue : List Pos) (vis : Pos → Bool),
      BfsInv G s e m queue vis →
      2 * uvCountV G vis + queue.length < fuel →
      ∃ path m', bfsLoop fuel m queue vis = some (path, m') ∧
        m'.solutionPath = path ∧
        (path = [] → ¬ Relation.ReflTransGen (Step G) s e) ∧
        (path ≠ [] → Walk (Step G) s e path ∧ path.Nodup) ∧
        sameGeom G m' := by
  intro fuel
  induction fuel with
  | zero =>
    intro m queue vis _ hm
    omega
  | succ n ih =>
    intro m queue vis I hm
    cases queue with
    | nil =>
      refine ⟨[], m, rfl, I.core.sol, ?_, fun hc => absurd rfl hc, I.core.geom⟩
      intro _ hconn
      have hreach : ∀ p, Relation.ReflTransGen (Step G) s p → vis p = true := by
        intro p hp
        induction hp with
        | refl => exact I.core.hs
        | tail _ hstep ih2 =>
          rcases I.closed _ ih2 with hmem | hcl
          · simp at hmem
          · exact hcl _ (accessible_of_step hstep)
      have hve := I.einq (hreach e hconn)
      simp at hve
    | cons current rest =>
      simp only [bfsLoop]
      have hgeom := I.core.geom
      by_cases hend : m.endPos = some current
      · have hcur : current = e := by
          rw [hgeom.2.2.2.2, hge] at hend
          exact (Option.some.inj hend).symm
        have hcv : vis current = true := I.qvis current (List.mem_cons_self _ _)
        obtain ⟨l, hpc, hwalk, hnd, hall⟩ := I.core.chain current hcv
        have hlen : l.length ≤ m.width * m.height := by
          rw [hgeom.1, hgeom.2.1]
          exact nodup_inB_length_le hnd (fun x hx => I.core.visB x (hall x hx))
        have hrec : reconstructPath m (reconFuel m) current [] = some l := by
          have := pchain_reconstruct hpc (reconFuel m) [] (by unfold reconFuel; omega)
          rwa [List.append_nil] at this
        rw [if_pos hend, hrec]
        refine ⟨l, { m with solutionPath := l }, rfl, rfl, ?_,
          fun _ => ⟨hcur ▸ hwalk, hnd⟩, hgeom⟩
        intro hc
        exact absurd hc hwalk.ne_nil
      · rw [if_neg hend]
        have hcv : vis current = true := I.qvis current (List.mem_cons_self _ _)
        have hcure : current ≠ e := by
          intro hc
          rw [hgeom.2.2.2.2, hge] at hend
          exact hend (by rw [hc])
        have hacc : ∀ q ∈ m.accessibleNeighbors current, q ∈ G.accessibleNeighbors current := by
          rw [accessibleNeighbors_geom hgeom]
          exact fun q hq => hq
        obtain ⟨core', mono, news, done, qv, meas, _⟩ :=
          bfsRelax_post G s current (m.accessibleNeighbors current) m vis []
            I.core hcv hacc (by simp)
        have I' : BfsInv G s e (bfsRelax current m vis [] (m.accessibleNeighbors current)).1
            (rest ++ (bfsRelax current m vis [] (m.accessibleNeighbors current)).2.2)
            (bfsRelax current m vis [] (m.accessibleNeighbors current)).2.1 := by
          refine ⟨core', ?_, ?_, ?_⟩
          · intro p hp
            rcases List.mem_append.mp hp with hp' | hp'
            · exact mono p (I.qvis p (List.mem_cons_of_mem _ hp'))
            · exact qv p hp'
          · intro p hp
            rcases news p hp with hp' | hp'
            · rcases I.closed p hp' with hmem | hcl
              · rcases List.mem_cons.mp hmem with rfl | hmem'
                · right
                  intro q hq
                  refine done q ?_
                  rwa [accessibleNeighbors_geom hgeom]
                · exact Or.inl (List.mem_append.mpr (Or.inl hmem'))
              · right
                intro q hq
                exact mono q (hcl q hq)
            · exact Or.inl (List.mem_append.mpr (Or.inr hp'))
          · intro hp
            rcases news e hp with hp' | hp'
            · have := I.einq hp'
              rcases List.mem_cons.mp this with rfl | hmem'
              · exact absurd rfl hcure
              · exact List.mem_append.mpr (Or.inl hmem')
            · exact List.mem_append.mpr (Or.inr hp')
        refine ih _ _ _ I' ?_
        rw [List.length_append]
        simp only [List.length_nil] at meas
        simp only [List.length_cons] at hm
        omega

/-- `BreadthFirstSearchSolver.solve` with both endpoints set: terminates, writes
the returned path into `solution_path`, returns a duplicate-free wall-respecting
path from start to end when one exists and the empty path otherwise. -/
theorem bfsSolve_spec (m : Maze) (s e : Pos) (hs : m.startPos = some s)
    (he : m.endPos = some e) (hsB : m.inB s) :
    ∃ path m', bfsSolve m = some (path, m') ∧ m'.solutionPath = path ∧
      (path = [] → ¬ Conn m s e) ∧
      (path ≠ [] → Walk (Step m) s e path ∧ path.Nodup) ∧
      sameGeom m m' := by
  unfold bfsSolve
  rw [hs, he]
  have hI : BfsInv m s e (m.resetSolution.setDistance s 0) [s] (fun q => q = s) := by
    refine ⟨⟨?_, rfl, by simp, ?_, ?_⟩, ?_, ?_, ?_⟩
    · exact sameGeom_trans (sameGeom_resetSolution m) (sameGeom_setDistance _ _ _)
    · intro p hp
      have : p = s := by simpa using hp
      exact this ▸ hsB
    · intro p hp
      have hps : p = s := by simpa using hp
      subst hps
      refine ⟨[p], PChain.base rfl, Walk.single p, by simp, ?_⟩
      intro x hx
      rw [List.mem_singleton.mp hx]
      simp
    · intro p hp
      have : p = s := List.mem_singleton.mp hp
      simp [this]
    · intro p hp
      left
      have : p = s := by simpa using hp
      simp [this]
    · intro hp
      have : e = s := by simpa using hp
      simp [this]
  have hmeas : 2 * uvCountV m (fun q => q = s) + [s].length <
      bfsFuel (m.resetSolution.setDistance s 0) := by
    have h1 : uvCountV m (fun q => q = s) +
        (allCells m.width m.height).countP (fun q => q = s) = m.width * m.height := by
      have hx := countP_not_add (allCells m.width m.height) (fun q => q = s)
      rw [allCells_length] at hx
      exact hx
    have h2 : 0 < (allCells m.width m.height).countP (fun q => q = s) :=
      List.countP_pos.mpr ⟨s, inB_mem_allCells hsB, by simp⟩
    have huv : uvCountV m (fun q => q = s) + 1 ≤ m.width * m.height := by
      omega
    show 2 * uvCountV m (fun q => q = s) + 1 <
      2 * (m.resetSolution.setDistance s 0).width *
        (m.resetSolution.setDistance s 0).height + 1
    have hw2 : (m.resetSolution.setDistance s 0).width = m.width := rfl
    have hh2 : (m.resetSolution.setDistance s 0).height = m.height := rfl
    rw [hw2, hh2]
    have hmm : 2 * m.width * m.height = 2 * (m.width * m.height) := by ring
    omega
  exact bfsLoop_spec m s e he (bfsFuel (m.resetSolution.setDistance s 0))
    (m.resetSolution.setDistance s 0) [s] (fun q => q = s) hI hmeas

theorem dfsRelax_post (G : Maze) (s current : Pos) :
    ∀ (nbs : List Pos) (m : Maze) (vis : Pos → Bool) (stack : List Pos),
      BfsCore G s m vis →
      vis current = true →
      (∀ q ∈ nbs, q ∈ G.accessibleNeighbors current) →
      (∀ p ∈ stack, vis p = true) →
      BfsCore G s (dfsSolveRelax current m vis stack nbs).1
        (dfsSolveRelax current m vis stack nbs).2.1 ∧
      (∀ p, vis p = true → (dfsSolveRelax current m vis stack nbs).2.1 p = true) ∧
      (∀ p, (dfsSolveRelax current m vis stack nbs).2.1 p = true →
        vis p = true ∨ p ∈ (dfsSolveRelax current m vis stack nbs).2.2) ∧
      (∀ q ∈ nbs, (dfsSolveRelax current m vis stack nbs).2.1 q = true) ∧
      (∀ p ∈ (dfsSolveRelax current m vis stack nbs).2.2,
        (dfsSolveRelax current m vis stack nbs).2.1 p = true) ∧
      uvCountV G (dfsSolveRelax current m vis stack nbs).2.1 +
        (dfsSolveRelax current m vis stack nbs).2.2.length ≤
          uvCountV G vis + stack.length ∧
      uvCountV G (dfsSolveRelax current m vis stack nbs).2.1 ≤ uvCountV G vis ∧
      (∀ p ∈ stack, p ∈ (dfsSolveRelax current m vis stack nbs).2.2) := by
  intro nbs
  induction nbs with
  | nil =>
    intro m vis stack core hcv _ hstack
    exact ⟨core, fun p hp => hp, fun p hp => Or.inl hp, by simp,
      fun p hp => hstack p hp, le_refl _, le_refl _, fun p hp => hp⟩
  | cons nb rest ih =>
    intro m vis stack core hcv hnbs hstack
    show BfsCore G s (dfsSolveRelax current m vis stack (nb :: rest)).1 _ ∧ _
    by_cases hv : vis nb = true
    · have hred : dfsSolveRelax current m vis stack (nb :: rest) =
          dfsSolveRelax current m vis stack rest := by
        simp only [dfsSolveRelax, hv]
        rfl
      rw [hred]
      obtain ⟨c', mono, news, done, qv, meas, uvm, qsub⟩ :=
        ih m vis stack core hcv (fun q hq => hnbs q (List.mem_cons_of_mem _ hq)) hstack
      refine ⟨c', mono, news, ?_, qv, meas, uvm, qsub⟩
      intro q hq
      rcases List.mem_cons.mp hq with rfl | hq'
      · exact mono q hv
      · exact done q hq'
    · have hv' : vis nb = false := by simpa using hv
      have hnbacc : nb ∈ G.accessibleNeighbors current := hnbs nb (List.mem_cons_self _ _)
      have hnbB : G.inB nb := by
        obtain ⟨d, rfl, hB, _⟩ := mem_accessibleNeighbors.mp hnbacc
        exact hB
      have hred : dfsSolveRelax current m vis stack (nb :: rest) =
          dfsSolveRelax current (m.setParent nb current)
            (fun q => if q = nb then true else vis q) (nb :: stack) rest := by
        simp only [dfsSolveRelax, hv']
        rfl
      rw [hred]
      have core2 : BfsCore G s (m.setParent nb current)
          (fun q => if q = nb then true else vis q) := by
        refine ⟨sameGeom_trans core.geom (sameGeom_setParent _ _ _),
          by simp [core.sol], by simp [core.hs], ?_, ?_⟩
        · intro p hp
          split at hp
          · next hpe => exact hpe ▸ hnbB
          · exact core.visB p hp
        · intro p hp
          by_cases hpnb : p = nb
          · subst hpnb
            obtain ⟨lc, hpc, hwalk, hnd, hall⟩ := core.chain current hcv
            have hnbnot : p ∉ lc := by
              intro hc
              have := hall p hc
              rw [hv'] at this
              cases this
            refine ⟨lc ++ [p], ?_, ?_, ?_, ?_⟩
            · refine PChain.step (by simp) (pchain_frame hpc ?_)
              intro x hx
              have hxne : x ≠ p := fun hc => hnbnot (hc ▸ hx)
              simp [hxne]
            · exact walk_concat hwalk
                (step_of_accessible (core.visB current hcv) hnbacc)
            · rw [List.nodup_append]
              exact ⟨hnd, by simp, fun a ha hb => hnbnot ((List.mem_singleton.mp hb) ▸ ha)⟩
            · intro x hx
              rcases List.mem_append.mp hx with hx' | hx'
              · split
                · rfl
                · exact hall x hx'
              · rw [List.mem_singleton.mp hx']
                simp
          · rw [if_neg hpnb] at hp
            obtain ⟨lc, hpc, hwalk, hnd, hall⟩ := core.chain p hp
            have hnbnot : nb ∉ lc := by
              intro hc
              have := hall nb hc
              rw [hv'] at this
              cases this
            refine ⟨lc, pchain_frame hpc ?_, hwalk, hnd, ?_⟩
            · intro x hx
              have hxne : x ≠ nb := fun hc => hnbnot (hc ▸ hx)
              simp [hxne]
            · intro x hx
              split
              · rfl
              · exact hall x hx
      obtain ⟨c', mono, news, done, qv, meas, uvm, qsub⟩ :=
        ih (m.setParent nb current) (fun q => if q = nb then true else vis q)
          (nb :: stack) core2
          (by
            show (if current = nb then true else vis current) = true
            split
            · rfl
            · exact hcv)
          (fun q hq => hnbs q (List.mem_cons_of_mem _ hq))
          (by
            intro p hp
            rcases List.mem_cons.mp hp with rfl | hp'
            · simp
            · show (if p = nb then true else vis p) = true
              split
              · rfl
              · exact hstack p hp')
      have hmark := uvCountV_mark hnbB hv'
      refine ⟨c', ?_, ?_, ?_, qv, ?_, ?_, ?_⟩
      · intro p hp
        refine mono p ?_
        split
        · rfl
        · exact hp
      · intro p hp
        rcases news p hp with hp' | hp'
        · split at hp'
          · next hpe =>
            right
            exact qsub p (by rw [hpe]; simp)
          · exact Or.inl hp'
        · exact Or.inr hp'
      · intro q hq
        rcases List.mem_cons.mp hq with rfl | hq'
        · refine mono q ?_
          simp
        · exact done q hq'
      · simp only [List.length_cons] at meas
        omega
      · omega
      · intro p hp
        exact qsub p (List.mem_cons_of_mem _ hp)

/-- The DFS-solver loop terminates and returns a duplicate-free wall-respecting
path exactly when the end is reachable. -/
theorem dfsSolveLoop_spec (G : Maze) (s e : Pos) (hge : G.endPos = some e) :
    ∀ (fuel : Nat) (m : Maze) (stack : List Pos) (vis : Pos → Bool),
      BfsInv G s e m stack vis →
      2 * uvCountV G vis + stack.length < fuel →
      ∃ path m', dfsSolveLoop fuel m stack vis = some (path, m') ∧
        m'.solutionPath = path ∧
        (path = [] → ¬ Relation.ReflTransGen (Step G) s e) ∧
        (path ≠ [] → Walk (Step G) s e path ∧ path.Nodup) ∧
        sameGeom G m' := by
  intro fuel
  induction fuel with
  | zero =>
    intro m stack vis _ hm
    omega
  | succ n ih =>
    intro m stack vis I hm
    cases stack with
    | nil =>
      refine ⟨[], m, rfl, I.core.sol, ?_, fun hc => absurd rfl hc, I.core.geom⟩
      intro _ hconn
      have hreach : ∀ p, Relation.ReflTransGen (Step G) s p → vis p = true := by
        intro p hp
        induction hp with
        | refl => exact I.core.hs
        | tail _ hstep ih2 =>
          rcases I.closed _ ih2 with hmem | hcl
          · simp at hmem
          · exact hcl _ (accessible_of_step hstep)
      have hve := I.einq (hreach e hconn)
      simp at hve
    | cons current rest =>
      simp only [dfsSolveLoop]
      have hgeom := I.core.geom
      by_cases hend : m.endPos = some current
      · have hcur : current = e := by
          rw [hgeom.2.2.2.2, hge] at hend
          exact (Option.some.inj hend).symm
        have hcv : vis current = true := I.qvis current (List.mem_cons_self _ _)
        obtain ⟨l, hpc, hwalk, hnd, hall⟩ := I.core.chain current hcv
        have hlen : l.length ≤ m.width * m.height := by
          rw [hgeom.1, hgeom.2.1]
          exact nodup_inB_length_le hnd (fun x hx => I.core.visB x (hall x hx))
        have hrec : reconstructPath m (reconFuel m) current [] = some l := by
          have := pchain_reconstruct hpc (reconFuel m) [] (by unfold reconFuel; omega)
          rwa [List.append_nil] at this
        rw [if_pos hend, hrec]
        refine ⟨l, { m with solutionPath := l }, rfl, rfl, ?_,
          fun _ => ⟨hcur ▸ hwalk, hnd⟩, hgeom⟩
        intro hc
        exact absurd hc hwalk.ne_nil
      · rw [if_neg hend]
        have hcv : vis current = true := I.qvis current (List.mem_cons_self _ _)
        have hcure : current ≠ e := by
          intro hc
          rw [hgeom.2.2.2.2, hge] at hend
          exact hend (by rw [hc])
        have hacc : ∀ q ∈ m.accessibleNeighbors current, q ∈ G.accessibleNeighbors current := by
          rw [accessibleNeighbors_geom hgeom]
          exact fun q hq => hq
        obtain ⟨core', mono, news, done, qv, meas, uvm, qsub⟩ :=
          dfsRelax_post G s current (m.accessibleNeighbors current) m vis rest
            I.core hcv hacc (fun p hp => I.qvis p (List.mem_cons_of_mem _ hp))
        have I' : BfsInv G s e (dfsSolveRelax current m vis rest (m.accessibleNeighbors current)).1
            (dfsSolveRelax current m vis rest (m.accessibleNeighbors current)).2.2
            (dfsSolveRelax current m vis rest (m.accessibleNeighbors current)).2.1 := by
          refine ⟨core', ?_, ?_, ?_⟩
          · intro p hp
            exact qv p hp
          · intro p hp
            rcases news p hp with hp' | hp'
            · rcases I.closed p hp' with hmem | hcl
              · rcases List.mem_cons.mp hmem with rfl | hmem'
                · right
                  intro q hq
                  refine done q ?_
                  rwa [accessibleNeighbors_geom hgeom]
                · exact Or.inl (qsub p hmem')
              · right
                intro q hq
                exact mono q (hcl q hq)
            · exact Or.inl hp'
          · intro hp
            rcases news e hp with hp' | hp'
            · have := I.einq hp'
              rcases List.mem_cons.mp this with rfl | hmem'
              · exact absurd rfl hcure
              · exact qsub e hmem'
            · exact hp'
        refine ih _ _ _ I' ?_
        simp only [List.length_cons] at hm
        omega

/-- `DepthFirstSearchSolver.solve` with both endpoints set. -/
theorem dfsSolve_spec (m : Maze) (s e : Pos) (hs : m.startPos = some s)
    (he : m.endPos = some e) (hsB : m.inB s) :
    ∃ path m', dfsSolve m = some (path, m') ∧ m'.solutionPath = path ∧
      (path = [] → ¬ Conn m s e) ∧
      (path ≠ [] → Walk (Step m) s e path ∧ path.Nodup) ∧
      sameGeom m m' := by
  unfold dfsSolve
  rw [hs, he]
  have hI : BfsInv m s e m.resetSolution [s] (fun q => q = s) := by
    refine ⟨⟨sameGeom_resetSolution m, rfl, by simp, ?_, ?_⟩, ?_, ?_, ?_⟩
    · intro p hp
      have : p = s := by simpa using hp
      exact this ▸ hsB
    · intro p hp
      have hps : p = s := by simpa using hp
      subst hps
      refine ⟨[p], PChain.base rfl, Walk.single p, by simp, ?_⟩
      intro x hx
      rw [List.mem_singleton.mp hx]
      simp
    · intro p hp
      have : p = s := List.mem_singleton.mp hp
      simp [this]
    · intro p hp
      left
      have : p = s := by simpa using hp
      simp [this]
    · intro hp
      have : e = s := by simpa using hp
      simp [this]
  have hmeas : 2 * uvCountV m (fun q => q = s) + [s].length < bfsFuel m.resetSolution := by
    have h1 : uvCountV m (fun q => q = s) +
        (allCells m.width m.height).countP (fun q => q = s) = m.width * m.height := by
      have hx := countP_not_add (allCells m.width m.height) (fun q => q = s)
      rw [allCells_length] at hx
      exact hx
    have h2 : 0 < (allCells m.width m.height).countP (fun q => q = s) :=
      List.countP_pos.mpr ⟨s, inB_mem_allCells hsB, by simp⟩
    show 2 * uvCountV m (fun q => q = s) + 1 <
      2 * m.resetSolution.width * m.resetSolution.height + 1
    have hw2 : m.resetSolution.width = m.width := rfl
    have hh2 : m.resetSolution.height = m.height := rfl
    rw [hw2, hh2]
    have hmm : 2 * m.width * m.height = 2 * (m.width * m.height) := by ring
    omega
  exact dfsSolveLoop_spec m s e he (bfsFuel m.resetSolution) m.resetSolution [s]
    (fun q => q = s) hI hmeas

/-! ### Dijkstra and A* -/

theorem foldl_min_mem (x : Nat × Pos) (xs : List (Nat × Pos)) :
    xs.foldl (fun acc y => if pqLt y acc then y else acc) x ∈ x :: xs := by
  induction xs generalizing x with
  | nil => simp
  | cons y ys ih =>
    show List.foldl _ (if pqLt y x then y else x) ys ∈ _
    rcases List.mem_cons.mp (ih (if pqLt y x then y else x)) with h | h
    · rw [h]
      split
      · simp
      · simp
    · simp [h]

theorem popMin_some {l : List (Nat × Pos)} {mn : Nat × Pos} {l1 : List (Nat × Pos)}
    (h : popMin l = some (mn, l1)) : mn ∈ l ∧ l1 = l.erase mn ∧
      l1.length + 1 = l.length := by
  match l with
  | [] => cases h
  | x :: xs =>
    simp only [popMin] at h
    rw [Option.some.injEq, Prod.mk.injEq] at h
    obtain ⟨h1, h2⟩ := h
    subst h1
    subst h2
    refine ⟨foldl_min_mem x xs, rfl, ?_⟩
    have hlen := List.length_erase_of_mem (foldl_min_mem x xs)
    rw [hlen]
    have h1 : 1 ≤ (x :: xs).length := by simp
    omega

theorem dijkstraRelax_post (G : Maze) (s current : Pos) (cdist : Nat)
    (hcurB : G.inB current) :
    ∀ (nbs : List Pos) (m : Maze) (vis : Pos → Bool) (pq : List (Nat × Pos)),
      sameGeom G m →
      m.distance s = some 0 →
      vis current = true →
      (∀ q ∈ nbs, q ∈ G.accessibleNeighbors current) →
      sameGeom G (dijkstraRelax current cdist m vis pq nbs).1 ∧
      (dijkstraRelax current cdist m vis pq nbs).1.solutionPath = m.solutionPath ∧
      (dijkstraRelax current cdist m vis pq nbs).1.distance s = some 0 ∧
      (∀ x, vis x = true →
        (dijkstraRelax current cdist m vis pq nbs).1.parent x = m.parent x) ∧
      (dijkstraRelax current cdist m vis pq nbs).1.parent s = m.parent s ∧
      (∀ x, (dijkstraRelax current cdist m vis pq nbs).1.parent x = m.parent x ∨
        ((dijkstraRelax current cdist m vis pq nbs).1.parent x = some current ∧
          Step G current x ∧ vis x = false ∧ G.inB x)) ∧
      (∀ en ∈ pq, en ∈ (dijkstraRelax current cdist m vis pq nbs).2) ∧
      (∀ en ∈ (dijkstraRelax current cdist m vis pq nbs).2, en ∈ pq ∨
        ((dijkstraRelax current cdist m vis pq nbs).1.parent en.2 = some current ∧
          Step G current en.2 ∧ G.inB en.2 ∧ vis en.2 = false)) ∧
      (∀ x, m.distance x ≠ none →
        (dijkstraRelax current cdist m vis pq nbs).1.distance x ≠ none) ∧
      (∀ x, (dijkstraRelax current cdist m vis pq nbs).1.distance x ≠ none →
        m.distance x ≠ none ∨
          ∃ en ∈ (dijkstraRelax current cdist m vis pq nbs).2, en.2 = x) ∧
      (∀ q ∈ nbs, vis q = false →
        (dijkstraRelax current cdist m vis pq nbs).1.distance q ≠ none) ∧
      (dijkstraRelax current cdist m vis pq nbs).2.length ≤ pq.length + nbs.length := by
  intro nbs
  induction nbs with
  | nil =>
    intro m vis pq hgeom hds hcv _
    exact ⟨hgeom, rfl, hds, fun x _ => rfl, rfl, fun x => Or.inl rfl,
      fun en he => he, fun en he => Or.inl he, fun x hx => hx, fun x hx => Or.inl hx,
      by simp, by simp [dijkstraRelax]⟩
  | cons nb rest ih =>
    intro m vis pq hgeom hds hcv hnbs
    have hnbacc : nb ∈ G.accessibleNeighbors current := hnbs nb (List.mem_cons_self _ _)
    have hnbB : G.inB nb := by
      obtain ⟨d, rfl, hB, _⟩ := mem_accessibleNeighbors.mp hnbacc
      exact hB
    have hstepnb : Step G current nb := step_of_accessible hcurB hnbacc
    by_cases hv : vis nb = true
    · have hred : dijkstraRelax current cdist m vis pq (nb :: rest) =
          dijkstraRelax current cdist m vis pq rest := by
        simp only [dijkstraRelax, hv]
        rfl
      rw [hred]
      obtain ⟨g1, g2, g3, g4, g5, g6, g7, g8, g9, g10, g11, g12⟩ :=
        ih m vis pq hgeom hds hcv (fun q hq => hnbs q (List.mem_cons_of_mem _ hq))
      refine ⟨g1, g2, g3, g4, g5, g6, g7, g8, g9, g10, ?_, by
        simp only [List.length_cons]
        omega⟩
      intro q hq hqv
      rcases List.mem_cons.mp hq with rfl | hq'
      · rw [hv] at hqv
        cases hqv
      · exact g11 q hq' hqv
    · have hv' : vis nb = false := by simpa using hv
      by_cases hcnd : (m.distance nb).isNone = true ∨ cdist + 1 < (m.distance nb).getD 0
      · have hnbs' : nb ≠ s := by
          intro hc
          rw [hc, hds] at hcnd
          rcases hcnd with hc1 | hc1
          · cases hc1
          · simp at hc1
        have hred : dijkstraRelax current cdist m vis pq (nb :: rest) =
            dijkstraRelax current cdist ((m.setDistance nb (cdist + 1)).setParent nb current)
              vis (pq ++ [(cdist + 1, nb)]) rest := by
          simp only [dijkstraRelax]
          rw [if_neg (by simp [hv']), if_pos hcnd]
        rw [hred]
        obtain ⟨g1, g2, g3, g4, g5, g6, g7, g8, g9, g10, g11, g12⟩ :=
          ih ((m.setDistance nb (cdist + 1)).setParent nb current) vis
            (pq ++ [(cdist + 1, nb)])
            (sameGeom_trans hgeom (sameGeom_trans (sameGeom_setDistance _ _ _)
              (sameGeom_setParent _ _ _)))
            (by
              simp only [setParent_distance, setDistance_distance]
              rw [if_neg (Ne.symm hnbs')]
              exact hds)
            hcv (fun q hq => hnbs q (List.mem_cons_of_mem _ hq))
        have hm1p : ∀ x, ((m.setDistance nb (cdist + 1)).setParent nb current).parent x =
            if x = nb then some current else m.parent x := by
          intro x
          simp
        have hm1d : ∀ x, ((m.setDistance nb (cdist + 1)).setParent nb current).distance x =
            if x = nb then some (cdist + 1) else m.distance x := by
          intro x
          simp
        have hrpnb : (dijkstraRelax current cdist
            ((m.setDistance nb (cdist + 1)).setParent nb current) vis
            (pq ++ [(cdist + 1, nb)]) rest).1.parent nb = some current := by
          rcases g6 nb with h | h
          · rw [h, hm1p nb, if_pos rfl]
          · exact h.1
        refine ⟨g1, ?_, g3, ?_, ?_, ?_, ?_, ?_, ?_, ?_, ?_, ?_⟩
        · rw [g2]
          simp
        · intro x hx
          have hxnb : x ≠ nb := by
            intro hc
            rw [hc, hv'] at hx
            cases hx
          rw [g4 x hx, hm1p x, if_neg hxnb]
        · rw [g5, hm1p s, if_neg (Ne.symm hnbs')]
        · intro x
          rcases g6 x with h | h
          · by_cases hxnb : x = nb
            · subst hxnb
              right
              refine ⟨?_, hstepnb, hv', hnbB⟩
              rw [h, hm1p x, if_pos rfl]
            · left
              rw [h, hm1p x, if_neg hxnb]
          · exact Or.inr h
        · intro en he
          exact g7 en (List.mem_append.mpr (Or.inl he))
        · intro en he
          rcases g8 en he with h | h
          · rcases List.mem_append.mp h with h' | h'
            · exact Or.inl h'
            · right
              rw [List.mem_singleton.mp h']
              exact ⟨hrpnb, hstepnb, hnbB, hv'⟩
          · exact Or.inr h
        · intro x hx
          apply g9
          rw [hm1d x]
          split
          · simp
          · exact hx
        · intro x hx
          rcases g10 x hx with h | h
          · by_cases hxnb : x = nb
            · right
              exact ⟨(cdist + 1, nb), g7 _ (List.mem_append.mpr (Or.inr (by simp))),
                by simp [hxnb]⟩
            · left
              rw [hm1d x, if_neg hxnb] at h
              exact h
          · exact Or.inr h
        · intro q hq hqv
          rcases List.mem_cons.mp hq with rfl | hq'
          · apply g9
            rw [hm1d q, if_pos rfl]
            simp
          · exact g11 q hq' hqv
        · rw [List.length_append] at g12
          simp only [List.length_cons, List.length_nil] at g12 ⊢
          omega
      · have hred : dijkstraRelax current cdist m vis pq (nb :: rest) =
            dijkstraRelax current cdist m vis pq rest := by
          simp only [dijkstraRelax]
          rw [if_neg (by simp [hv']), if_neg hcnd]
        rw [hred]
        obtain ⟨g1, g2, g3, g4, g5, g6, g7, g8, g9, g10, g11, g12⟩ :=
          ih m vis pq hgeom hds hcv (fun q hq => hnbs q (List.mem_cons_of_mem _ hq))
        refine ⟨g1, g2, g3, g4, g5, g6, g7, g8, g9, g10, ?_, by
          simp only [List.length_cons]
          omega⟩
        intro q hq hqv
        rcases List.mem_cons.mp hq with rfl | hq'
        · refine g9 q ?_
          intro hc
          exact hcnd (Or.inl (by rw [hc]; rfl))
        · exact g11 q hq' hqv

/-- The Dijkstra loop invariant.  Cells are finalised when popped, so queue
entries may be stale: each one points at a visited cell, the start, or a cell
whose parent is already-visited. -/
structure DijInv (G : Maze) (s e : Pos) (m : Maze) (pq : List (Nat × Pos))
    (vis : Pos → Bool) : Prop where
  geom : sameGeom G m
  sol : m.solutionPath = []
  pnone : m.parent s = none
  dists : m.distance s = some 0
  visB : ∀ p, vis p = true → G.inB p
  chain : ∀ p, vis p = true → ∃ l, PChain m s p l ∧ Walk (Step G) s p l ∧ l.Nodup ∧
    (∀ x ∈ l, vis x = true)
  pqentry : ∀ en ∈ pq, vis en.2 = true ∨ en.2 = s ∨
    ∃ u, m.parent en.2 = some u ∧ vis u = true ∧ Step G u en.2 ∧ G.inB en.2
  nbclosed : ∀ p, vis p = true → ∀ q ∈ G.accessibleNeighbors p,
    vis q = true ∨ m.distance q ≠ none
  distpq : ∀ p, vis p = false → m.distance p ≠ none → ∃ en ∈ pq, en.2 = p
  sOrPq : vis s = true ∨ ∃ en ∈ pq, en.2 = s
  enotvis : vis e = false

/-- The Dijkstra loop terminates and returns the parent-chain walk to the end
cell, or the empty path exactly when the end is unreachable. -/
theorem dijkstraLoop_spec (G : Maze) (s e : Pos) (hge : G.endPos = some e)
    (hsB : G.inB s) :
    ∀ (fuel : Nat) (m : Maze) (pq : List (Nat × Pos)) (vis : Pos → Bool),
      DijInv G s e m pq vis →
      pq.length + 5 * uvCountV G vis < fuel →
      ∃ path m', dijkstraLoop fuel m pq vis = some (path, m') ∧
        m'.solutionPath = path ∧
        (path = [] → ¬ Relation.ReflTransGen (Step G) s e) ∧
        (path ≠ [] → Walk (Step G) s e path ∧ path.Nodup) ∧
        sameGeom G m' := by
  intro fuel
  induction fuel with
  | zero =>
    intro m pq vis _ hm
    omega
  | succ n ih =>
    intro m pq vis I hm
    cases pq with
    | nil =>
      refine ⟨[], m, rfl, I.sol, ?_, fun hc => absurd rfl hc, I.geom⟩
      intro _ hconn
      have hreach : ∀ p, Relation.ReflTransGen (Step G) s p → vis p = true := by
        intro p hp
        induction hp with
        | refl =>
          rcases I.sOrPq with h | ⟨en, hen, _⟩
          · exact h
          · simp at hen
        | @tail b c _ hstep ih2 =>
          rcases I.nbclosed b ih2 c (accessible_of_step hstep) with h | h
          · exact h
          · by_cases hv : vis c = true
            · exact hv
            · obtain ⟨en, hen, _⟩ := I.distpq c (by simpa using hv) h
              simp at hen
      have hve := hreach e hconn
      rw [I.enotvis] at hve
      cases hve
    | cons x xs =>
      obtain ⟨⟨cdist, current⟩, hmn⟩ :
          ∃ mn, popMin (x :: xs) = some (mn, (x :: xs).erase mn) := ⟨_, rfl⟩
      obtain ⟨hmem, -, hlen⟩ := popMin_some hmn
      simp only [dijkstraLoop, hmn]
      have hgeom := I.geom
      by_cases hvc : vis current = true
      · rw [if_pos hvc]
        refine ih m ((x :: xs).erase (cdist, current)) vis
          ⟨hgeom, I.sol, I.pnone, I.dists, I.visB, I.chain, ?_, I.nbclosed, ?_, ?_,
            I.enotvis⟩ ?_
        · intro en hen
          exact I.pqentry en (List.mem_of_mem_erase hen)
        · intro p hpv hpd
          obtain ⟨en, hen, hen2⟩ := I.distpq p hpv hpd
          refine ⟨en, (List.mem_erase_of_ne ?_).mpr hen, hen2⟩
          intro hc
          have h1 : vis p = true := by
            rw [← hen2, hc]
            exact hvc
          simp [h1] at hpv
        · rcases I.sOrPq with h | ⟨en, hen, hen2⟩
          · exact Or.inl h
          · by_cases hvs : vis s = true
            · exact Or.inl hvs
            · refine Or.inr ⟨en, (List.mem_erase_of_ne ?_).mpr hen, hen2⟩
              intro hc
              apply hvs
              rw [← hen2, hc]
              exact hvc
        · omega
      · rw [if_neg hvc]
        have hcv' : vis current = false := by simpa using hvc
        have hcases := I.pqentry (cdist, current) hmem
        have hcurB : G.inB current := by
          rcases hcases with h | h | ⟨u, _, _, _, hinB⟩
          · rw [hcv'] at h
            cases h
          · have hcs : current = s := h
            rw [hcs]
            exact hsB
          · exact hinB
        have hchain : ∃ l, PChain m s current l ∧ Walk (Step G) s current l ∧ l.Nodup ∧
            (∀ x ∈ l, x = current ∨ vis x = true) := by
          rcases hcases with h | h | ⟨u, hpu, hvu, hstep, _⟩
          · rw [hcv'] at h
            cases h
          · have hcs : current = s := h
            refine ⟨[current], ?_, ?_, by simp,
              fun y hy => Or.inl (List.mem_singleton.mp hy)⟩
            · rw [hcs]
              exact PChain.base I.pnone
            · rw [hcs]
              exact Walk.single s
          · obtain ⟨l, hpc, hwalk, hnd, hall⟩ := I.chain u hvu
            have hnotin : current ∉ l := by
              intro hc
              have := hall current hc
              rw [hcv'] at this
              cases this
            refine ⟨l ++ [current], PChain.step hpu hpc, walk_concat hwalk hstep, ?_, ?_⟩
            · rw [List.nodup_append]
              exact ⟨hnd, by simp, fun a ha hb => hnotin ((List.mem_singleton.mp hb) ▸ ha)⟩
            · intro y hy
              rcases List.mem_append.mp hy with hy' | hy'
              · exact Or.inr (hall y hy')
              · exact Or.inl (List.mem_singleton.mp hy')
        by_cases hend : m.endPos = some current
        · have hcur : current = e := by
            rw [hgeom.2.2.2.2, hge] at hend
            exact (Option.some.inj hend).symm
          obtain ⟨l, hpc, hwalk, hnd, hallv⟩ := hchain
          have hlB : ∀ y ∈ l, G.inB y := by
            intro y hy
            rcases hallv y hy with h | h
            · exact h ▸ hcurB
            · exact I.visB y h
          have hlen2 : l.length ≤ m.width * m.height := by
            rw [hgeom.1, hgeom.2.1]
            exact nodup_inB_length_le hnd hlB
          have hrec : reconstructPath m (reconFuel m) current [] = some l := by
            have := pchain_reconstruct hpc (reconFuel m) [] (by unfold reconFuel; omega)
            rwa [List.append_nil] at this
          rw [if_pos hend, hrec]
          refine ⟨l, { m with solutionPath := l }, rfl, rfl, ?_,
            fun _ => ⟨hcur ▸ hwalk, hnd⟩, hgeom⟩
          intro hc
          exact absurd hc hwalk.ne_nil
        · rw [if_neg hend]
          have hmono : ∀ y, vis y = true → (if y = current then true else vis y) = true := by
            intro y hy
            split
            · rfl
            · exact hy
          obtain ⟨g1, g2, g3, g4, g5, g6, g7, g8, g9, g10, g11, g12⟩ :=
            dijkstraRelax_post G s current cdist hcurB (m.accessibleNeighbors current) m
              (fun q => if q = current then true else vis q)
              ((x :: xs).erase (cdist, current)) hgeom I.dists (by simp)
              (by rw [accessibleNeighbors_geom hgeom]; exact fun q hq => hq)
          refine ih _ _ _
            ⟨g1, g2.trans I.sol, g5.trans I.pnone, g3, ?_, ?_, ?_, ?_, ?_, ?_, ?_⟩ ?_
          · intro p hp
            by_cases hpc : p = current
            · exact hpc ▸ hcurB
            · rw [if_neg hpc] at hp
              exact I.visB p hp
          · intro p hp
            by_cases hpc : p = current
            · subst hpc
              obtain ⟨l, hpc2, hwalk, hnd, hallv⟩ := hchain
              have hv1 : ∀ y ∈ l, (if y = p then true else vis y) = true := by
                intro y hy
                rcases hallv y hy with h | h
                · simp [h]
                · exact hmono y h
              exact ⟨l, pchain_frame hpc2 (fun y hy => g4 y (hv1 y hy)), hwalk, hnd, hv1⟩
            · rw [if_neg hpc] at hp
              obtain ⟨l, hpc2, hwalk, hnd, hall⟩ := I.chain p hp
              have hv1 : ∀ y ∈ l, (if y = current then true else vis y) = true :=
                fun y hy => hmono y (hall y hy)
              exact ⟨l, pchain_frame hpc2 (fun y hy => g4 y (hv1 y hy)), hwalk, hnd, hv1⟩
          · intro en hen
            rcases g8 en hen with h | h
            · rcases I.pqentry en (List.mem_of_mem_erase h) with hv | hs2 |
                ⟨u, hpu, hvu, hstep, hinB⟩
              · exact Or.inl (hmono en.2 hv)
              · exact Or.inr (Or.inl hs2)
              · rcases g6 en.2 with hpe | ⟨hpe, hstepc, _, hinB2⟩
                · refine Or.inr (Or.inr ⟨u, ?_, hmono u hvu, hstep, hinB⟩)
                  rw [hpe]
                  exact hpu
                · exact Or.inr (Or.inr ⟨current, hpe, by simp, hstepc, hinB2⟩)
            · exact Or.inr (Or.inr ⟨current, h.1, by simp, h.2.1, h.2.2.1⟩)
          · intro p hp q hq
            by_cases hpc : p = current
            · subst hpc
              have hq' : q ∈ m.accessibleNeighbors p := by
                rw [accessibleNeighbors_geom hgeom]
                exact hq
              by_cases hqv : (if q = p then true else vis q) = true
              · exact Or.inl hqv
              · exact Or.inr (g11 q hq' (by simpa using hqv))
            · rw [if_neg hpc] at hp
              rcases I.nbclosed p hp q hq with h | h
              · exact Or.inl (hmono q h)
              · exact Or.inr (g9 q h)
          · intro p hp hpd
            rcases g10 p hpd with h | h
            · have hpc : p ≠ current := by
                intro hc
                rw [hc] at hp
                simp at hp
              rw [if_neg hpc] at hp
              obtain ⟨en, hen, hen2⟩ := I.distpq p hp h
              refine ⟨en, g7 en ((List.mem_erase_of_ne ?_).mpr hen), hen2⟩
              intro hc
              rw [hc] at hen2
              exact hpc hen2.symm
            · exact h
          · by_cases hvs : (if s = current then true else vis s) = true
            · exact Or.inl hvs
            · rcases I.sOrPq with h | ⟨en, hen, hen2⟩
              · exact absurd (hmono s h) hvs
              · have hsc : s ≠ current := by
                  intro hc
                  apply hvs
                  rw [if_pos hc]
                refine Or.inr ⟨en, g7 en ((List.mem_erase_of_ne ?_).mpr hen), hen2⟩
                intro hc
                rw [hc] at hen2
                exact hsc hen2.symm
          · have hce : current ≠ e := by
              intro hc
              apply hend
              rw [hgeom.2.2.2.2, hge, hc]
            show (if e = current then true else vis e) = false
            rw [if_neg (fun hc => hce hc.symm)]
            exact I.enotvis
          · have hmark := uvCountV_mark hcurB hcv'
            have hacc4 := accessibleNeighbors_len m current
            omega

/-- `DijkstraSolver.solve` with both endpoints set: terminates, writes the
returned path into `solution_path`, returns a duplicate-free wall-respecting
path from start to end when one exists and the empty path otherwise. -/
theorem dijkstraSolve_spec (m : Maze) (s e : Pos) (hs : m.startPos = some s)
    (he : m.endPos = some e) (hsB : m.inB s) :
    ∃ path m', dijkstraSolve m = some (path, m') ∧ m'.solutionPath = path ∧
      (path = [] → ¬ Conn m s e) ∧
      (path ≠ [] → Walk (Step m) s e path ∧ path.Nodup) ∧
      sameGeom m m' := by
  unfold dijkstraSolve
  rw [hs, he]
  have hI : DijInv m s e (m.resetSolution.setDistance s 0) [(0, s)] (fun _ => false) := by
    refine ⟨?_, rfl, by simp, by simp, ?_, ?_, ?_, ?_, ?_, ?_, rfl⟩
    · exact sameGeom_trans (sameGeom_resetSolution m) (sameGeom_setDistance _ _ _)
    · intro p hp
      cases hp
    · intro p hp
      cases hp
    · intro en hen
      right
      left
      rw [List.mem_singleton.mp hen]
    · intro p hp
      cases hp
    · intro p _ hpd
      refine ⟨(0, s), by simp, ?_⟩
      by_contra hps
      apply hpd
      show (if p = s then some 0 else m.resetSolution.distance p) = none
      rw [if_neg (fun hc => hps hc.symm)]
      rfl
    · exact Or.inr ⟨(0, s), by simp, rfl⟩
  have huv : uvCountV m (fun _ => false) = m.width * m.height := by
    simp [uvCountV, allCells_length]
  have hmeas : [(0, s)].length + 5 * uvCountV m (fun _ => false) <
      dijkstraFuel (m.resetSolution.setDistance s 0) := by
    show 1 + 5 * uvCountV m (fun _ => false) <
      5 * (m.resetSolution.setDistance s 0).width *
        (m.resetSolution.setDistance s 0).height + 2
    have hw2 : (m.resetSolution.setDistance s 0).width = m.width := rfl
    have hh2 : (m.resetSolution.setDistance s 0).height = m.height := rfl
    rw [hw2, hh2]
    have hmm : 5 * m.width * m.height = 5 * (m.width * m.height) := by ring
    omega
  exact dijkstraLoop_spec m s e he hsB (dijkstraFuel (m.resetSolution.setDistance s 0))
    (m.resetSolution.setDistance s 0) [(0, s)] (fun _ => false) hI hmeas

theorem astarRelax_post (G : Maze) (s current epos : Pos) (hcurB : G.inB current) :
    ∀ (nbs : List Pos) (m : Maze) (gs : AStarMaps) (vis : Pos → Bool)
        (pq : List (Nat × Pos)),
      sameGeom G m →
      gs.g s = some 0 →
      vis current = true →
      (∀ q ∈ nbs, q ∈ G.accessibleNeighbors current) →
      sameGeom G (astarRelax current epos m gs vis pq nbs).1 ∧
      (astarRelax current epos m gs vis pq nbs).1.solutionPath = m.solutionPath ∧
      (astarRelax current epos m gs vis pq nbs).2.1.g s = some 0 ∧
      (∀ x, vis x = true →
        (astarRelax current epos m gs vis pq nbs).1.parent x = m.parent x) ∧
      (astarRelax current epos m gs vis pq nbs).1.parent s = m.parent s ∧
      (∀ x, (astarRelax current epos m gs vis pq nbs).1.parent x = m.parent x ∨
        ((astarRelax current epos m gs vis pq nbs).1.parent x = some current ∧
          Step G current x ∧ vis x = false ∧ G.inB x)) ∧
      (∀ en ∈ pq, en ∈ (astarRelax current epos m gs vis pq nbs).2.2) ∧
      (∀ en ∈ (astarRelax current epos m gs vis pq nbs).2.2, en ∈ pq ∨
        ((astarRelax current epos m gs vis pq nbs).1.parent en.2 = some current ∧
          Step G current en.2 ∧ G.inB en.2 ∧ vis en.2 = false)) ∧
      (∀ x, gs.g x ≠ none →
        (astarRelax current epos m gs vis pq nbs).2.1.g x ≠ none) ∧
      (∀ x, (astarRelax current epos m gs vis pq nbs).2.1.g x ≠ none →
        gs.g x ≠ none ∨
          ∃ en ∈ (astarRelax current epos m gs vis pq nbs).2.2, en.2 = x) ∧
      (∀ q ∈ nbs, vis q = false →
        (astarRelax current epos m gs vis pq nbs).2.1.g q ≠ none) ∧
      (astarRelax current epos m gs vis pq nbs).2.2.length ≤ pq.length + nbs.length := by
  intro nbs
  induction nbs with
  | nil =>
    intro m gs vis pq hgeom hgs hcv _
    exact ⟨hgeom, rfl, hgs, fun x _ => rfl, rfl, fun x => Or.inl rfl,
      fun en he => he, fun en he => Or.inl he, fun x hx => hx, fun x hx => Or.inl hx,
      by simp, by simp [astarRelax]⟩
  | cons nb rest ih =>
    intro m gs vis pq hgeom hgs hcv hnbs
    have hnbacc : nb ∈ G.accessibleNeighbors current := hnbs nb (List.mem_cons_self _ _)
    have hnbB : G.inB nb := by
      obtain ⟨d, rfl, hB, _⟩ := mem_accessibleNeighbors.mp hnbacc
      exact hB
    have hstepnb : Step G current nb := step_of_accessible hcurB hnbacc
    by_cases hv : vis nb = true
    · have hred : astarRelax current epos m gs vis pq (nb :: rest) =
          astarRelax current epos m gs vis pq rest := by
        simp only [astarRelax, hv]
        rfl
      rw [hred]
      obtain ⟨g1, g2, g3, g4, g5, g6, g7, g8, g9, g10, g11, g12⟩ :=
        ih m gs vis pq hgeom hgs hcv (fun q hq => hnbs q (List.mem_cons_of_mem _ hq))
      refine ⟨g1, g2, g3, g4, g5, g6, g7, g8, g9, g10, ?_, by
        simp only [List.length_cons]
        omega⟩
      intro q hq hqv
      rcases List.mem_cons.mp hq with rfl | hq'
      · rw [hv] at hqv
        cases hqv
      · exact g11 q hq' hqv
    · have hv' : vis nb = false := by simpa using hv
      by_cases hcnd : (gs.g nb).isNone = true ∨
          (gs.g current).getD 0 + 1 < (gs.g nb).getD 0
      · have hnbs' : nb ≠ s := by
          intro hc
          rw [hc, hgs] at hcnd
          rcases hcnd with hc1 | hc1
          · cases hc1
          · simp at hc1
        have hred : astarRelax current epos m gs vis pq (nb :: rest) =
            astarRelax current epos
              ((m.setParent nb current).setDistance nb ((gs.g current).getD 0 + 1))
              { g := fun q => if q = nb then some ((gs.g current).getD 0 + 1) else gs.g q,
                f := fun q => if q = nb then
                  some ((gs.g current).getD 0 + 1 + manhattan nb epos) else gs.f q }
              vis (pq ++ [((gs.g current).getD 0 + 1 + manhattan nb epos, nb)]) rest := by
          simp only [astarRelax]
          rw [if_neg (by simp [hv']), if_pos hcnd]
        rw [hred]
        obtain ⟨g1, g2, g3, g4, g5, g6, g7, g8, g9, g10, g11, g12⟩ :=
          ih ((m.setParent nb current).setDistance nb ((gs.g current).getD 0 + 1))
            { g := fun q => if q = nb then some ((gs.g current).getD 0 + 1) else gs.g q,
              f := fun q => if q = nb then
                some ((gs.g current).getD 0 + 1 + manhattan nb epos) else gs.f q }
            vis (pq ++ [((gs.g current).getD 0 + 1 + manhattan nb epos, nb)])
            (sameGeom_trans hgeom (sameGeom_trans (sameGeom_setParent _ _ _)
              (sameGeom_setDistance _ _ _)))
            (by
              show (if s = nb then _ else gs.g s) = some 0
              rw [if_neg (Ne.symm hnbs')]
              exact hgs)
            hcv (fun q hq => hnbs q (List.mem_cons_of_mem _ hq))
        have hm1p : ∀ x, ((m.setParent nb current).setDistance nb
            ((gs.g current).getD 0 + 1)).parent x =
            if x = nb then some current else m.parent x := by
          intro x
          simp
        have hrpnb : (astarRelax current epos
            ((m.setParent nb current).setDistance nb ((gs.g current).getD 0 + 1))
            { g := fun q => if q = nb then some ((gs.g current).getD 0 + 1) else gs.g q,
              f := fun q => if q = nb then
                some ((gs.g current).getD 0 + 1 + manhattan nb epos) else gs.f q }
            vis (pq ++ [((gs.g current).getD 0 + 1 + manhattan nb epos, nb)])
            rest).1.parent nb = some current := by
          rcases g6 nb with h | h
          · rw [h, hm1p nb, if_pos rfl]
          · exact h.1
        refine ⟨g1, ?_, g3, ?_, ?_, ?_, ?_, ?_, ?_, ?_, ?_, ?_⟩
        · rw [g2]
          simp
        · intro x hx
          have hxnb : x ≠ nb := by
            intro hc
            rw [hc, hv'] at hx
            cases hx
          rw [g4 x hx, hm1p x, if_neg hxnb]
        · rw [g5, hm1p s, if_neg (Ne.symm hnbs')]
        · intro x
          rcases g6 x with h | h
          · by_cases hxnb : x = nb
            · subst hxnb
              right
              refine ⟨?_, hstepnb, hv', hnbB⟩
              rw [h, hm1p x, if_pos rfl]
            · left
              rw [h, hm1p x, if_neg hxnb]
          · exact Or.inr h
        · intro en he
          exact g7 en (List.mem_append.mpr (Or.inl he))
        · intro en he
          rcases g8 en he with h | h
          · rcases List.mem_append.mp h with h' | h'
            · exact Or.inl h'
            · right
              rw [List.mem_singleton.mp h']
              exact ⟨hrpnb, hstepnb, hnbB, hv'⟩
          · exact Or.inr h
        · intro x hx
          apply g9
          show (if x = nb then _ else gs.g x) ≠ none
          split
          · simp
          · exact hx
        · intro x hx
          rcases g10 x hx with h | h
          · by_cases hxnb : x = nb
            · right
              exact ⟨((gs.g current).getD 0 + 1 + manhattan nb epos, nb),
                g7 _ (List.mem_append.mpr (Or.inr (by simp))), by simp [hxnb]⟩
            · left
              have h' : (if x = nb then
                  some ((gs.g current).getD 0 + 1) else gs.g x) ≠ none := h
              rw [if_neg hxnb] at h'
              exact h'
          · exact Or.inr h
        · intro q hq hqv
          rcases List.mem_cons.mp hq with rfl | hq'
          · apply g9
            show (if q = q then some ((gs.g current).getD 0 + 1) else gs.g q) ≠ none
            rw [if_pos rfl]
            simp
          · exact g11 q hq' hqv
        · rw [List.length_append] at g12
          simp only [List.length_cons, List.length_nil] at g12 ⊢
          omega
      · have hred : astarRelax current epos m gs vis pq (nb :: rest) =
            astarRelax current epos m gs vis pq rest := by
          simp only [astarRelax]
          rw [if_neg (by simp [hv']), if_neg hcnd]
        rw [hred]
        obtain ⟨g1, g2, g3, g4, g5, g6, g7, g8, g9, g10, g11, g12⟩ :=
          ih m gs vis pq hgeom hgs hcv (fun q hq => hnbs q (List.mem_cons_of_mem _ hq))
        refine ⟨g1, g2, g3, g4, g5, g6, g7, g8, g9, g10, ?_, by
          simp only [List.length_cons]
          omega⟩
        intro q hq hqv
        rcases List.mem_cons.mp hq with rfl | hq'
        · refine g9 q ?_
          intro hc
          exact hcnd (Or.inl (by rw [hc]; rfl))
        · exact g11 q hq' hqv

/-- The A* loop invariant: the Dijkstra invariant with the `g_scores`
dictionary in place of the cells' distance field. -/
structure AInv (G : Maze) (s e : Pos) (m : Maze) (gs : AStarMaps)
    (pq : List (Nat × Pos)) (vis : Pos → Bool) : Prop where
  geom : sameGeom G m
  sol : m.solutionPath = []
  pnone : m.parent s = none
  gss : gs.g s = some 0
  visB : ∀ p, vis p = true → G.inB p
  chain : ∀ p, vis p = true → ∃ l, PChain m s p l ∧ Walk (Step G) s p l ∧ l.Nodup ∧
    (∀ x ∈ l, vis x = true)
  pqentry : ∀ en ∈ pq, vis en.2 = true ∨ en.2 = s ∨
    ∃ u, m.parent en.2 = some u ∧ vis u = true ∧ Step G u en.2 ∧ G.inB en.2
  nbclosed : ∀ p, vis p = true → ∀ q ∈ G.accessibleNeighbors p,
    vis q = true ∨ gs.g q ≠ none
  distpq : ∀ p, vis p = false → gs.g p ≠ none → ∃ en ∈ pq, en.2 = p
  sOrPq : vis s = true ∨ ∃ en ∈ pq, en.2 = s
  enotvis : vis e = false

/-- The A* loop terminates and returns the parent-chain walk to the end cell,
or the empty path exactly when the end is unreachable. -/
theorem astarLoop_spec (G : Maze) (s e : Pos) (hge : G.endPos = some e)
    (hsB : G.inB s) :
    ∀ (fuel : Nat) (m : Maze) (gs : AStarMaps) (pq : List (Nat × Pos))
        (vis : Pos → Bool),
      AInv G s e m gs pq vis →
      pq.length + 5 * uvCountV G vis < fuel →
      ∃ path m', astarLoop e fuel m gs pq vis = some (path, m') ∧
        m'.solutionPath = path ∧
        (path = [] → ¬ Relation.ReflTransGen (Step G) s e) ∧
        (path ≠ [] → Walk (Step G) s e path ∧ path.Nodup) ∧
        sameGeom G m' := by
  intro fuel
  induction fuel with
  | zero =>
    intro m gs pq vis _ hm
    omega
  | succ n ih =>
    intro m gs pq vis I hm
    cases pq with
    | nil =>
      refine ⟨[], m, rfl, I.sol, ?_, fun hc => absurd rfl hc, I.geom⟩
      intro _ hconn
      have hreach : ∀ p, Relation.ReflTransGen (Step G) s p → vis p = true := by
        intro p hp
        induction hp with
        | refl =>
          rcases I.sOrPq with h | ⟨en, hen, _⟩
          · exact h
          · simp at hen
        | @tail b c _ hstep ih2 =>
          rcases I.nbclosed b ih2 c (accessible_of_step hstep) with h | h
          · exact h
          · by_cases hv : vis c = true
            · exact hv
            · obtain ⟨en, hen, _⟩ := I.distpq c (by simpa using hv) h
              simp at hen
      have hve := hreach e hconn
      rw [I.enotvis] at hve
      cases hve
    | cons x xs =>
      obtain ⟨⟨fprio, current⟩, hmn⟩ :
          ∃ mn, popMin (x :: xs) = some (mn, (x :: xs).erase mn) := ⟨_, rfl⟩
      obtain ⟨hmem, -, hlen⟩ := popMin_some hmn
      simp only [astarLoop, hmn]
      have hgeom := I.geom
      by_cases hvc : vis current = true
      · rw [if_pos hvc]
        refine ih m gs ((x :: xs).erase (fprio, current)) vis
          ⟨hgeom, I.sol, I.pnone, I.gss, I.visB, I.chain, ?_, I.nbclosed, ?_, ?_,
            I.enotvis⟩ ?_
        · intro en hen
          exact I.pqentry en (List.mem_of_mem_erase hen)
        · intro p hpv hpd
          obtain ⟨en, hen, hen2⟩ := I.distpq p hpv hpd
          refine ⟨en, (List.mem_erase_of_ne ?_).mpr hen, hen2⟩
          intro hc
          have h1 : vis p = true := by
            rw [← hen2, hc]
            exact hvc
          simp [h1] at hpv
        · rcases I.sOrPq with h | ⟨en, hen, hen2⟩
          · exact Or.inl h
          · by_cases hvs : vis s = true
            · exact Or.inl hvs
            · refine Or.inr ⟨en, (List.mem_erase_of_ne ?_).mpr hen, hen2⟩
              intro hc
              apply hvs
              rw [← hen2, hc]
              exact hvc
        · omega
      · rw [if_neg hvc]
        have hcv' : vis current = false := by simpa using hvc
        have hcases := I.pqentry (fprio, current) hmem
        have hcurB : G.inB current := by
          rcases hcases with h | h | ⟨u, _, _, _, hinB⟩
          · rw [hcv'] at h
            cases h
          · have hcs : current = s := h
            rw [hcs]
            exact hsB
          · exact hinB
        have hchain : ∃ l, PChain m s current l ∧ Walk (Step G) s current l ∧ l.Nodup ∧
            (∀ x ∈ l, x = current ∨ vis x = true) := by
          rcases hcases with h | h | ⟨u, hpu, hvu, hstep, _⟩
          · rw [hcv'] at h
            cases h
          · have hcs : current = s := h
            refine ⟨[current], ?_, ?_, by simp,
              fun y hy => Or.inl (List.mem_singleton.mp hy)⟩
            · rw [hcs]
              exact PChain.base I.pnone
            · rw [hcs]
              exact Walk.single s
          · obtain ⟨l, hpc, hwalk, hnd, hall⟩ := I.chain u hvu
            have hnotin : current ∉ l := by
              intro hc
              have := hall current hc
              rw [hcv'] at this
              cases this
            refine ⟨l ++ [current], PChain.step hpu hpc, walk_concat hwalk hstep, ?_, ?_⟩
            · rw [List.nodup_append]
              exact ⟨hnd, by simp, fun a ha hb => hnotin ((List.mem_singleton.mp hb) ▸ ha)⟩
            · intro y hy
              rcases List.mem_append.mp hy with hy' | hy'
              · exact Or.inr (hall y hy')
              · exact Or.inl (List.mem_singleton.mp hy')
        by_cases hend : m.endPos = some current
        · have hcur : current = e := by
            rw [hgeom.2.2.2.2, hge] at hend
            exact (Option.some.inj hend).symm
          obtain ⟨l, hpc, hwalk, hnd, hallv⟩ := hchain
          have hlB : ∀ y ∈ l, G.inB y := by
            intro y hy
            rcases hallv y hy with h | h
            · exact h ▸ hcurB
            · exact I.visB y h
          have hlen2 : l.length ≤ m.width * m.height := by
            rw [hgeom.1, hgeom.2.1]
            exact nodup_inB_length_le hnd hlB
          have hrec : reconstructPath m (reconFuel m) current [] = some l := by
            have := pchain_reconstruct hpc (reconFuel m) [] (by unfold reconFuel; omega)
            rwa [List.append_nil] at this
          rw [if_pos hend, hrec]
          refine ⟨l, { m with solutionPath := l }, rfl, rfl, ?_,
            fun _ => ⟨hcur ▸ hwalk, hnd⟩, hgeom⟩
          intro hc
          exact absurd hc hwalk.ne_nil
        · rw [if_neg hend]
          have hmono : ∀ y, vis y = true → (if y = current then true else vis y) = true := by
            intro y hy
            split
            · rfl
            · exact hy
          obtain ⟨g1, g2, g3, g4, g5, g6, g7, g8, g9, g10, g11, g12⟩ :=
            astarRelax_post G s current e hcurB (m.accessibleNeighbors current) m gs
              (fun q => if q = current then true else vis q)
              ((x :: xs).erase (fprio, current)) hgeom I.gss (by simp)
              (by rw [accessibleNeighbors_geom hgeom]; exact fun q hq => hq)
          refine ih _ _ _ _
            ⟨g1, g2.trans I.sol, g5.trans I.pnone, g3, ?_, ?_, ?_, ?_, ?_, ?_, ?_⟩ ?_
          · intro p hp
            by_cases hpc : p = current
            · exact hpc ▸ hcurB
            · rw [if_neg hpc] at hp
              exact I.visB p hp
          · intro p hp
            by_cases hpc : p = current
            · subst hpc
              obtain ⟨l, hpc2, hwalk, hnd, hallv⟩ := hchain
              have hv1 : ∀ y ∈ l, (if y = p then true else vis y) = true := by
                intro y hy
                rcases hallv y hy with h | h
                · simp [h]
                · exact hmono y h
              exact ⟨l, pchain_frame hpc2 (fun y hy => g4 y (hv1 y hy)), hwalk, hnd, hv1⟩
            · rw [if_neg hpc] at hp
              obtain ⟨l, hpc2, hwalk, hnd, hall⟩ := I.chain p hp
              have hv1 : ∀ y ∈ l, (if y = current then true else vis y) = true :=
                fun y hy => hmono y (hall y hy)
              exact ⟨l, pchain_frame hpc2 (fun y hy => g4 y (hv1 y hy)), hwalk, hnd, hv1⟩
          · intro en hen
            rcases g8 en hen with h | h
            · rcases I.pqentry en (List.mem_of_mem_erase h) with hv | hs2 |
                ⟨u, hpu, hvu, hstep, hinB⟩
              · exact Or.inl (hmono en.2 hv)
              · exact Or.inr (Or.inl hs2)
              · rcases g6 en.2 with hpe | ⟨hpe, hstepc, _, hinB2⟩
                · refine Or.inr (Or.inr ⟨u, ?_, hmono u hvu, hstep, hinB⟩)
                  rw [hpe]
                  exact hpu
                · exact Or.inr (Or.inr ⟨current, hpe, by simp, hstepc, hinB2⟩)
            · exact Or.inr (Or.inr ⟨current, h.1, by simp, h.2.1, h.2.2.1⟩)
          · intro p hp q hq
            by_cases hpc : p = current
            · subst hpc
              have hq' : q ∈ m.accessibleNeighbors p := by
                rw [accessibleNeighbors_geom hgeom]
                exact hq
              by_cases hqv : (if q = p then true else vis q) = true
              · exact Or.inl hqv
              · exact Or.inr (g11 q hq' (by simpa using hqv))
            · rw [if_neg hpc] at hp
              rcases I.nbclosed p hp q hq with h | h
              · exact Or.inl (hmono q h)
              · exact Or.inr (g9 q h)
          · intro p hp hpd
            rcases g10 p hpd with h | h
            · have hpc : p ≠ current := by
                intro hc
                rw [hc] at hp
                simp at hp
              rw [if_neg hpc] at hp
              obtain ⟨en, hen, hen2⟩ := I.distpq p hp h
              refine ⟨en, g7 en ((List.mem_erase_of_ne ?_).mpr hen), hen2⟩
              intro hc
              rw [hc] at hen2
              exact hpc hen2.symm
            · exact h
          · by_cases hvs : (if s = current then true else vis s) = true
            · exact Or.inl hvs
            · rcases I.sOrPq with h | ⟨en, hen, hen2⟩
              · exact absurd (hmono s h) hvs
              · have hsc : s ≠ current := by
                  intro hc
                  apply hvs
                  rw [if_pos hc]
                refine Or.inr ⟨en, g7 en ((List.mem_erase_of_ne ?_).mpr hen), hen2⟩
                intro hc
                rw [hc] at hen2
                exact hsc hen2.symm
          · have hce : current ≠ e := by
              intro hc
              apply hend
              rw [hgeom.2.2.2.2, hge, hc]
            show (if e = current then true else vis e) = false
            rw [if_neg (fun hc => hce hc.symm)]
            exact I.enotvis
          · have hmark := uvCountV_mark hcurB hcv'
            have hacc4 := accessibleNeighbors_len m current
            omega

/-- `AStarSolver.solve` with both endpoints set: terminates, writes the
returned path into `solution_path`, returns a duplicate-free wall-respecting
path from start to end when one exists and the empty path otherwise. -/
theorem astarSolve_spec (m : Maze) (s e : Pos) (hs : m.startPos = some s)
    (he : m.endPos = some e) (hsB : m.inB s) :
    ∃ path m', astarSolve m = some (path, m') ∧ m'.solutionPath = path ∧
      (path = [] → ¬ Conn m s e) ∧
      (path ≠ [] → Walk (Step m) s e path ∧ path.Nodup) ∧
      sameGeom m m' := by
  unfold astarSolve
  rw [hs, he]
  have hI : AInv m s e (m.resetSolution.setDistance s 0)
      { g := fun q => if q = s then some 0 else none,
        f := fun q => if q = s then some (manhattan s e) else none }
      [(manhattan s e, s)] (fun _ => false) := by
    refine ⟨?_, rfl, by simp, by simp, ?_, ?_, ?_, ?_, ?_, ?_, rfl⟩
    · exact sameGeom_trans (sameGeom_resetSolution m) (sameGeom_setDistance _ _ _)
    · intro p hp
      cases hp
    · intro p hp
      cases hp
    · intro en hen
      right
      left
      rw [List.mem_singleton.mp hen]
    · intro p hp
      cases hp
    · intro p _ hpd
      refine ⟨(manhattan s e, s), by simp, ?_⟩
      by_contra hps
      apply hpd
      show (if p = s then some 0 else none) = none
      rw [if_neg (fun hc => hps hc.symm)]
    · exact Or.inr ⟨(manhattan s e, s), by simp, rfl⟩
  have huv : uvCountV m (fun _ => false) = m.width * m.height := by
    simp [uvCountV, allCells_length]
  have hmeas : [(manhattan s e, s)].length + 5 * uvCountV m (fun _ => false) <
      dijkstraFuel (m.resetSolution.setDistance s 0) := by
    show 1 + 5 * uvCountV m (fun _ => false) <
      5 * (m.resetSolution.setDistance s 0).width *
        (m.resetSolution.setDistance s 0).height + 2
    have hw2 : (m.resetSolution.setDistance s 0).width = m.width := rfl
    have hh2 : (m.resetSolution.setDistance s 0).height = m.height := rfl
    rw [hw2, hh2]
    have hmm : 5 * m.width * m.height = 5 * (m.width * m.height) := by ring
    omega
  exact astarLoop_spec m s e he hsB (dijkstraFuel (m.resetSolution.setDistance s 0))
    (m.resetSolution.setDistance s 0)
    { g := fun q => if q = s then some 0 else none,
      f := fun q => if q = s then some (manhattan s e) else none }
    [(manhattan s e, s)] (fun _ => false) hI hmeas

theorem conn_geom {G m : Maze} (h : sameGeom G m) : Conn m = Conn G := by
  unfold Conn
  rw [step_geom h]

theorem mem_dirList (d : Dir) : d ∈ dirList := by
  cases d <;> simp [dirList]

/-- Pigeonhole bound for the wall follower's visited-state set: there are only
`4 * width * height` distinct in-bounds `(position, facing)` states. -/
theorem statePairs_length_le {m : Maze} {states : List (Pos × Dir)}
    (hnd : states.Nodup) (hB : ∀ st ∈ states, m.inB st.1) :
    states.length ≤ 4 * m.width * m.height := by
  have hsub : states ⊆ (allCells m.width m.height) ×ˢ dirList := by
    intro st hst
    obtain ⟨p, d⟩ := st
    rw [List.mem_product]
    exact ⟨inB_mem_allCells (hB (p, d) hst), mem_dirList d⟩
  have hle := (hnd.subperm hsub).length_le
  rw [List.length_product, allCells_length] at hle
  have hdl : dirList.length = 4 := rfl
  rw [hdl] at hle
  have hc : m.width * m.height * 4 = 4 * m.width * m.height := by ring
  omega

/-- The wall-follower loop terminates (the visited-state set caps the number of
iterations), never touches the maze until it returns, writes the returned path
into the solution path, and reaches the end whenever it returns a non-empty
path. -/
theorem wfLoop_spec (G : Maze) (s e : Pos) (hge : G.endPos = some e)
    (hsol : G.solutionPath = []) :
    ∀ (fuel : Nat) (current : Pos) (facing : Dir) (path : List Pos)
        (states : List (Pos × Dir)),
      G.inB current →
      states.Nodup →
      (∀ st ∈ states, G.inB st.1) →
      Conn G s current →
      4 * G.width * G.height + 1 ≤ fuel + states.length →
      ∃ path' m', wfLoop G fuel current facing path states = some (path', m') ∧
        m'.solutionPath = path' ∧
        (path' ≠ [] → Conn G s e) ∧
        sameGeom G m' := by
  intro fuel
  induction fuel with
  | zero =>
    intro current facing path states _ hnd hB _ hmeas
    have := statePairs_length_le hnd hB
    omega
  | succ n ih =>
    intro current facing path states hcurB hnd hB hconn hmeas
    simp only [wfLoop]
    by_cases hend : G.endPos = some current
    · rw [if_pos hend]
      refine ⟨path, { G with solutionPath := path }, rfl, rfl, ?_, sameGeom_refl G⟩
      intro _
      have hce : current = e := by
        rw [hge] at hend
        exact (Option.some.inj hend).symm
      exact hce ▸ hconn
    · rw [if_neg hend]
      by_cases hmem : (current, facing) ∈ states
      · rw [if_pos hmem]
        exact ⟨[], G, rfl, hsol, fun hc => absurd rfl hc, sameGeom_refl G⟩
      · rw [if_neg hmem]
        have hnd1 : ((current, facing) :: states).Nodup := by
          rw [List.nodup_cons]
          exact ⟨hmem, hnd⟩
        have hB1 : ∀ st ∈ (current, facing) :: states, G.inB st.1 := by
          intro st hst
          rcases List.mem_cons.mp hst with rfl | hst'
          · exact hcurB
          · exact hB st hst'
        have hmeas1 : 4 * G.width * G.height + 1 ≤
            n + ((current, facing) :: states).length := by
          simp only [List.length_cons]
          omega
        by_cases hrw : G.walls current (turnRight facing) = false
        · have hcond : (! G.walls current (turnRight facing)) = true := by
            rw [hrw]
            rfl
          rw [if_pos hcond]
          cases hcell : G.getCell (posAdd current (turnRight facing)) with
          | some next =>
            simp only [hcell]
            obtain ⟨hB2, hnext⟩ := getCell_eq_some_iff.mp hcell
            have hpass : passageB G current (turnRight facing) = true := by
              simp only [passageB, Bool.and_eq_true, Bool.not_eq_true']
              exact ⟨⟨getCell_isSome_iff.mpr hcurB, by rw [hcell]; rfl⟩, hrw⟩
            have hstep : Step G current next := ⟨turnRight facing, hpass, hnext⟩
            exact ih next (turnRight facing) (path ++ [next])
              ((current, facing) :: states) (hnext ▸ hB2) hnd1 hB1
              (hconn.tail hstep) hmeas1
          | none =>
            simp only [hcell]
            exact ih current (turnLeft (turnRight facing)) path
              ((current, facing) :: states) hcurB hnd1 hB1 hconn hmeas1
        · have hrw' : G.walls current (turnRight facing) = true := by
            cases h : G.walls current (turnRight facing)
            · exact absurd h hrw
            · rfl
          have hcond : ¬ ((! G.walls current (turnRight facing)) = true) := by
            rw [hrw']
            simp
          rw [if_neg hcond]
          by_cases hfw : G.walls current facing = false
          · have hcond2 : (! G.walls current facing) = true := by
              rw [hfw]
              rfl
            rw [if_pos hcond2]
            cases hcell : G.getCell (posAdd current facing) with
            | some next =>
              simp only [hcell]
              obtain ⟨hB2, hnext⟩ := getCell_eq_some_iff.mp hcell
              have hpass : passageB G current facing = true := by
                simp only [passageB, Bool.and_eq_true, Bool.not_eq_true']
                exact ⟨⟨getCell_isSome_iff.mpr hcurB, by rw [hcell]; rfl⟩, hfw⟩
              have hstep : Step G current next := ⟨facing, hpass, hnext⟩
              exact ih next facing (path ++ [next]) ((current, facing) :: states)
                (hnext ▸ hB2) hnd1 hB1 (hconn.tail hstep) hmeas1
            | none =>
              simp only [hcell]
              exact ih current (turnLeft facing) path ((current, facing) :: states)
                hcurB hnd1 hB1 hconn hmeas1
          · have hfw' : G.walls current facing = true := by
              cases h : G.walls current facing
              · exact absurd h hfw
              · rfl
            have hcond2 : ¬ ((! G.walls current facing) = true) := by
              rw [hfw']
              simp
            rw [if_neg hcond2]
            exact ih current (turnLeft facing) path ((current, facing) :: states)
              hcurB hnd1 hB1 hconn hmeas1

/-- `WallFollowerSolver.solve` with both endpoints set: the visited-state set
bounds the loop, the returned path is written to `solution_path`, and a
non-empty return means the end is reachable (hence an unreachable end yields
the empty path). -/
theorem wallFollowerSolve_spec (m : Maze) (s e : Pos) (hs : m.startPos = some s)
    (he : m.endPos = some e) (hsB : m.inB s) :
    ∃ path m', wallFollowerSolve m = some (path, m') ∧ m'.solutionPath = path ∧
      (path ≠ [] → Conn m s e) ∧
      sameGeom m m' := by
  unfold wallFollowerSolve
  rw [hs, he]
  have hgeom : sameGeom m m.resetSolution := sameGeom_resetSolution m
  have hge1 : m.resetSolution.endPos = some e := by
    rw [hgeom.2.2.2.2]
    exact he
  have hB1 : m.resetSolution.inB s := hsB
  obtain ⟨path, m', h1, h2, h3, h4⟩ := wfLoop_spec m.resetSolution s e hge1 rfl
    (wfFuel m.resetSolution) s Dir.north [s] [] hB1 List.nodup_nil (by simp)
    Relation.ReflTransGen.refl (by unfold wfFuel; simp)
  refine ⟨path, m', h1, h2, ?_, sameGeom_trans hgeom h4⟩
  intro hne
  have := h3 hne
  rwa [conn_geom hgeom] at this

/-! ## Uniform corollaries over the algorithm dispatch -/

/-- What every generator establishes on success. -/
theorem runGen_good (alg : GenAlg) (σ : Nat → Nat) (k wfuel : Nat) (m0 : Maze)
    (hw : 1 ≤ m0.width) (hh : 1 ≤ m0.height) :
    ∀ m' k', runGen alg σ k m0 wfuel = some (m', k') →
      wallSym m' ∧ boundaryOk m' ∧ oobOk m' ∧ UniqueWalks (Step m') ∧
        SpanningTree m' ∧ m'.width = m0.width ∧ m'.height = m0.height := by
  intro m' k' h
  cases alg with
  | dfs =>
    obtain ⟨I, _, hsp, _, hwd, hht⟩ := (dfsGenerate_spec σ k m0 hw hh).2 m' k' h
    exact ⟨I.sym, I.bnd, I.oob, I.uniq, hsp, hwd, hht⟩
  | prim =>
    obtain ⟨I, hsp, _, hwd, hht⟩ := (primGenerate_spec σ k m0 hw hh).2 m' k' h
    exact ⟨I.sym, I.bnd, I.oob, I.uniq, hsp, hwd, hht⟩
  | kruskal =>
    exact (kruskalGenerate_spec σ k m0 hw hh).2 m' k' h
  | wilson =>
    obtain ⟨I, hsp, _, hwd, hht⟩ := wilsonGenerate_spec σ k m0 wfuel hw hh m' k' h
    exact ⟨I.sym, I.bnd, I.oob, I.uniq, hsp, hwd, hht⟩

/-- The three non-Wilson generators always terminate with a result. -/
theorem runGen_isSome (alg : GenAlg) (σ : Nat → Nat) (k wfuel : Nat) (m0 : Maze)
    (hw : 1 ≤ m0.width) (hh : 1 ≤ m0.height) (halg : alg ≠ GenAlg.wilson) :
    (runGen alg σ k m0 wfuel).isSome = true := by
  cases alg with
  | dfs => exact (dfsGenerate_spec σ k m0 hw hh).1
  | prim => exact (primGenerate_spec σ k m0 hw hh).1
  | kruskal => exact (kruskalGenerate_spec σ k m0 hw hh).1
  | wilson => exact absurd rfl halg

/-- What every solver guarantees when both endpoints are set and the start is a
real cell: it terminates, writes the returned path into the solution path,
leaves the geometry alone, and returns a non-empty path only if the end is
reachable. -/
theorem runSolve_spec (alg : SolAlg) (m : Maze) (s e : Pos) (hs : m.startPos = some s)
    (he : m.endPos = some e) (hsB : m.inB s) :
    ∃ path m', runSolve alg m = some (path, m') ∧ m'.solutionPath = path ∧
      sameGeom m m' ∧ (path ≠ [] → Conn m s e) := by
  cases alg with
  | bfs =>
    obtain ⟨path, m', h1, h2, _, h4, h5⟩ := bfsSolve_spec m s e hs he hsB
    exact ⟨path, m', h1, h2, h5, fun hne => (h4 hne).1.toConn⟩
  | dfs =>
    obtain ⟨path, m', h1, h2, _, h4, h5⟩ := dfsSolve_spec m s e hs he hsB
    exact ⟨path, m', h1, h2, h5, fun hne => (h4 hne).1.toConn⟩
  | dijkstra =>
    obtain ⟨path, m', h1, h2, _, h4, h5⟩ := dijkstraSolve_spec m s e hs he hsB
    exact ⟨path, m', h1, h2, h5, fun hne => (h4 hne).1.toConn⟩
  | astar =>
    obtain ⟨path, m', h1, h2, _, h4, h5⟩ := astarSolve_spec m s e hs he hsB
    exact ⟨path, m', h1, h2, h5, fun hne => (h4 hne).1.toConn⟩
  | wallFollower =>
    obtain ⟨path, m', h1, h2, h3, h4⟩ := wallFollowerSolve_spec m s e hs he hsB
    exact ⟨path, m', h1, h2, h4, h3⟩

/-- With an unset start or end, every solver returns the empty path and the
untouched maze (in particular `reset_solution` has not run). -/
theorem runSolve_unset (alg : SolAlg) (m : Maze)
    (h : m.startPos = none ∨ m.endPos = none) :
    runSolve alg m = some ([], m) := by
  have hred : ∀ (f : Pos → Pos → Option (List Pos × Maze)),
      (match m.startPos, m.endPos with
        | some s, some e => f s e
        | _, _ => some ([], m)) = some ([], m) := by
    intro f
    rcases hsp : m.startPos with _ | s
    · rcases hep : m.endPos with _ | e <;> rfl
    · rcases hep : m.endPos with _ | e
      · rfl
      · rcases h with h | h
        · rw [hsp] at h
          cases h
        · rw [hep] at h
          cases h
  cases alg with
  | bfs => exact hred (fun s _ => bfsLoop (bfsFuel (m.resetSolution.setDistance s 0))
      (m.resetSolution.setDistance s 0) [s] (fun q => q = s))
  | dfs => exact hred (fun s _ => dfsSolveLoop (bfsFuel m.resetSolution)
      m.resetSolution [s] (fun q => q = s))
  | dijkstra => exact hred (fun s _ => dijkstraLoop
      (dijkstraFuel (m.resetSolution.setDistance s 0))
      (m.resetSolution.setDistance s 0) [(0, s)] (fun _ => false))
  | astar => exact hred (fun s e => astarLoop e (dijkstraFuel (m.resetSolution.setDistance s 0))
      (m.resetSolution.setDistance s 0)
      { g := fun q => if q = s then some 0 else none,
        f := fun q => if q = s then some (manhattan s e) else none }
      [(manhattan s e, s)] (fun _ => false))
  | wallFollower => exact hred (fun s _ => wfLoop m.resetSolution
      (wfFuel m.resetSolution) s Dir.north [s] [])

/-- In a fully walled maze nothing is connected to anything else. -/
theorem conn_allWalls_eq {m : Maze} (hall : ∀ p d, m.walls p d = true) {a b : Pos}
    (h : Conn m a b) : a = b := by
  induction h with
  | refl => rfl
  | tail _ hbc ih =>
    obtain ⟨d, hp, _⟩ := hbc
    unfold passageB at hp
    simp only [Bool.and_eq_true, Bool.not_eq_true'] at hp
    rw [hall] at hp
    cases hp.2

/-- Wall symmetry only depends on the geometry. -/
theorem wallSym_of_geom {G m : Maze} (h : sameGeom G m) (hsym : wallSym G) :
    wallSym m := by
  intro p d hpB hqB
  rw [h.2.2.1]
  have hdims : m.inB = G.inB := by
    funext q
    unfold Maze.inB
    rw [h.1, h.2.1]
  rw [hdims] at hpB hqB
  exact hsym p d hpB hqB

theorem wallSym_mkMaze (w h : Nat) : wallSym (mkMaze w h) := by
  intro p d _ _
  rfl

/-- A successful `set_start` stores exactly the requested in-bounds cell. -/
theorem setStart_true {m : Maze} {x y : Int} (h : (m.setStart x y).2 = true) :
    (m.setStart x y).1 = { m with startPos := some (x, y) } ∧ m.inB (x, y) := by
  unfold Maze.setStart at h ⊢
  cases hcell : m.getCell (x, y) with
  | none =>
    simp [hcell] at h
  | some p =>
    obtain ⟨hB, rfl⟩ := getCell_eq_some_iff.mp hcell
    exact ⟨rfl, hB⟩

/-- A successful `set_end` stores exactly the requested in-bounds cell. -/
theorem setEnd_true {m : Maze} {x y : Int} (h : (m.setEnd x y).2 = true) :
    (m.setEnd x y).1 = { m with endPos := some (x, y) } ∧ m.inB (x, y) := by
  unfold Maze.setEnd at h ⊢
  cases hcell : m.getCell (x, y) with
  | none =>
    simp [hcell] at h
  | some p =>
    obtain ⟨hB, rfl⟩ := getCell_eq_some_iff.mp hcell
    exact ⟨rfl, hB⟩

/-- Wilson's generator terminates on any single-cell grid: the seed cell is the
whole grid, so the unvisited list is empty from the start. -/
theorem wilsonGenerate_one (σ : Nat → Nat) (k wfuel : Nat) (m0 : Maze)
    (hw : m0.width = 1) (hh : m0.height = 1) :
    (wilsonGenerate σ k m0 wfuel).isSome = true := by
  simp only [wilsonGenerate]
  have hrw : (resetMazeGen m0).width = 1 := hw
  have hrh : (resetMazeGen m0).height = 1 := hh
  have hrc : (resetMazeGen m0).randomCell σ k = ((0, 0), k + 2) := by
    unfold Maze.randomCell randBelow
    rw [hrw, hrh]
    simp [Nat.mod_one]
  rw [hrc]
  have hm1w : ((resetMazeGen m0).setVisited (0, 0)).width = 1 := hw
  have hm1h : ((resetMazeGen m0).setVisited (0, 0)).height = 1 := hh
  rw [hm1w, hm1h]
  have hcells : allCells 1 1 = [((0 : Int), (0 : Int))] := rfl
  rw [hcells]
  have hfilter : ([((0 : Int), (0 : Int))].filter
      (fun c => ! ((resetMazeGen m0).setVisited (0, 0)).visited c)) = [] := by
    simp [Maze.setVisited]
  rw [hfilter]
  rfl

/-! ## Concrete instances used by the claims -/

/-- The identity draw stream (an arbitrary concrete seed). -/
def sigId : Nat → Nat := fun i => i

/-- The all-zeroes draw stream: an adversarial sequence for Wilson's walk. -/
def zeroStream : Nat → Nat := fun _ => 0

/-- A concrete draw stream whose 3x3 DFS maze makes the wall follower walk into
a dead end and back out. -/
def sig10 : Nat → Nat := fun i => [0, 0, 1, 1, 0, 1, 0, 1].getD i 0

/-- The state of Wilson's generator on the 2x2 grid right after seeding, with
the all-zeroes stream: only the origin is visited. -/
def c5m1 : Maze := (resetMazeGen (mkMaze 2 2)).setVisited
    ((resetMazeGen (mkMaze 2 2)).randomCell zeroStream 0).1

/-- First `generate` call of a seeded generator instance on a fresh 2x2 grid. -/
def c2run1 : Maze × Nat := (dfsGenerate sigId 0 (mkMaze 2 2)).getD (mkMaze 2 2, 0)

/-- Second successive `generate` call from the same instance (the draw cursor
continues where the first call left it). -/
def c2run2 : Maze × Nat := (dfsGenerate sigId c2run1.2 (mkMaze 2 2)).getD (mkMaze 2 2, 0)

/-- A concrete generated single-cell maze for the witnesses. -/
def genDemo : Maze × Nat := (dfsGenerate sigId 0 (mkMaze 1 1)).getD (mkMaze 1 1, 0)

/-- A single-cell maze with both endpoints set. -/
def c8maze : Maze := (((mkMaze 1 1).setStart 0 0).1.setEnd 0 0).1

/-- A grid carrying stale solver state (as left by an earlier search) whose
start was never set. -/
def c6maze : Maze :=
  { mkMaze 1 1 with
    solutionPath := [(0, 0)]
    distance := fun _ => some 7
    parent := fun _ => some (0, 0) }

/-- On the 2x2 grid with the all-zeroes stream, every Wilson walk oscillates
between the two cells of the middle column and never reaches the seed, for
every walk fuel. -/
def wilsonStuck : Prop :=
  ∀ wfuel, wilsonGenerate zeroStream 0 (mkMaze 2 2) wfuel = none

/-- Every solver, called on `c6maze` (start unset, stale solver state), returns
the empty path but leaves the stale solution path, distances and parents in
place: `reset_solution` did not run. -/
def staleSurvives : Prop :=
  ∀ alg, runSolve alg c6maze = some ([], c6maze) ∧
    c6maze.solutionPath ≠ [] ∧ c6maze.distance (0, 0) ≠ none ∧
    c6maze.parent (0, 0) ≠ none

/-- The 3x3 maze DFS generates from `sig10`, with start `(0,0)` and end `(2,2)`. -/
def c10gen : Maze × Nat := (dfsGenerate sig10 0 (mkMaze 3 3)).getD (mkMaze 3 3, 0)

def c10maze : Maze := ((c10gen.1.setStart 0 0).1.setEnd 2 2).1

/-- The wall follower's run on `c10maze`. -/
def c10res : List Pos × Maze := (wallFollowerSolve c10maze).getD ([], c10maze)

theorem wilsonWalk_zero_diverges : ∀ (n k : Nat),
    wilsonWalk zeroStream c5m1 n k [((1 : Int), (0 : Int))] ((1 : Int), (0 : Int)) = none ∧
    wilsonWalk zeroStream c5m1 n k [((1 : Int), (0 : Int)), ((1 : Int), (1 : Int))]
      ((1 : Int), (1 : Int)) = none := by
  intro n
  induction n with
  | zero =>
    intro k
    exact ⟨rfl, rfl⟩
  | succ n ih =>
    intro k
    constructor
    · have hred : wilsonWalk zeroStream c5m1 (n + 1) k
          [((1 : Int), (0 : Int))] ((1 : Int), (0 : Int)) =
          wilsonWalk zeroStream c5m1 n (k + 1)
            [((1 : Int), (0 : Int)), ((1 : Int), (1 : Int))] ((1 : Int), (1 : Int)) := rfl
      rw [hred]
      exact (ih (k + 1)).2
    · have hred : wilsonWalk zeroStream c5m1 (n + 1) k
          [((1 : Int), (0 : Int)), ((1 : Int), (1 : Int))] ((1 : Int), (1 : Int)) =
          wilsonWalk zeroStream c5m1 n (k + 1)
            [((1 : Int), (0 : Int))] ((1 : Int), (0 : Int)) := rfl
      rw [hred]
      exact (ih (k + 1)).1

/-! ## The claims -/

/-- Claim C1: every generator (DFS, Prim, Kruskal, Wilson), on any grid with
`w, h ≥ 1`, produces on success a maze whose passages connect all `w*h` cells
and whose removed internal wall count is exactly `w*h - 1`: a spanning tree of
the grid. -/
theorem claim_c1 (alg : GenAlg) (σ : Nat → Nat) (k wfuel : Nat) (m0 : Maze)
    (hw : 1 ≤ m0.width) (hh : 1 ≤ m0.height) :
    ∀ m' k', runGen alg σ k m0 wfuel = some (m', k') →
      SpanningTree m' ∧ m'.width = m0.width ∧ m'.height = m0.height := by
  intro m' k' h
  obtain ⟨-, -, -, -, hsp, hwd, hht⟩ := runGen_good alg σ k wfuel m0 hw hh m' k' h
  exact ⟨hsp, hwd, hht⟩

/-- Claim C1, witness: the DFS generator on the concrete 1x1 grid. -/
theorem claim_c1_witness :
    (1 ≤ (mkMaze 1 1).width ∧ 1 ≤ (mkMaze 1 1).height) ∧
    SpanningTree genDemo.1 ∧ genDemo.1.width = (mkMaze 1 1).width ∧
      genDemo.1.height = (mkMaze 1 1).height :=
  ⟨⟨by decide, by decide⟩,
    claim_c1 GenAlg.dfs sigId 0 0 (mkMaze 1 1) (by decide) (by decide)
      genDemo.1 genDemo.2 rfl⟩

/-- Claim C2: determinism holds for a fixed stream and a restarted cursor (in
this pure embedding two such calls are the same term), but it FAILS for two
successive `generate` calls issued from the same seeded generator instance:
the second call continues the instance's draw stream where the first left it
(cursor `c2run1.2 = 5`, not `0`) and produces a different wall layout — here
the two runs disagree on the south wall of the in-bounds cell `(1, 0)`. -/
theorem claim_c2 :
    dfsGenerate sigId 0 (mkMaze 2 2) = some c2run1 ∧
    dfsGenerate sigId c2run1.2 (mkMaze 2 2) = some c2run2 ∧
    c2run1.2 ≠ 0 ∧
    (mkMaze 2 2).inB (1, 0) ∧
    c2run1.1.walls (1, 0) Dir.south ≠ c2run2.1.walls (1, 0) Dir.south :=
  ⟨rfl, rfl, by decide, by decide, by decide⟩

/-- Claim C3: on any maze produced by any of the four generators, with start
and end set through the public setters, BFS, Dijkstra and A* all return the
same non-empty duplicate-free path, whose length is minimal among all
wall-respecting walks from start to end. -/
theorem claim_c3 (alg : GenAlg) (σ : Nat → Nat) (k wfuel : Nat) (m0 : Maze)
    (hw : 1 ≤ m0.width) (hh : 1 ≤ m0.height) (m' : Maze) (k' : Nat)
    (hgen : runGen alg σ k m0 wfuel = some (m', k')) (sx sy ex ey : Int)
    (hst : (m'.setStart sx sy).2 = true)
    (hen : ((m'.setStart sx sy).1.setEnd ex ey).2 = true) :
    ∃ path,
      (∀ alg2 ∈ [SolAlg.bfs, SolAlg.dijkstra, SolAlg.astar], ∃ m2,
        runSolve alg2 ((m'.setStart sx sy).1.setEnd ex ey).1 = some (path, m2)) ∧
      path ≠ [] ∧ path.Nodup ∧
      Walk (Step ((m'.setStart sx sy).1.setEnd ex ey).1) (sx, sy) (ex, ey) path ∧
      (∀ l, Walk (Step ((m'.setStart sx sy).1.setEnd ex ey).1) (sx, sy) (ex, ey) l →
        path.length ≤ l.length) := by
  obtain ⟨-, -, -, hU, hsp, hwd, hht⟩ := runGen_good alg σ k wfuel m0 hw hh m' k' hgen
  obtain ⟨hS1, hSB⟩ := setStart_true hst
  obtain ⟨hE1, hEB'⟩ := setEnd_true hen
  have hEB : m'.inB (ex, ey) := by
    rw [hS1] at hEB'
    exact hEB'
  have hmEeq : ((m'.setStart sx sy).1.setEnd ex ey).1 =
      { m' with startPos := some (sx, sy), endPos := some (ex, ey) } := by
    rw [hE1, hS1]
  rw [hmEeq]
  have hconnE : Conn { m' with startPos := some (sx, sy), endPos := some (ex, ey) }
      (sx, sy) (ex, ey) := hsp.1 _ _ hSB hEB
  obtain ⟨p1, m21, heq1, hsol1, hemp1, hne1, hg1⟩ :=
    bfsSolve_spec { m' with startPos := some (sx, sy), endPos := some (ex, ey) }
      (sx, sy) (ex, ey) rfl rfl hSB
  obtain ⟨p2, m22, heq2, hsol2, hemp2, hne2, hg2⟩ :=
    dijkstraSolve_spec { m' with startPos := some (sx, sy), endPos := some (ex, ey) }
      (sx, sy) (ex, ey) rfl rfl hSB
  obtain ⟨p3, m23, heq3, hsol3, hemp3, hne3, hg3⟩ :=
    astarSolve_spec { m' with startPos := some (sx, sy), endPos := some (ex, ey) }
      (sx, sy) (ex, ey) rfl rfl hSB
  have hp1ne : p1 ≠ [] := fun hc => hemp1 hc hconnE
  have hp2ne : p2 ≠ [] := fun hc => hemp2 hc hconnE
  have hp3ne : p3 ≠ [] := fun hc => hemp3 hc hconnE
  obtain ⟨hw1, hnd1⟩ := hne1 hp1ne
  obtain ⟨hw2, hnd2⟩ := hne2 hp2ne
  obtain ⟨hw3, hnd3⟩ := hne3 hp3ne
  have hUE : UniqueWalks
      (Step { m' with startPos := some (sx, sy), endPos := some (ex, ey) }) := hU
  have h21 : p2 = p1 := hUE _ _ _ _ hw2 hnd2 hw1 hnd1
  have h31 : p3 = p1 := hUE _ _ _ _ hw3 hnd3 hw1 hnd1
  refine ⟨p1, ?_, hp1ne, hnd1, hw1, ?_⟩
  · intro alg2 halg2
    simp only [List.mem_cons, List.mem_singleton, List.not_mem_nil, or_false] at halg2
    rcases halg2 with rfl | rfl | rfl
    · exact ⟨m21, heq1⟩
    · rw [h21] at heq2
      exact ⟨m22, heq2⟩
    · rw [h31] at heq3
      exact ⟨m23, heq3⟩
  · intro l hl
    obtain ⟨l2, hwl2, hndl2, hlen⟩ := hl.toSimple
    have hpl : p1 = l2 := hUE _ _ _ _ hw1 hnd1 hwl2 hndl2
    rw [hpl]
    exact hlen

/-- Claim C3, witness: the DFS-generated 1x1 maze with start and end `(0,0)`. -/
theorem claim_c3_witness :
    ∃ path,
      (∀ alg2 ∈ [SolAlg.bfs, SolAlg.dijkstra, SolAlg.astar], ∃ m2,
        runSolve alg2 ((genDemo.1.setStart 0 0).1.setEnd 0 0).1 = some (path, m2)) ∧
      path ≠ [] ∧ path.Nodup ∧
      Walk (Step ((genDemo.1.setStart 0 0).1.setEnd 0 0).1) (0, 0) (0, 0) path ∧
      (∀ l, Walk (Step ((genDemo.1.setStart 0 0).1.setEnd 0 0).1) (0, 0) (0, 0) l →
        path.length ≤ l.length) :=
  claim_c3 GenAlg.dfs sigId 0 0 (mkMaze 1 1) (by decide) (by decide)
    genDemo.1 genDemo.2 rfl 0 0 0 0 (by decide) (by decide)

/-- Claim C4: wall symmetry holds for every grid state reachable through the
public operations: fresh construction, any successful generator run, the wall
removal primitive, the endpoint setters, the reset operations, and every
solver (whose start, set through `set_start`, is a real cell). -/
theorem claim_c4 :
    (∀ w h, wallSym (mkMaze w h)) ∧
    (∀ alg σ k wfuel m0 m' k', 1 ≤ m0.width → 1 ≤ m0.height →
      runGen alg σ k m0 wfuel = some (m', k') → wallSym m') ∧
    (∀ m c1 c2, wallSym m → wallSym (m.removeWallBetween c1 c2).1) ∧
    (∀ m x y, wallSym m → wallSym (m.setStart x y).1) ∧
    (∀ m x y, wallSym m → wallSym (m.setEnd x y).1) ∧
    (∀ m, wallSym m → wallSym m.resetSolution) ∧
    (∀ m, wallSym m → wallSym m.resetVisited) ∧
    (∀ alg m path m', (∀ s, m.startPos = some s → m.inB s) →
      runSolve alg m = some (path, m') → wallSym m → wallSym m') := by
  refine ⟨wallSym_mkMaze, ?_, ?_, ?_, ?_, fun m h => h, fun m h => h, ?_⟩
  · intro alg σ k wfuel m0 m' k' hw hh h
    exact (runGen_good alg σ k wfuel m0 hw hh m' k' h).1
  · intro m c1 c2 hsym
    by_cases hadj : areAdjacent c1 c2 = true
    · obtain ⟨d, rfl⟩ := (areAdjacent_iff _ _).mp hadj
      exact wallSym_carve hsym d
    · have hfalse : areAdjacent c1 c2 = false := by
        simpa using hadj
      rw [removeWallBetween_not_adjacent m c1 c2 hfalse]
      exact hsym
  · intro m x y hsym
    unfold Maze.setStart
    cases m.getCell (x, y) <;> exact hsym
  · intro m x y hsym
    unfold Maze.setEnd
    cases m.getCell (x, y) <;> exact hsym
  · intro alg m path m' hsB heq hsym
    rcases hsp : m.startPos with _ | s
    · have hu := runSolve_unset alg m (Or.inl hsp)
      rw [hu] at heq
      have hm2 : m = m' := congrArg Prod.snd (Option.some.inj heq)
      exact hm2 ▸ hsym
    · rcases hep : m.endPos with _ | e
      · have hu := runSolve_unset alg m (Or.inr hep)
        rw [hu] at heq
        have hm2 : m = m' := congrArg Prod.snd (Option.some.inj heq)
        exact hm2 ▸ hsym
      · obtain ⟨path2, m2, heq2, _, hg2, _⟩ := runSolve_spec alg m s e hsp hep (hsB s hsp)
        rw [heq2] at heq
        have hm2 : m2 = m' := congrArg Prod.snd (Option.some.inj heq)
        exact hm2 ▸ wallSym_of_geom hg2 hsym

/-- Claim C4, witness: symmetry after setting the start on a fresh grid. -/
theorem claim_c4_witness : wallSym ((mkMaze 1 1).setStart 0 0).1 :=
  claim_c4.2.2.2.1 (mkMaze 1 1) 0 0 (claim_c4.1 1 1)

/-- Claim C5 (amended): DFS, Prim and Kruskal terminate on every grid with
`w, h ≥ 1`; Wilson terminates on every single-cell grid (but not on larger
grids for every draw stream — see the counterexample); and on a 1x1 grid every
generator leaves the single cell with all four walls. -/
theorem claim_c5 :
    (∀ alg σ k wfuel m0, 1 ≤ m0.width → 1 ≤ m0.height → alg ≠ GenAlg.wilson →
      (runGen alg σ k m0 wfuel).isSome = true) ∧
    (∀ σ k wfuel m0, m0.width = 1 → m0.height = 1 →
      (runGen GenAlg.wilson σ k m0 wfuel).isSome = true) ∧
    (∀ alg σ k wfuel m0 m' k', m0.width = 1 → m0.height = 1 →
      runGen alg σ k m0 wfuel = some (m', k') → ∀ d, m'.walls (0, 0) d = true) := by
  refine ⟨?_, ?_, ?_⟩
  · intro alg σ k wfuel m0 hw hh halg
    exact runGen_isSome alg σ k wfuel m0 hw hh halg
  · intro σ k wfuel m0 hw hh
    exact wilsonGenerate_one σ k wfuel m0 hw hh
  · intro alg σ k wfuel m0 m' k' hw hh h
    obtain ⟨-, hbnd, -, -, -, hwd, hht⟩ :=
      runGen_good alg σ k wfuel m0 (by omega) (by omega) m' k' h
    have hW : m'.width = 1 := by
      rw [hwd]
      exact hw
    have hH : m'.height = 1 := by
      rw [hht]
      exact hh
    intro d
    apply hbnd
    intro hc
    obtain ⟨hc1, hc2, hc3, hc4⟩ := hc
    rw [hW] at hc2
    rw [hH] at hc4
    cases d <;> revert hc1 hc2 hc3 hc4 <;> simp [posAdd, Dir.delta] <;> omega

/-- Claim C5, witness: DFS and Wilson on the concrete 1x1 grid. -/
theorem claim_c5_witness :
    (runGen GenAlg.dfs sigId 0 (mkMaze 1 1) 0).isSome = true ∧
    (runGen GenAlg.wilson sigId 0 (mkMaze 1 1) 0).isSome = true :=
  ⟨claim_c5.1 GenAlg.dfs sigId 0 0 (mkMaze 1 1) (by decide) (by decide) (by decide),
   claim_c5.2.1 sigId 0 0 (mkMaze 1 1) (by decide) (by decide)⟩

/-- Claim C5, counterexample to the original statement: Wilson's generator
never terminates on the concrete 2x2 grid with the all-zeroes draw stream —
the random walk oscillates between `(1,0)` and `(1,1)` forever (the embedding
returns `none` for every walk fuel). -/
theorem claim_c5_cex : wilsonStuck := by
  intro wfuel
  have hw := (wilsonWalk_zero_diverges wfuel 3).1
  show (match wilsonWalk zeroStream c5m1 wfuel 3 [((1 : Int), (0 : Int))]
      ((1 : Int), (0 : Int)) with
    | none => none
    | some (path, k2) =>
        wilsonLoop zeroStream wfuel 4
          (wilsonCarve path c5m1
            [((1 : Int), (0 : Int)), ((0 : Int), (1 : Int)), ((1 : Int), (1 : Int))]).1
          ((wilsonCarve path c5m1
            [((1 : Int), (0 : Int)), ((0 : Int), (1 : Int)), ((1 : Int), (1 : Int))]).2.filter
            (fun q => ! (wilsonCarve path c5m1
              [((1 : Int), (0 : Int)), ((0 : Int), (1 : Int)),
                ((1 : Int), (1 : Int))]).1.visited q)) k2) = none
  rw [hw]

/-- Claim C6 (amended): with both endpoints set to real cells, every solver
returns `some` and writes the returned path into the grid's solution path.
(The original claim fails when an endpoint is unset: the early `[]` return
happens before `reset_solution`, so stale solver state survives — see the
counterexample.) -/
theorem claim_c6 (alg : SolAlg) (m : Maze) (s e : Pos) (hs : m.startPos = some s)
    (he : m.endPos = some e) (hsB : m.inB s) :
    ∃ path m', runSolve alg m = some (path, m') ∧ m'.solutionPath = path := by
  obtain ⟨path, m', h1, h2, -, -⟩ := runSolve_spec alg m s e hs he hsB
  exact ⟨path, m', h1, h2⟩

/-- Claim C6, witness: BFS on the concrete 1x1 maze with endpoints set. -/
theorem claim_c6_witness :
    ∃ path m', runSolve SolAlg.bfs c8maze = some (path, m') ∧
      m'.solutionPath = path :=
  claim_c6 SolAlg.bfs c8maze (0, 0) (0, 0) (by decide) (by decide) (by decide)

/-- Claim C6, counterexample to the original statement: on a grid whose start
is unset but which carries stale solver state, every solver returns the empty
path with the maze untouched, so the stale `solution_path` (non-empty, unequal
to the returned path), distances and parents all survive: `reset_solution` is
not invoked before the early return. -/
theorem claim_c6_cex : staleSurvives := by
  intro alg
  exact ⟨runSolve_unset alg c6maze (Or.inl rfl), by decide, by decide, by decide⟩

/-- Claim C7: every solver returns the empty path as a normal value when the
start or end is unset, and likewise (for endpoints that are real cells) when
the end is not reachable from the start through wall-free passages. -/
theorem claim_c7 (alg : SolAlg) (m : Maze) :
    ((m.startPos = none ∨ m.endPos = none) → runSolve alg m = some ([], m)) ∧
    (∀ s e, m.startPos = some s → m.endPos = some e → m.inB s → ¬ Conn m s e →
      ∃ m', runSolve alg m = some ([], m')) := by
  refine ⟨runSolve_unset alg m, ?_⟩
  intro s e hs he hsB hnc
  obtain ⟨path, m', h1, -, -, h4⟩ := runSolve_spec alg m s e hs he hsB
  by_cases hpe : path = []
  · rw [hpe] at h1
    exact ⟨m', h1⟩
  · exact absurd (h4 hpe) hnc

/-- Claim C7, witness: BFS on a fresh grid with no endpoints set. -/
theorem claim_c7_witness : runSolve SolAlg.bfs (mkMaze 1 1) = some ([], mkMaze 1 1) :=
  (claim_c7 SolAlg.bfs (mkMaze 1 1)).1 (Or.inl rfl)

/-- Claim C8: with both endpoints set to real cells the wall follower
terminates: its loop, fuelled with `4*width*height + 2` steps (one per
recorded `(position, facing)` state, plus the repeat-detecting and final
iterations), returns within that bound, and the returned path is written to
the solution path. -/
theorem claim_c8 (m : Maze) (s e : Pos) (hs : m.startPos = some s)
    (he : m.endPos = some e) (hsB : m.inB s) :
    ∃ path m', wfLoop m.resetSolution (4 * m.width * m.height + 2) s Dir.north [s] [] =
        some (path, m') ∧
      wallFollowerSolve m = some (path, m') ∧ m'.solutionPath = path := by
  have hgeom : sameGeom m m.resetSolution := sameGeom_resetSolution m
  have hge1 : m.resetSolution.endPos = some e := by
    rw [hgeom.2.2.2.2]
    exact he
  obtain ⟨path, m', h1, h2, -, -⟩ := wfLoop_spec m.resetSolution s e hge1 rfl
    (wfFuel m.resetSolution) s Dir.north [s] [] hsB List.nodup_nil (by simp)
    Relation.ReflTransGen.refl (by unfold wfFuel; simp)
  refine ⟨path, m', h1, ?_, h2⟩
  unfold wallFollowerSolve
  rw [hs, he]
  exact h1

/-- Claim C8, witness: the wall follower on the concrete 1x1 maze. -/
theorem claim_c8_witness :
    ∃ path m', wfLoop c8maze.resetSolution (4 * c8maze.width * c8maze.height + 2)
        (0, 0) Dir.north [(0, 0)] [] = some (path, m') ∧
      wallFollowerSolve c8maze = some (path, m') ∧ m'.solutionPath = path :=
  claim_c8 c8maze (0, 0) (0, 0) (by decide) (by decide) (by decide)

/-- Claim C9: `remove_wall_between` returns `false` and changes nothing when
the two cells are at Manhattan distance other than 1; at Manhattan distance
exactly 1 it removes precisely the facing pair of walls on the two cells and
returns `true`. -/
theorem claim_c9 (m : Maze) (a b : Pos) :
    ((a.1 - b.1).natAbs + (a.2 - b.2).natAbs ≠ 1 →
      m.removeWallBetween a b = (m, false)) ∧
    ((a.1 - b.1).natAbs + (a.2 - b.2).natAbs = 1 →
      ∃ d, b = posAdd a d ∧ (m.removeWallBetween a b).2 = true ∧
        (m.removeWallBetween a b).1.walls a d = false ∧
        (m.removeWallBetween a b).1.walls b d.opposite = false ∧
        ∀ p e, ¬(p = a ∧ e = d) → ¬(p = b ∧ e = d.opposite) →
          (m.removeWallBetween a b).1.walls p e = m.walls p e) := by
  constructor
  · intro hman
    apply removeWallBetween_not_adjacent
    have hnot : ¬ (((a.1 - b.1).natAbs = 1 ∧ (a.2 - b.2).natAbs = 0) ∨
        ((a.1 - b.1).natAbs = 0 ∧ (a.2 - b.2).natAbs = 1)) := by
      omega
    unfold areAdjacent
    exact decide_eq_false hnot
  · intro hman
    have hadj : areAdjacent a b = true := by
      unfold areAdjacent
      refine decide_eq_true ?_
      omega
    obtain ⟨d, rfl⟩ := (areAdjacent_iff a b).mp hadj
    refine ⟨d, rfl, ?_, ?_, ?_, ?_⟩
    · rw [removeWallBetween_posAdd]
    · rw [removeWallBetween_walls]
      simp
    · rw [removeWallBetween_walls]
      simp
    · intro p e h1 h2
      rw [removeWallBetween_walls]
      rw [if_neg]
      rintro (hc | hc)
      · exact h1 hc
      · exact h2 hc

/-- Claim C9, witness: a non-adjacent pair is refused and an adjacent pair has
its facing wall pair removed, on a concrete 2x2 grid. -/
theorem claim_c9_witness :
    (mkMaze 2 2).removeWallBetween (0, 0) (0, 5) = (mkMaze 2 2, false) ∧
    (∃ d, ((1, 0) : Pos) = posAdd (0, 0) d ∧
      ((mkMaze 2 2).removeWallBetween (0, 0) (1, 0)).2 = true ∧
      ((mkMaze 2 2).removeWallBetween (0, 0) (1, 0)).1.walls (0, 0) d = false ∧
      ((mkMaze 2 2).removeWallBetween (0, 0) (1, 0)).1.walls (1, 0) d.opposite = false ∧
      ∀ p e, ¬(p = (0, 0) ∧ e = d) → ¬(p = ((1, 0) : Pos) ∧ e = d.opposite) →
        ((mkMaze 2 2).removeWallBetween (0, 0) (1, 0)).1.walls p e =
          (mkMaze 2 2).walls p e) :=
  ⟨(claim_c9 (mkMaze 2 2) (0, 0) (0, 5)).1 (by decide),
   (claim_c9 (mkMaze 2 2) (0, 0) (1, 0)).2 (by decide)⟩

/-- Claim C10: on the concrete 3x3 maze DFS generates from `sig10`, with start
`(0,0)` and end `(2,2)` set through the public setters, the wall follower
returns a path that visits the cells `(0,2)` and `(1,2)` twice (it walks into
a dead-end branch and back out), so the returned path — which is also written
to the solution path — is not duplicate-free. -/
theorem claim_c10 :
    dfsGenerate sig10 0 (mkMaze 3 3) = some c10gen ∧
    (c10gen.1.setStart 0 0).2 = true ∧
    ((c10gen.1.setStart 0 0).1.setEnd 2 2).2 = true ∧
    wallFollowerSolve c10maze = some c10res ∧
    c10res.2.solutionPath = c10res.1 ∧
    ¬ c10res.1.Nodup :=
  ⟨rfl, by decide, by decide, rfl, by decide, by decide⟩

end MazeGen
